import Mathlib

/-!
# Trajectory planner (`src/C/PathPlanner.c`)

A shallow embedding of the trajectory-generation pipeline: the injection planner
`injectionCounter2Steps`, the linear upsampler `inject`, the relaxation `smoother`
and the three-stage driver `smoothPath`.

Modelling conventions.

* The `float` arithmetic of `injectionCounter2Steps` is IEEE 754 single precision:
  every operation is the exact operation followed by rounding to the nearest value
  with a 24-bit significand, ties to even (`fl32`), with overflow to an infinity and
  division by zero as in IEEE 754 (`F32`); a product and the sum that follows it are
  rounded one after the other (no fused multiply-add).  The two zeros are not
  distinguished; zero stands for `+0`.  `injectionCounter2StepsF32` is the function so
  computed, and it is the planner that `smoothPath` calls; `injectionCounter2Steps` is
  the same text with every operation exact, the reference against which the plan is
  specified.
* The conversion of an `int` to `float` rounds in the same way (the count passed to the
  planner, the sentinel stored in `finalPath[0][0]`).
* The coordinates of the points are exact rationals (`ℚ`): the interpolation of `inject`
  and the relaxation of `smoother` are computed without rounding, and the weights and the
  tolerance that `smoothPath` passes on are the decimal constants of the source.
* The conversion of a floating value to `int` is the truncation toward zero when the
  result is a 32-bit `int`, and `INT_MIN` otherwise, as on x86.
* C `int` counts and loop indices are natural numbers; the embedding covers the
  executions in which no `int` computation overflows (signed overflow is
  undefined in C).
* A `float**` array is a list of rows.  A read outside the array yields `0`, a
  write outside the array is dropped (both are undefined in C); cells that
  `malloc` leaves uninitialised hold `0`.
* Loops that always terminate are folds over their index range; the `while`
  loop of `smoother` takes a fuel argument and returns `none` when it is used up.
-/

namespace PathPlanner

/-! ## Data model -/

/-- A `float**` path: a list of points, each a list of coordinates. -/
abbrev Path := List (List ℚ)

/-- The loop `for (int i = lo; i < hi; i++) body`, threading the state `s`. -/
def forLoop {σ : Type} (lo hi : Nat) (body : Nat → σ → σ) (s : σ) : σ :=
  (List.range' lo (hi - lo)).foldl (fun st i => body i st) s

/-- The read `a[i][j]`. -/
def rd (a : Path) (i j : Nat) : ℚ := (a.getD i []).getD j 0

/-- The write `a[i][j] = v`. -/
def wr (a : Path) (i j : Nat) (v : ℚ) : Path := a.set i ((a.getD i []).set j v)

/-- The allocation of `n` rows of `d` floats each (lines 91-94, 133-136, 192-195). -/
def mallocRows (n d : Nat) : Path := List.replicate n (List.replicate d 0)

/-- A path of exactly `N` points, each of dimension `D`. -/
def WellFormed (N D : Nat) (p : Path) : Prop :=
  p.length = N ∧ ∀ row ∈ p, row.length = D

instance (N D : Nat) (p : Path) : Decidable (WellFormed N D p) := by
  unfold WellFormed; infer_instance

/-! ## Single-precision arithmetic -/

/-- The position of the leading binary digit of `n`, by repeated halving; `fuel` bounds the
number of halvings. -/
def log2Fuel : ℕ → ℕ → ℕ
  | 0, _ => 0
  | fuel + 1, n => if n < 2 then 0 else log2Fuel fuel (n / 2) + 1

/-- The position of the leading binary digit of `n`: `2 ^ log2Nat n ≤ n < 2 ^ (log2Nat n + 1)`
for `n ≥ 1`. -/
def log2Nat (n : ℕ) : ℕ := log2Fuel n n

/-- The power `2 ^ e` for an integer exponent. -/
def pow2 (e : ℤ) : ℚ :=
  if 0 ≤ e then ((2 ^ e.toNat : ℕ) : ℚ) else 1 / ((2 ^ (-e).toNat : ℕ) : ℚ)

/-- Rounding to the nearest integer, ties to the even one. -/
def roundHalfEven (x : ℚ) : ℤ :=
  let f : ℤ := x.num / (x.den : ℤ)
  let d : ℚ := x - (f : ℚ)
  if d < 1 / 2 then f else if 1 / 2 < d then f + 1 else if f % 2 = 0 then f else f + 1

/-- Rounding of a rational to single precision: the nearest multiple of `2 ^ (e - 23)`, ties
to even, where `2 ^ e ≤ |x| < 2 ^ (e + 1)`; below the normal range the spacing is `2 ^ -149`.
The exponent is not bounded above here; `toF32` treats the overflow. -/
def fl32 (x : ℚ) : ℚ :=
  if x = 0 then 0 else
    let a : ℕ := x.num.natAbs
    let b : ℕ := x.den
    let e0 : ℤ := (log2Nat a : ℤ) - (log2Nat b : ℤ)
    let e : ℤ := if pow2 e0 * (b : ℚ) ≤ (a : ℚ) then e0 else e0 - 1
    let q : ℚ := pow2 (max (e - 23) (-149))
    (roundHalfEven (x / q) : ℚ) * q

/-- A value of type `float`: a finite number, an infinity, or a NaN. -/
inductive F32 where
  | finite (q : ℚ)
  | posInf
  | negInf
  | nan
  deriving DecidableEq

/-- The `float` nearest to the exact result `x` of an operation: a result that rounds to
`2 ^ 128` or beyond in absolute value overflows to the infinity of its sign. -/
def toF32 (x : ℚ) : F32 :=
  if 340282366920938463463374607431768211456 ≤ fl32 x then F32.posInf
  else if fl32 x ≤ -340282366920938463463374607431768211456 then F32.negInf
  else F32.finite (fl32 x)

/-- The `float` addition. -/
def fadd : F32 → F32 → F32
  | F32.finite a, F32.finite b => toF32 (a + b)
  | F32.nan, _ => F32.nan
  | _, F32.nan => F32.nan
  | F32.posInf, F32.negInf => F32.nan
  | F32.negInf, F32.posInf => F32.nan
  | F32.posInf, _ => F32.posInf
  | _, F32.posInf => F32.posInf
  | F32.negInf, _ => F32.negInf
  | _, F32.negInf => F32.negInf

/-- The `float` subtraction. -/
def fsub : F32 → F32 → F32
  | F32.finite a, F32.finite b => toF32 (a - b)
  | F32.nan, _ => F32.nan
  | _, F32.nan => F32.nan
  | F32.posInf, F32.posInf => F32.nan
  | F32.negInf, F32.negInf => F32.nan
  | F32.posInf, _ => F32.posInf
  | _, F32.negInf => F32.posInf
  | F32.negInf, _ => F32.negInf
  | _, F32.posInf => F32.negInf

/-- The `float` multiplication. -/
def fmul : F32 → F32 → F32
  | F32.finite a, F32.finite b => toF32 (a * b)
  | F32.nan, _ => F32.nan
  | _, F32.nan => F32.nan
  | F32.finite a, F32.posInf =>
    if a = 0 then F32.nan else if 0 < a then F32.posInf else F32.negInf
  | F32.finite a, F32.negInf =>
    if a = 0 then F32.nan else if 0 < a then F32.negInf else F32.posInf
  | F32.posInf, F32.finite b =>
    if b = 0 then F32.nan else if 0 < b then F32.posInf else F32.negInf
  | F32.negInf, F32.finite b =>
    if b = 0 then F32.nan else if 0 < b then F32.negInf else F32.posInf
  | F32.posInf, F32.posInf => F32.posInf
  | F32.negInf, F32.negInf => F32.posInf
  | F32.posInf, F32.negInf => F32.negInf
  | F32.negInf, F32.posInf => F32.negInf

/-- The `float` division; a finite nonzero number divided by zero is the infinity of its
sign, and `0 / 0` is a NaN. -/
def fdiv : F32 → F32 → F32
  | F32.finite a, F32.finite b =>
    if b = 0 then (if a = 0 then F32.nan else if 0 < a then F32.posInf else F32.negInf)
    else toF32 (a / b)
  | F32.nan, _ => F32.nan
  | _, F32.nan => F32.nan
  | F32.finite _, _ => F32.finite 0
  | F32.posInf, F32.finite b => if 0 ≤ b then F32.posInf else F32.negInf
  | F32.negInf, F32.finite b => if 0 ≤ b then F32.negInf else F32.posInf
  | _, _ => F32.nan

/-- The comparison `a <= b` of two `float`s; every comparison with a NaN is false. -/
def fle : F32 → F32 → Bool
  | F32.finite a, F32.finite b => decide (a ≤ b)
  | F32.nan, _ => false
  | _, F32.nan => false
  | F32.negInf, _ => true
  | _, F32.posInf => true
  | _, _ => false

/-- The comparison `a < b` of two `float`s; every comparison with a NaN is false. -/
def flt : F32 → F32 → Bool
  | F32.finite a, F32.finite b => decide (a < b)
  | F32.nan, _ => false
  | _, F32.nan => false
  | F32.posInf, _ => false
  | _, F32.negInf => false
  | _, _ => true

/-! ## `injectionCounter2Steps` (lines 24-82) -/

/-- The text of `injectionCounter2Steps` with every arithmetic operation exact; the result is
the array `ret` of three counts.  The function as the machine computes it is
`injectionCounter2StepsF32`. -/
def injectionCounter2Steps (numNodeOnlyPoints maxTimeToComplete timeStep : ℚ) : List ℕ :=
  let totalPoints := maxTimeToComplete / timeStep
  if totalPoints < 100 then
    -- state: (first, second, oldPointsTotal)
    let st : ℕ × ℕ × ℚ := forLoop 4 7 (fun i st =>
      forLoop 1 9 (fun j st =>
        let pointsFirst := (i : ℚ) * (numNodeOnlyPoints - 1) + numNodeOnlyPoints
        let pointsTotal := (j : ℚ) * (pointsFirst - 1) + pointsFirst
        if pointsTotal ≤ totalPoints ∧ pointsTotal > st.2.2 then (i, j, pointsTotal) else st) st)
      (0, 0, 0)
    [st.1, st.2.1, 0]
  else
    -- state: (first, second, third)
    let st : ℕ × ℕ × ℕ := forLoop 1 6 (fun i st =>
      forLoop 1 9 (fun j st =>
        forLoop 1 8 (fun k st =>
          let pointsFirst := (i : ℚ) * (numNodeOnlyPoints - 1) + numNodeOnlyPoints
          let pointsSecond := (j : ℚ) * (pointsFirst - 1) + pointsFirst
          let pointsTotal := (k : ℚ) * (pointsSecond - 1) + pointsSecond
          if pointsTotal ≤ totalPoints then (i, j, k) else st) st) st)
      (0, 0, 0)
    [st.1, st.2.1, st.2.2]

/-- The projected point count after two stages with counts `i` then `j`
(`pointsTotal` of the low-budget branch, lines 44-45). -/
def pointsAfterStage2 (n : ℚ) (i j : ℕ) : ℚ :=
  (j : ℚ) * (((i : ℚ) * (n - 1) + n) - 1) + ((i : ℚ) * (n - 1) + n)

/-- The projected point count after three stages with counts `i`, `j`, `k`
(`pointsTotal` of the high-budget branch, lines 63-65). -/
def pointsAfterStage3 (n : ℚ) (i j k : ℕ) : ℚ :=
  (k : ℚ) * (pointsAfterStage2 n i j - 1) + pointsAfterStage2 n i j

/-- The `float` expression `m * (p - 1) + p` of lines 44-45 and 63-65: the loop index `m` and
the constant `1` are converted to `float`, and each of the three operations rounds. -/
def stageF32 (m : ℕ) (p : F32) : F32 :=
  fadd (fmul (F32.finite (m : ℚ)) (fsub p (F32.finite 1))) p

/-- The `float` quotient `totalPoints = maxTimeToComplete / timeStep` (line 35). -/
def totalPointsF32 (maxTimeToComplete timeStep : ℚ) : F32 :=
  fdiv (F32.finite maxTimeToComplete) (F32.finite timeStep)

/-- The function `injectionCounter2Steps` in single precision, for finite arguments; the
result is the array `ret` of three counts. -/
def injectionCounter2StepsF32 (numNodeOnlyPoints maxTimeToComplete timeStep : ℚ) : List ℕ :=
  let totalPoints := totalPointsF32 maxTimeToComplete timeStep
  if flt totalPoints (F32.finite 100) then
    -- state: (first, second, oldPointsTotal)
    let st : ℕ × ℕ × F32 := forLoop 4 7 (fun i st =>
      forLoop 1 9 (fun j st =>
        let pointsFirst := stageF32 i (F32.finite numNodeOnlyPoints)
        let pointsTotal := stageF32 j pointsFirst
        if fle pointsTotal totalPoints ∧ flt st.2.2 pointsTotal then (i, j, pointsTotal)
        else st) st)
      (0, 0, F32.finite 0)
    [st.1, st.2.1, 0]
  else
    -- state: (first, second, third)
    let st : ℕ × ℕ × ℕ := forLoop 1 6 (fun i st =>
      forLoop 1 9 (fun j st =>
        forLoop 1 8 (fun k st =>
          let pointsFirst := stageF32 i (F32.finite numNodeOnlyPoints)
          let pointsSecond := stageF32 j pointsFirst
          let pointsTotal := stageF32 k pointsSecond
          if fle pointsTotal totalPoints then (i, j, k) else st) st) st)
      (0, 0, 0)
    [st.1, st.2.1, st.2.2]

/-! ## `inject` (lines 88-123) -/

/-- The function `inject`; the loop state is `(morePoints, index)`. -/
def inject (numWayPoints dimWayPoint : Nat) (orig : Path) (numToInject : Nat) : Path :=
  let newNumWayPoints := numWayPoints + numToInject * (numWayPoints - 1)
  let morePoints := mallocRows newNumWayPoints dimWayPoint
  let st : Path × Nat := forLoop 0 (numWayPoints - 1) (fun i st =>
      let st1 : Path × Nat :=
        (forLoop 0 dimWayPoint (fun j mp => wr mp st.2 j (rd orig i j)) st.1, st.2 + 1)
      forLoop 1 (numToInject + 1) (fun j st =>
        (forLoop 0 dimWayPoint (fun k mp =>
            wr mp st.2 k
              ((j : ℚ) * ((rd orig (i + 1) k - rd orig i k) / ((numToInject : ℚ) + 1))
                + rd orig i k)) st.1,
          st.2 + 1)) st1)
    (morePoints, 0)
  forLoop 0 dimWayPoint (fun j mp => wr mp st.2 j (rd orig (numWayPoints - 1) j)) st.1

/-! ## `smoother` (lines 131-157) -/

/-- The conversion of a floating value to the 32-bit `int`: truncation toward zero when the
truncated value lies in `[-2^31, 2^31 - 1]`; for every other value the result is `INT_MIN`,
the value that the x86 conversion instructions deliver (C leaves the conversion undefined). -/
def truncToInt (x : ℚ) : ℤ :=
  let t := Int.tdiv x.num x.den
  if -2147483648 ≤ t ∧ t ≤ 2147483647 then t else -2147483648

/-- The call `abs(x)` on a floating argument (line 151): `abs` is the integer function of
`<stdlib.h>`, so `x` is converted to `int` first and the result converted back; in two's
complement `abs(INT_MIN)` is `INT_MIN`, a negative value. -/
def cAbs (x : ℚ) : ℚ :=
  let t := truncToInt x
  if t = -2147483648 then -2147483648 else ((t.natAbs : ℕ) : ℚ)

/-- One execution of the body of the `while` loop (lines 146-153) on `newPath`;
the result is `(newPath, change)`. -/
def smootherPass (numWayPoints dimWayPoint : Nat) (path : Path) (weight_data weight_smooth : ℚ)
    (newPath : Path) : Path × ℚ :=
  forLoop 1 (numWayPoints - 1) (fun i st =>
    forLoop 0 dimWayPoint (fun j st =>
      let aux := rd st.1 i j
      let np := wr st.1 i j
        (aux + (weight_data * (rd path i j - aux)
          + weight_smooth * (rd st.1 (i - 1) j + rd st.1 (i + 1) j - 2 * aux)))
      (np, st.2 + cAbs (aux - rd np i j))) st)
    (newPath, 0)

/-- The loop `while (change >= tolerance)` (lines 145-154) from the state `(newPath, change)`;
each evaluation of the loop condition uses one unit of fuel. -/
def smootherLoop (numWayPoints dimWayPoint : Nat) (path : Path)
    (weight_data weight_smooth tolerance : ℚ) : Nat → Path × ℚ → Option Path
  | 0, _ => none
  | fuel + 1, st =>
    if st.2 ≥ tolerance then
      smootherLoop numWayPoints dimWayPoint path weight_data weight_smooth tolerance fuel
        (smootherPass numWayPoints dimWayPoint path weight_data weight_smooth st.1)
    else some st.1

/-- The copy of `path` into the fresh array `newPath` (lines 133-142). -/
def smootherCopy (numWayPoints dimWayPoint : Nat) (path : Path) : Path :=
  forLoop 0 numWayPoints (fun i np =>
    forLoop 0 dimWayPoint (fun j np => wr np i j (rd path i j)) np)
    (mallocRows numWayPoints dimWayPoint)

/-- The function `smoother`. -/
def smoother (fuel : Nat) (numWayPoints dimWayPoint : Nat) (path : Path)
    (weight_data weight_smooth tolerance : ℚ) : Option Path :=
  smootherLoop numWayPoints dimWayPoint path weight_data weight_smooth tolerance fuel
    (smootherCopy numWayPoints dimWayPoint path, tolerance)

/-- The state `(newPath, change)` of `smoother` after `n` executions of the loop body. -/
def smootherPasses (numWayPoints dimWayPoint : Nat) (path : Path)
    (weight_data weight_smooth tolerance : ℚ) : Nat → Path × ℚ
  | 0 => (smootherCopy numWayPoints dimWayPoint path, tolerance)
  | n + 1 =>
    smootherPass numWayPoints dimWayPoint path weight_data weight_smooth
      (smootherPasses numWayPoints dimWayPoint path weight_data weight_smooth tolerance n).1

/-- The sum over the interior points `1 .. N-2` and all coordinates of the true absolute
difference `|old - new|` between two paths. -/
def trueChange (numWayPoints dimWayPoint : Nat) (old new : Path) : ℚ :=
  forLoop 1 (numWayPoints - 1) (fun i acc =>
    forLoop 0 dimWayPoint (fun j acc => acc + |rd old i j - rd new i j|) acc) 0

/-! ## `smoothPath` (lines 160-212) -/

/-- The point count after one injection stage (lines 178, 185). -/
def countAfter (numPoints injections : Nat) : Nat :=
  numPoints + injections * (numPoints - 1)

/-- The point count after the three stages of a plan, applied in order. -/
def plannedCount (pointCount : Nat) (plan : List ℕ) : Nat :=
  countAfter (countAfter (countAfter pointCount (plan.getD 0 0)) (plan.getD 1 0)) (plan.getD 2 0)

/-- The inject/smooth loop of `smoothPath` (lines 166-189); the result is
`(numPoints, path)`, or `none` when a call of `smoother` does not return.  The count
`numWayPoints` is converted to `float` for the call of the planner (line 171). -/
def smoothStages (fuel : Nat) (numWayPoints dimWayPoint : Nat) (wayPoints : Path)
    (totalTime timeStep : ℚ) : Option (Nat × Path) :=
  let pathAlpha : ℚ := 7 / 10
  let pathBeta : ℚ := 3 / 10
  let pathTolerance : ℚ := 1 / 10000000
  let injections := injectionCounter2StepsF32 (fl32 (numWayPoints : ℚ)) totalTime timeStep
  forLoop 0 3 (fun i st =>
    st.bind (fun (numPoints, path) =>
      let injected :=
        inject numPoints dimWayPoint (if i = 0 then wayPoints else path) (injections.getD i 0)
      let numPoints := countAfter numPoints (injections.getD i 0)
      (smoother fuel numPoints dimWayPoint injected pathAlpha pathBeta pathTolerance).map
        (fun smoothed => (numPoints, smoothed))))
    (some (numWayPoints, []))

/-- The packaging of the final path (lines 192-203): a sentinel row followed by the points.
The `int` value `numPoints + 1` is converted to `float` when it is stored (line 197). -/
def packageFinal (numPoints dimWayPoint : Nat) (path : Path) : Path :=
  let finalPath := mallocRows (numPoints + 1) dimWayPoint
  let finalPath := wr finalPath 0 0 (fl32 ((numPoints : ℚ) + 1))
  forLoop 0 numPoints (fun i fp =>
    forLoop 0 dimWayPoint (fun j fp => wr fp (i + 1) j (rd path i j)) fp) finalPath

/-- The function `smoothPath`. -/
def smoothPath (fuel : Nat) (numWayPoints dimWayPoint : Nat) (wayPoints : Path)
    (totalTime timeStep : ℚ) : Option Path :=
  (smoothStages fuel numWayPoints dimWayPoint wayPoints totalTime timeStep).map
    (fun st => packageFinal st.1 dimWayPoint st.2)

/-- The waypoints of the driver `test` (lines 216-232). -/
def testPoints : Path := [[1, 2], [2, 7], [4, 7], [6, 9], [10, 11]]

/-! ## Auxiliary definitions: the rows written by `inject` -/

/-- The interpolated row number `j` of segment `i` (line 111). -/
def interpRow (D : Nat) (orig : Path) (k i j : Nat) : List ℚ :=
  (List.range D).map (fun c =>
    (j : ℚ) * ((rd orig (i + 1) c - rd orig i c) / ((k : ℚ) + 1)) + rd orig i c)

/-- The rows written for segment `i`: the copy of point `i`, then `k` interpolated rows. -/
def injectSegment (D : Nat) (orig : Path) (k i : Nat) : Path :=
  (List.range D).map (rd orig i) :: (List.range k).map (fun t => interpRow D orig k i (t + 1))

/-- The rows written for the segments `0 .. n-1`. -/
def injectUpTo (D : Nat) (orig : Path) (k : Nat) : Nat → Path
  | 0 => []
  | n + 1 => injectUpTo D orig k n ++ injectSegment D orig k n

/-- All rows written by `inject`, in the order of the writes. -/
def injectRows (N D : Nat) (orig : Path) (k : Nat) : Path :=
  injectUpTo D orig k (N - 1) ++ [(List.range D).map (rd orig (N - 1))]


/-! ## Auxiliary definitions: the grids searched by `injectionCounter2Steps` -/

/-- The pairs `(i, j)` of the low-budget search (lines 42-43), in the order of the loops. -/
def lowGrid : List (ℕ × ℕ) := List.product (List.range' 4 3) (List.range' 1 8)

/-- The triples `(i, j, k)` of the high-budget search (lines 60-62), in the order of the loops. -/
def highGrid : List (ℕ × ℕ × ℕ) :=
  List.product (List.range' 1 5) (List.product (List.range' 1 8) (List.range' 1 7))

/-- The body of the low-budget loops (lines 44-52) on the state
`(first, second, oldPointsTotal)`. -/
def lowStep (n B : ℚ) (st : ℕ × ℕ × ℚ) (x : ℕ × ℕ) : ℕ × ℕ × ℚ :=
  if pointsAfterStage2 n x.1 x.2 ≤ B ∧ pointsAfterStage2 n x.1 x.2 > st.2.2 then
    (x.1, x.2, pointsAfterStage2 n x.1 x.2) else st

/-- The body of the high-budget loops (lines 63-71) on the state `(first, second, third)`. -/
def highStep (n B : ℚ) (st : ℕ × ℕ × ℕ) (x : ℕ × ℕ × ℕ) : ℕ × ℕ × ℕ :=
  if pointsAfterStage3 n x.1 x.2.1 x.2.2 ≤ B then x else st

/-- The body of the low-budget loops (lines 44-52) in single precision, on the state
`(first, second, oldPointsTotal)`, for the quotient `totalPoints`. -/
def lowStepF32 (n : ℚ) (totalPoints : F32) (st : ℕ × ℕ × F32) (x : ℕ × ℕ) : ℕ × ℕ × F32 :=
  if fle (stageF32 x.2 (stageF32 x.1 (F32.finite n))) totalPoints ∧
      flt st.2.2 (stageF32 x.2 (stageF32 x.1 (F32.finite n))) then
    (x.1, x.2, stageF32 x.2 (stageF32 x.1 (F32.finite n))) else st

/-- The body of the high-budget loops (lines 63-71) in single precision, on the state
`(first, second, third)`, for the quotient `totalPoints`. -/
def highStepF32 (n : ℚ) (totalPoints : F32) (st : ℕ × ℕ × ℕ) (x : ℕ × ℕ × ℕ) : ℕ × ℕ × ℕ :=
  if fle (stageF32 x.2.2 (stageF32 x.2.1 (stageF32 x.1 (F32.finite n)))) totalPoints then x
  else st

/-- A rational that compares with `100` and with every count from `-2^24` to `2^24` as the
quotient `totalPoints` does, when that quotient is not a NaN. -/
def budgetOf : F32 → ℚ
  | F32.finite b => b
  | F32.posInf => 340282366920938463463374607431768211456
  | _ => -340282366920938463463374607431768211456

/-- The `float` `p` is `+inf` or a finite number that is at least `c`. -/
def atLeast (c : ℚ) (p : F32) : Prop :=
  p = F32.posInf ∨ ∃ q : ℚ, p = F32.finite q ∧ c ≤ q

/-- The state of the exact low-budget search as a state of the single-precision search. -/
def liftLow (st : ℕ × ℕ × ℚ) : ℕ × ℕ × F32 := (st.1, st.2.1, F32.finite st.2.2)

/-- The order in which the nested loops visit pairs: `i` outer, `j` inner. -/
def lexLt2 (a b : ℕ × ℕ) : Prop := a.1 < b.1 ∨ (a.1 = b.1 ∧ a.2 < b.2)

instance (a b : ℕ × ℕ) : Decidable (lexLt2 a b) := by
  unfold lexLt2; infer_instance

/-- The order in which the nested loops visit triples: `i` outer, then `j`, then `k`. -/
def lexLt3 (a b : ℕ × ℕ × ℕ) : Prop :=
  a.1 < b.1 ∨ (a.1 = b.1 ∧ (a.2.1 < b.2.1 ∨ (a.2.1 = b.2.1 ∧ a.2.2 < b.2.2)))

instance (a b : ℕ × ℕ × ℕ) : Decidable (lexLt3 a b) := by
  unfold lexLt3; infer_instance

/-! ## Auxiliary definitions: the relaxation pass, row by row -/

/-- The loop over the coordinates of one point (lines 148-152) on the row `s` of the point,
given the rows `prev` and `next` of its neighbours and the row `r` of the reference path;
the result is the new row and the updated `change`. -/
def relaxRow (wd ws : ℚ) (D : Nat) (prev s next r : List ℚ) (change : ℚ) : List ℚ × ℚ :=
  forLoop 0 D (fun j (acc : List ℚ × ℚ) =>
    let aux := acc.1.getD j 0
    let row := acc.1.set j
      (aux + (wd * (r.getD j 0 - aux) + ws * (prev.getD j 0 + next.getD j 0 - 2 * aux)))
    (row, acc.2 + cAbs (aux - row.getD j 0))) (s, change)

/-- The loop over the points from index `i` on (line 147): `prev` is the row of point `i - 1`,
already updated, and the list holds the rows of the points `i, i + 1, ...`; the last row of
the path is left as it is. -/
def relaxFrom (wd ws : ℚ) (D : Nat) (path : Path) : Nat → List ℚ → Path → ℚ → Path × ℚ
  | i, prev, s :: next :: rest, change =>
    let row := relaxRow wd ws D prev s next (path.getD i []) change
    let tl := relaxFrom wd ws D path (i + 1) row.1 (next :: rest) row.2
    (row.1 :: tl.1, tl.2)
  | _, _, S, change => (S, change)

/-- One relaxation pass over `newPath`, computed row by row. -/
def relaxPass (wd ws : ℚ) (D : Nat) (path newPath : Path) : Path × ℚ :=
  match newPath with
  | s0 :: S => ((s0 :: (relaxFrom wd ws D path 1 s0 S 0).1), (relaxFrom wd ws D path 1 s0 S 0).2)
  | [] => ([], 0)

/-- The loop of `smoother` with the pass computed row by row. -/
def relaxLoop (D : Nat) (path : Path) (wd ws tol : ℚ) : Nat → Path × ℚ → Option Path
  | 0, _ => none
  | fuel + 1, st =>
    if st.2 ≥ tol then relaxLoop D path wd ws tol fuel (relaxPass wd ws D path st.1)
    else some st.1

/-- The three stages of `smoothPath` and the packaging, computed row by row. -/
def smoothPathRows (fuel N D : Nat) (wp : Path) (T dt : ℚ) : Option Path :=
  let plan := injectionCounter2StepsF32 (fl32 (N : ℚ)) T dt
  let n1 := countAfter N (plan.getD 0 0)
  let n2 := countAfter n1 (plan.getD 1 0)
  let n3 := countAfter n2 (plan.getD 2 0)
  (relaxLoop D (injectRows N D wp (plan.getD 0 0)) (7 / 10) (3 / 10) (1 / 10000000) fuel
      (injectRows N D wp (plan.getD 0 0), 1 / 10000000)).bind fun p1 =>
  (relaxLoop D (injectRows n1 D p1 (plan.getD 1 0)) (7 / 10) (3 / 10) (1 / 10000000) fuel
      (injectRows n1 D p1 (plan.getD 1 0), 1 / 10000000)).bind fun p2 =>
  (relaxLoop D (injectRows n2 D p2 (plan.getD 2 0)) (7 / 10) (3 / 10) (1 / 10000000) fuel
      (injectRows n2 D p2 (plan.getD 2 0), 1 / 10000000)).map fun p3 =>
  (List.replicate D (0 : ℚ)).set 0 (fl32 ((n3 : ℚ) + 1)) :: p3

/-! ## Auxiliary definitions: the value written by one update -/

/-- The value assigned to `newPath[i][j]` at line 150 when the point is `S[i]`, the reference
path is `R`, the right neighbour is `S[i+1]` and the left neighbour's coordinate is `left`. -/
def relaxValue (wd ws : ℚ) (R S : Path) (i j : Nat) (left : ℚ) : ℚ :=
  rd S i j + (wd * (rd R i j - rd S i j) + ws * (left + rd S (i + 1) j - 2 * rd S i j))

/-- Invariant of the loop over the points (line 147) before point `m` is processed, for a
pass started on `S`: the rows not yet processed are those of `S`, the rows `1 .. m-1` hold
the values of `relaxValue` with the updated left neighbour, and, as long as every processed
coordinate moved by less than `2^31`, `change` is a natural number that is `0` exactly when
every processed coordinate moved by less than 1. -/
def PassInv (D : Nat) (wd ws : ℚ) (R S : Path) (m : Nat) (st : Path × ℚ) : Prop :=
  st.1.map List.length = S.map List.length ∧
  (∀ i j, (i = 0 ∨ m ≤ i) → rd st.1 i j = rd S i j) ∧
  (∀ i j, 1 ≤ i → i < m → j < D →
    rd st.1 i j = relaxValue wd ws R S i j (rd st.1 (i - 1) j)) ∧
  ((∀ i j, 1 ≤ i → i < m → j < D → |rd S i j - rd st.1 i j| < 2147483648) →
    ∃ k : ℕ, st.2 = (k : ℚ) ∧
      (k = 0 ↔ ∀ i j, 1 ≤ i → i < m → j < D → |rd S i j - rd st.1 i j| < 1))

/-- Invariant of the loop over the coordinates (line 148) of point `m` before coordinate `j`
is processed, where `st0` is the state in which the loop was entered. -/
def RowInv (D : Nat) (wd ws : ℚ) (R S : Path) (st0 : Path × ℚ) (m j : Nat)
    (st : Path × ℚ) : Prop :=
  st.1.map List.length = S.map List.length ∧
  (∀ i c, i ≠ m → rd st.1 i c = rd st0.1 i c) ∧
  (∀ c, c < j → rd st.1 m c = relaxValue wd ws R S m c (rd st0.1 (m - 1) c)) ∧
  (∀ c, j ≤ c → rd st.1 m c = rd S m c) ∧
  (((∀ i c, 1 ≤ i → i < m → c < D → |rd S i c - rd st0.1 i c| < 2147483648) ∧
      ∀ c, c < j → |rd S m c - rd st.1 m c| < 2147483648) →
    ∃ k : ℕ, st.2 = (k : ℚ) ∧
      (k = 0 ↔ (∀ i c, 1 ≤ i → i < m → c < D → |rd S i c - rd st0.1 i c| < 1) ∧
        ∀ c, c < j → |rd S m c - rd st.1 m c| < 1))

/-! ## Auxiliary definitions: the length of a path of dimension 1 -/

/-- The total point-to-point length of a path of `N` points of dimension 1, where the
Euclidean distance between two points is the absolute value of the difference of their
coordinates. -/
def pathLength1 (N : Nat) (p : Path) : ℚ :=
  forLoop 0 (N - 1) (fun i acc => acc + |rd p (i + 1) 0 - rd p i 0|) 0

/-- A path of dimension 1 that rises from 0 to 5 at its second point. -/
def stepPath : Path := [[0], [5], [5], [5], [5], [5], [5]]

/-- The path of `N` points of dimension `D` with every coordinate `0`. -/
def constPath (N D : Nat) : Path := List.replicate N (List.replicate D 0)
/-! ## Loops -/

theorem forLoop_empty {σ : Type} (lo hi : Nat) (body : Nat → σ → σ) (s : σ) (h : hi ≤ lo) :
    forLoop lo hi body s = s := by
  simp [forLoop, Nat.sub_eq_zero_of_le h]

theorem forLoop_succ {σ : Type} (lo hi : Nat) (body : Nat → σ → σ) (s : σ) (h : lo ≤ hi) :
    forLoop lo (hi + 1) body s = body hi (forLoop lo hi body s) := by
  unfold forLoop
  have e : hi + 1 - lo = (hi - lo) + 1 := by omega
  rw [e, List.range'_1_concat, List.foldl_append]
  simp only [List.foldl_cons, List.foldl_nil]
  congr 1
  omega

/-- Invariant rule for `forLoop`. -/
theorem forLoop_inv {σ : Type} (P : Nat → σ → Prop) (lo hi : Nat) (body : Nat → σ → σ) (s : σ)
    (hle : lo ≤ hi) (h0 : P lo s)
    (hstep : ∀ i st, lo ≤ i → i < hi → P i st → P (i + 1) (body i st)) :
    P hi (forLoop lo hi body s) := by
  induction hi with
  | zero =>
    have : lo = 0 := by omega
    subst this
    simpa [forLoop] using h0
  | succ n ih =>
    by_cases hn : lo ≤ n
    · rw [forLoop_succ lo n body s hn]
      exact hstep n _ hn (Nat.lt_succ_self n)
        (ih hn (fun i st h1 h2 h3 => hstep i st h1 (Nat.lt_succ_of_lt h2) h3))
    · have : lo = n + 1 := by omega
      subst this
      rw [forLoop_empty _ _ _ _ (le_refl _)]
      exact h0

/-! ## Array writes -/

theorem getD_append_length {α : Type} (pre post : List α) (x d : α) :
    (pre ++ x :: post).getD pre.length d = x := by
  induction pre with
  | nil => rfl
  | cons a l ih => simpa using ih

theorem set_append_length {α : Type} (pre post : List α) (x y : α) :
    (pre ++ x :: post).set pre.length y = pre ++ y :: post := by
  induction pre with
  | nil => rfl
  | cons a l ih => simp [ih]

theorem set_append_of_length {α : Type} (pre post : List α) (x y : α) (n : Nat)
    (h : pre.length = n) : (pre ++ x :: post).set n y = pre ++ y :: post := by
  subst h
  exact set_append_length pre post x y

theorem wr_append (pre post : Path) (row : List ℚ) (j : Nat) (v : ℚ) :
    wr (pre ++ row :: post) pre.length j v = pre ++ row.set j v :: post := by
  unfold wr
  rw [getD_append_length, set_append_length]

/-- Writing the cells `0 .. D-1` of one row of length `D` replaces the row. -/
theorem writeRow_append (D : Nat) (pre post : Path) (row : List ℚ) (f : Nat → ℚ)
    (h : row.length = D) :
    forLoop 0 D (fun j mp => wr mp pre.length j (f j)) (pre ++ row :: post)
      = pre ++ (List.range D).map f :: post := by
  have key := forLoop_inv
    (fun m mp => mp = pre ++ ((List.range m).map f ++ row.drop m) :: post) 0 D
    (fun j mp => wr mp pre.length j (f j)) (pre ++ row :: post) (Nat.zero_le _) (by simp)
    (by
      intro m st _ hm hst
      subst hst
      show wr _ _ _ _ = _
      rw [wr_append]
      congr 2
      have hlen : ((List.range m).map f).length = m := by simp
      have hd : row.drop m = row[m] :: row.drop (m + 1) := by
        rw [List.drop_eq_getElem_cons (by omega)]
      rw [hd, List.range_succ, List.map_append, List.append_assoc]
      rw [set_append_of_length _ _ _ _ m hlen]
      simp)
  rw [key, List.drop_of_length_le (by omega)]
  simp

/-- The row of coordinates `0 .. D-1` read from row `i` of a well-formed path is that row. -/
theorem map_rd_eq (D : Nat) (p : Path) (i : Nat) (row : List ℚ) (hrow : p[i]? = some row)
    (hlen : row.length = D) : (List.range D).map (rd p i) = row := by
  apply List.ext_getElem
  · simp [hlen]
  · intro c h1 h2
    simp only [List.getElem_map, List.getElem_range, rd]
    simp [List.getD_eq_getElem?_getD, hrow, List.getElem?_eq_getElem h2]

/-! ## The rows written by `inject` -/

theorem injectSegment_length (D : Nat) (orig : Path) (k i : Nat) :
    (injectSegment D orig k i).length = k + 1 := by
  simp [injectSegment]

theorem injectUpTo_length (D : Nat) (orig : Path) (k n : Nat) :
    (injectUpTo D orig k n).length = n * (k + 1) := by
  induction n with
  | zero => simp [injectUpTo]
  | succ n ih => simp [injectUpTo, ih, injectSegment_length]; ring

/-- The loop over the interpolated rows of one segment (lines 108-114). -/
theorem inject_inner (D : Nat) (g : Nat → Nat → ℚ) (k : Nat) :
    ∀ (r : Nat) (pre : Path),
    forLoop 1 (k + 1) (fun j (st : Path × Nat) =>
        (forLoop 0 D (fun c mp => wr mp st.2 c (g j c)) st.1, st.2 + 1))
      (pre ++ List.replicate (k + r) (List.replicate D 0), pre.length)
    = (pre ++ (List.range k).map (fun t => (List.range D).map (g (t + 1)))
        ++ List.replicate r (List.replicate D 0), pre.length + k) := by
  induction k with
  | zero => intro r pre; simp [forLoop]
  | succ k ih =>
    intro r pre
    rw [forLoop_succ _ _ _ _ (by omega)]
    have e : k + 1 + r = k + (r + 1) := by omega
    rw [e, ih (r + 1) pre]
    simp only
    have hlen : (pre ++ (List.range k).map (fun t => (List.range D).map (g (t + 1)))).length
        = pre.length + k := by simp
    rw [← hlen, List.replicate_succ, writeRow_append D _ _ _ _ (by simp)]
    simp [List.range_succ]
    omega

/-- The array returned by `inject` holds exactly the rows written, in order. -/
theorem inject_eq_rows (N D : Nat) (orig : Path) (k : Nat) (hN : 1 ≤ N) :
    inject N D orig k = injectRows N D orig k := by
  unfold inject
  simp only
  have key := forLoop_inv
    (fun i (st : Path × Nat) =>
      st = (injectUpTo D orig k i
              ++ List.replicate ((N - 1 - i) * (k + 1) + 1) (List.replicate D 0),
            i * (k + 1)))
    0 (N - 1)
    (fun i (st : Path × Nat) =>
      forLoop 1 (k + 1) (fun j (st : Path × Nat) =>
        (forLoop 0 D (fun c mp =>
            wr mp st.2 c
              ((j : ℚ) * ((rd orig (i + 1) c - rd orig i c) / ((k : ℚ) + 1)) + rd orig i c)) st.1,
          st.2 + 1))
        (forLoop 0 D (fun j mp => wr mp st.2 j (rd orig i j)) st.1, st.2 + 1))
    (mallocRows (N + k * (N - 1)) D, 0) (Nat.zero_le _)
    (by
      simp only [injectUpTo, List.nil_append, Nat.sub_zero, Nat.zero_mul, mallocRows]
      congr 2
      obtain ⟨n, rfl⟩ : ∃ n, N = n + 1 := ⟨N - 1, by omega⟩
      simp only [Nat.add_sub_cancel]
      ring)
    (by
      intro i st _ hi hst
      subst hst
      simp only
      have hrem : (N - 1 - i) * (k + 1) + 1 = (k + ((N - 1 - (i + 1)) * (k + 1) + 1)) + 1 := by
        obtain ⟨d, hd⟩ : ∃ d, N - 1 - i = d + 1 := ⟨N - 1 - i - 1, by omega⟩
        have hd2 : N - 1 - (i + 1) = d := by omega
        rw [hd, hd2]
        ring
      have hidx : i * (k + 1) = (injectUpTo D orig k i).length :=
        (injectUpTo_length D orig k i).symm
      rw [hrem, List.replicate_succ, hidx, writeRow_append D _ _ _ _ (by simp)]
      have hpre : (injectUpTo D orig k i).length + 1
          = (injectUpTo D orig k i ++ [(List.range D).map (rd orig i)]).length := by simp
      have happ : injectUpTo D orig k i
            ++ List.map (rd orig i) (List.range D)
              :: List.replicate (k + ((N - 1 - (i + 1)) * (k + 1) + 1)) (List.replicate D 0)
          = (injectUpTo D orig k i ++ [List.map (rd orig i) (List.range D)])
              ++ List.replicate (k + ((N - 1 - (i + 1)) * (k + 1) + 1)) (List.replicate D 0) := by
        simp
      rw [hpre, happ,
        inject_inner D
          (fun j c => (j : ℚ) * ((rd orig (i + 1) c - rd orig i c) / ((k : ℚ) + 1)) + rd orig i c)
          k _ _]
      simp only [injectUpTo, injectSegment, interpRow, List.length_append, List.length_cons,
        List.length_nil, injectUpTo_length, Prod.mk.injEq]
      constructor
      · simp
      · ring)
  rw [key]
  simp only [Nat.sub_self, Nat.zero_mul, Nat.zero_add, List.replicate_one]
  rw [← injectUpTo_length D orig k (N - 1), writeRow_append D _ _ _ _ (by simp)]
  rfl

theorem injectUpTo_getElem? (D : Nat) (orig : Path) (k n m t : Nat) (hm : m < n)
    (ht : t ≤ k) :
    (injectUpTo D orig k n)[m * (k + 1) + t]? = (injectSegment D orig k m)[t]? := by
  induction n with
  | zero => omega
  | succ n ih =>
    simp only [injectUpTo]
    by_cases hmn : m < n
    · have hlt : m * (k + 1) + t < (injectUpTo D orig k n).length := by
        rw [injectUpTo_length]
        calc m * (k + 1) + t < m * (k + 1) + (k + 1) := by omega
          _ = (m + 1) * (k + 1) := by ring
          _ ≤ n * (k + 1) := Nat.mul_le_mul_right _ hmn
      rw [List.getElem?_append_left hlt]
      exact ih hmn
    · have hmn2 : m = n := by omega
      subst hmn2
      have hge : (injectUpTo D orig k m).length ≤ m * (k + 1) + t := by
        rw [injectUpTo_length]; omega
      rw [List.getElem?_append_right hge, injectUpTo_length]
      congr 1
      omega

theorem inject_length (N D : Nat) (orig : Path) (k : Nat) (hN : 1 ≤ N) :
    (inject N D orig k).length = N + k * (N - 1) := by
  rw [inject_eq_rows N D orig k hN]
  simp only [injectRows, List.length_append, injectUpTo_length, List.length_cons,
    List.length_nil]
  obtain ⟨n, rfl⟩ : ∃ n, N = n + 1 := ⟨N - 1, by omega⟩
  simp only [Nat.add_sub_cancel]
  ring

/-- Row `m * (k + 1) + t` of the result, for a segment `m` and an offset `t ≤ k`. -/
theorem inject_getElem?_segment (N D : Nat) (orig : Path) (k m t : Nat) (hN : 1 ≤ N)
    (hm : m < N - 1) (ht : t ≤ k) :
    (inject N D orig k)[m * (k + 1) + t]? = (injectSegment D orig k m)[t]? := by
  rw [inject_eq_rows N D orig k hN]
  unfold injectRows
  have hlt : m * (k + 1) + t < (injectUpTo D orig k (N - 1)).length := by
    rw [injectUpTo_length]
    calc m * (k + 1) + t < m * (k + 1) + (k + 1) := by omega
      _ = (m + 1) * (k + 1) := by ring
      _ ≤ (N - 1) * (k + 1) := Nat.mul_le_mul_right _ hm
  rw [List.getElem?_append_left hlt]
  exact injectUpTo_getElem? D orig k (N - 1) m t hm ht

/-- The last row of the result is the copy of the last point. -/
theorem inject_getElem?_last (N D : Nat) (orig : Path) (k : Nat) (hN : 1 ≤ N) :
    (inject N D orig k)[(N - 1) * (k + 1)]? = some ((List.range D).map (rd orig (N - 1))) := by
  rw [inject_eq_rows N D orig k hN]
  unfold injectRows
  have hge : (injectUpTo D orig k (N - 1)).length ≤ (N - 1) * (k + 1) := by
    rw [injectUpTo_length]
  rw [List.getElem?_append_right hge, injectUpTo_length]
  simp

/-- The original points sit at stride `k + 1` in the result of `inject`. -/
theorem inject_getElem?_original (N D : Nat) (orig : Path) (k m : Nat) (hN : 1 ≤ N)
    (hwf : WellFormed N D orig) (hm : m < N) :
    (inject N D orig k)[m * (k + 1)]? = orig[m]? := by
  obtain ⟨hlen, hdim⟩ := hwf
  have hm2 : m < orig.length := by omega
  obtain ⟨row, hrow, hD⟩ : ∃ row, orig[m]? = some row ∧ row.length = D :=
    ⟨orig[m], List.getElem?_eq_getElem hm2, hdim _ (List.getElem_mem hm2)⟩
  rw [hrow]
  by_cases hlast : m < N - 1
  · have h := inject_getElem?_segment N D orig k m 0 hN hlast (Nat.zero_le _)
    rw [Nat.add_zero] at h
    rw [h]
    simp only [injectSegment, List.getElem?_cons_zero]
    rw [map_rd_eq D orig m _ hrow hD]
  · have hmN : m = N - 1 := by omega
    subst hmN
    rw [inject_getElem?_last N D orig k hN, map_rd_eq D orig (N - 1) _ hrow hD]

/-- Every row of the result of `inject` has `D` coordinates. -/
theorem inject_wellFormed (N D : Nat) (orig : Path) (k : Nat) (hN : 1 ≤ N) :
    WellFormed (N + k * (N - 1)) D (inject N D orig k) := by
  refine ⟨inject_length N D orig k hN, ?_⟩
  rw [inject_eq_rows N D orig k hN]
  have hpre : ∀ n, ∀ row ∈ injectUpTo D orig k n, row.length = D := by
    intro n
    induction n with
    | zero => simp [injectUpTo]
    | succ n ih =>
      intro row hrow
      simp only [injectUpTo, List.mem_append] at hrow
      rcases hrow with h | h
      · exact ih row h
      · simp only [injectSegment, List.mem_cons, List.mem_map] at h
        rcases h with h | ⟨t, _, h⟩
        · simp [h]
        · simp [← h, interpRow]
  intro row hrow
  simp only [injectRows, List.mem_append, List.mem_singleton] at hrow
  rcases hrow with h | h
  · exact hpre _ row h
  · simp [h]

/-! ## Copy loops -/

/-- A loop that copies the rows of `path` cell by cell into consecutive fresh rows. -/
theorem copyRows (n D : Nat) (path pre : Path) (off : Nat) (hoff : pre.length = off)
    (hwf : WellFormed n D path) :
    forLoop 0 n (fun i np =>
        forLoop 0 D (fun j np => wr np (i + off) j (rd path i j)) np)
      (pre ++ List.replicate n (List.replicate D 0))
    = pre ++ path := by
  obtain ⟨hlen, hdim⟩ := hwf
  have key := forLoop_inv
    (fun i np => np = pre ++ (path.take i ++ List.replicate (n - i) (List.replicate D 0))) 0 n
    (fun i np => forLoop 0 D (fun j np => wr np (i + off) j (rd path i j)) np)
    (pre ++ List.replicate n (List.replicate D 0)) (Nat.zero_le _) (by simp)
    (by
      intro i st _ hi hst
      subst hst
      simp only
      have hi2 : i < path.length := by omega
      have hrem : n - i = (n - (i + 1)) + 1 := by omega
      have hidx : i + off = (pre ++ path.take i).length := by
        simp [hoff]; omega
      rw [hrem, List.replicate_succ, ← List.append_assoc, hidx,
        writeRow_append D _ _ _ _ (by simp),
        map_rd_eq D path i path[i] (List.getElem?_eq_getElem hi2)
          (hdim _ (List.getElem_mem hi2))]
      rw [List.take_succ, List.getElem?_eq_getElem hi2]
      simp only [Option.toList, List.append_assoc, List.cons_append, List.nil_append])
  rw [key]
  simp [List.take_of_length_le (le_of_eq hlen)]

theorem smootherCopy_eq (N D : Nat) (path : Path) (hwf : WellFormed N D path) :
    smootherCopy N D path = path := by
  have h := copyRows N D path [] 0 rfl hwf
  simpa [smootherCopy, mallocRows] using h

/-- The array built by `packageFinal`: the sentinel row, then the points. -/
theorem packageFinal_eq (cnt D : Nat) (path : Path) (hwf : WellFormed cnt D path) :
    packageFinal cnt D path
      = (List.replicate D (0 : ℚ)).set 0 (fl32 ((cnt : ℚ) + 1)) :: path := by
  unfold packageFinal
  simp only
  have h0 : wr (mallocRows (cnt + 1) D) 0 0 (fl32 ((cnt : ℚ) + 1))
      = [(List.replicate D (0 : ℚ)).set 0 (fl32 ((cnt : ℚ) + 1))]
          ++ List.replicate cnt (List.replicate D 0) := by
    simp [wr, mallocRows, List.replicate_succ]
  rw [h0]
  exact copyRows cnt D path [(List.replicate D (0 : ℚ)).set 0 (fl32 ((cnt : ℚ) + 1))] 1 rfl hwf

/-! ## The relaxation pass -/

theorem wr_getElem?_ne (a : Path) (i j i2 : Nat) (v : ℚ) (h : i ≠ i2) :
    (wr a i j v)[i2]? = a[i2]? := by
  simp [wr, List.getElem?_set_ne h]

theorem wr_map_length (a : Path) (i j : Nat) (v : ℚ) :
    (wr a i j v).map List.length = a.map List.length := by
  apply List.ext_getElem?
  intro m
  unfold wr
  by_cases hm : i = m
  · subst hm
    by_cases hi : i < a.length
    · simp [List.getElem?_set_self, hi, List.getD_eq_getElem?_getD, List.getElem?_eq_getElem hi]
    · have h1 : a.length ≤ i := by omega
      simp [List.getElem?_eq_none, h1]
  · simp [List.getElem?_set_ne hm]

/-- The shape of a path: the list of the dimensions of its points. -/
theorem wellFormed_iff_shape (N D : Nat) (p : Path) :
    WellFormed N D p ↔ p.map List.length = List.replicate N D := by
  unfold WellFormed
  constructor
  · rintro ⟨hlen, hdim⟩
    rw [List.eq_replicate_iff]
    refine ⟨by simp [hlen], ?_⟩
    intro b hb
    obtain ⟨row, hrow, rfl⟩ := List.mem_map.mp hb
    exact hdim row hrow
  · intro h
    rw [List.eq_replicate_iff] at h
    refine ⟨by simpa using h.1, ?_⟩
    intro row hrow
    exact h.2 _ (List.mem_map.mpr ⟨row, hrow, rfl⟩)

/-- One pass writes only rows `1 .. N-2` and keeps the shape of the path. -/
theorem smootherPass_frame (N D : Nat) (path : Path) (wd ws : ℚ) (np : Path) :
    (smootherPass N D path wd ws np).1.map List.length = np.map List.length ∧
      ∀ m, (m = 0 ∨ N - 1 ≤ m) → (smootherPass N D path wd ws np).1[m]? = np[m]? := by
  unfold smootherPass
  by_cases hN : 1 ≤ N - 1
  · exact forLoop_inv
      (fun _ (st : Path × ℚ) => st.1.map List.length = np.map List.length ∧
        ∀ m, (m = 0 ∨ N - 1 ≤ m) → st.1[m]? = np[m]?) 1 (N - 1) _ (np, 0) hN
      ⟨rfl, fun _ _ => rfl⟩
      (by
        intro i st hi1 hi2 hst
        exact forLoop_inv
          (fun _ (s : Path × ℚ) => s.1.map List.length = np.map List.length ∧
            ∀ m, (m = 0 ∨ N - 1 ≤ m) → s.1[m]? = np[m]?) 0 D _ st (Nat.zero_le _) hst
          (by
            intro j s _ _ hs
            refine ⟨by simp only [wr_map_length]; exact hs.1, ?_⟩
            intro m hm
            simp only
            rw [wr_getElem?_ne _ _ _ _ _ (by omega)]
            exact hs.2 m hm))
  · rw [forLoop_empty _ _ _ _ (by omega)]
    exact ⟨rfl, fun _ _ => rfl⟩

theorem smootherPasses_frame (N D : Nat) (path : Path) (wd ws tol : ℚ)
    (hwf : WellFormed N D path) (n : Nat) :
    WellFormed N D (smootherPasses N D path wd ws tol n).1 ∧
      ∀ m, (m = 0 ∨ N - 1 ≤ m) → (smootherPasses N D path wd ws tol n).1[m]? = path[m]? := by
  induction n with
  | zero =>
    simp only [smootherPasses, smootherCopy_eq N D path hwf]
    exact ⟨hwf, fun _ _ => trivial⟩
  | succ n ih =>
    simp only [smootherPasses]
    have h := smootherPass_frame N D path wd ws (smootherPasses N D path wd ws tol n).1
    refine ⟨?_, fun m hm => (h.2 m hm).trans (ih.2 m hm)⟩
    rw [wellFormed_iff_shape, h.1, ← wellFormed_iff_shape]
    exact ih.1

/-- When the loop of `smoother` exits, it does so after some number of passes, the last of
which left `change` below `tolerance`. -/
theorem smootherLoop_some (N D : Nat) (path : Path) (wd ws tol : ℚ) (r : Path) :
    ∀ (fuel n : Nat),
      smootherLoop N D path wd ws tol fuel (smootherPasses N D path wd ws tol n) = some r →
      ∃ m, n ≤ m ∧ r = (smootherPasses N D path wd ws tol m).1 ∧
        (smootherPasses N D path wd ws tol m).2 < tol := by
  intro fuel
  induction fuel with
  | zero => intro n h; simp [smootherLoop] at h
  | succ fuel ih =>
    intro n h
    simp only [smootherLoop] at h
    split at h
    · obtain ⟨m, hm, hr⟩ := ih (n + 1) h
      exact ⟨m, by omega, hr⟩
    · rename_i hlt
      exact ⟨n, le_refl _, by simpa using h.symm, lt_of_not_ge hlt⟩

theorem smoother_some (fuel N D : Nat) (path : Path) (wd ws tol : ℚ) (r : Path)
    (h : smoother fuel N D path wd ws tol = some r) :
    ∃ m, r = (smootherPasses N D path wd ws tol m).1 ∧
      (smootherPasses N D path wd ws tol m).2 < tol := by
  obtain ⟨m, _, hr⟩ := smootherLoop_some N D path wd ws tol r fuel 0 h
  exact ⟨m, hr⟩

/-! ## The planner as a scan of its grid -/

theorem foldl_product {α β σ : Type} (f : σ → α × β → σ) (l1 : List α) (l2 : List β) (s : σ) :
    (List.product l1 l2).foldl f s
      = l1.foldl (fun st a => l2.foldl (fun st b => f st (a, b)) st) s := by
  induction l1 generalizing s with
  | nil => rfl
  | cons a l ih =>
    have e : (a :: l).product l2 = List.map (fun b => (a, b)) l2 ++ l.product l2 :=
      List.product_cons a l l2
    rw [e, List.foldl_append, List.foldl_map, ih]
    rfl

theorem planner_low_eq (n T dt : ℚ) (h : T / dt < 100) :
    injectionCounter2Steps n T dt =
      [(lowGrid.foldl (lowStep n (T / dt)) (0, 0, 0)).1,
       (lowGrid.foldl (lowStep n (T / dt)) (0, 0, 0)).2.1, 0] := by
  unfold injectionCounter2Steps lowGrid
  simp only [h, if_true]
  rw [foldl_product]
  rfl

theorem planner_high_eq (n T dt : ℚ) (h : ¬ T / dt < 100) :
    injectionCounter2Steps n T dt =
      [(highGrid.foldl (highStep n (T / dt)) (0, 0, 0)).1,
       (highGrid.foldl (highStep n (T / dt)) (0, 0, 0)).2.1,
       (highGrid.foldl (highStep n (T / dt)) (0, 0, 0)).2.2] := by
  unfold injectionCounter2Steps highGrid
  simp only [h, if_false]
  rw [foldl_product]
  simp only [foldl_product]
  rfl

theorem lowGrid_sorted : lowGrid.Pairwise lexLt2 := by decide!

theorem highGrid_sorted : highGrid.Pairwise lexLt3 := by decide!

theorem mem_lowGrid (i j : ℕ) : (i, j) ∈ lowGrid ↔ (4 ≤ i ∧ i ≤ 6) ∧ (1 ≤ j ∧ j ≤ 8) := by
  unfold lowGrid
  rw [List.pair_mem_product, List.mem_range'_1, List.mem_range'_1]
  omega

theorem mem_highGrid (i j k : ℕ) :
    (i, j, k) ∈ highGrid ↔ (1 ≤ i ∧ i ≤ 5) ∧ (1 ≤ j ∧ j ≤ 8) ∧ (1 ≤ k ∧ k ≤ 7) := by
  unfold highGrid
  rw [List.pair_mem_product, List.pair_mem_product, List.mem_range'_1, List.mem_range'_1,
    List.mem_range'_1]
  omega

/-- The low-budget scan keeps the first element of greatest value among the feasible ones
whose value exceeds the initial `oldPointsTotal`. -/
theorem lowFold_spec (n B : ℚ) : ∀ (l : List (ℕ × ℕ)) (st : ℕ × ℕ × ℚ),
    (l.foldl (lowStep n B) st = st ∧
        ∀ y ∈ l, pointsAfterStage2 n y.1 y.2 ≤ B → pointsAfterStage2 n y.1 y.2 ≤ st.2.2) ∨
    (∃ l1 x l2, l = l1 ++ x :: l2 ∧
        l.foldl (lowStep n B) st = (x.1, x.2, pointsAfterStage2 n x.1 x.2) ∧
        pointsAfterStage2 n x.1 x.2 ≤ B ∧ st.2.2 < pointsAfterStage2 n x.1 x.2 ∧
        (∀ y ∈ l1, pointsAfterStage2 n y.1 y.2 ≤ B →
          pointsAfterStage2 n y.1 y.2 < pointsAfterStage2 n x.1 x.2) ∧
        (∀ y ∈ l2, pointsAfterStage2 n y.1 y.2 ≤ B →
          pointsAfterStage2 n y.1 y.2 ≤ pointsAfterStage2 n x.1 x.2)) := by
  intro l
  induction l with
  | nil => intro st; left; simp
  | cons a l ih =>
    intro st
    simp only [List.foldl_cons]
    by_cases hstep : pointsAfterStage2 n a.1 a.2 ≤ B ∧ pointsAfterStage2 n a.1 a.2 > st.2.2
    · have hs : lowStep n B st a = (a.1, a.2, pointsAfterStage2 n a.1 a.2) := by
        simp only [lowStep, hstep, and_self, if_true]
      rw [hs]
      right
      rcases ih (a.1, a.2, pointsAfterStage2 n a.1 a.2) with ⟨hr, hall⟩ | ⟨l1, x, l2, hl, hr, hx, hgt, h1, h2⟩
      · exact ⟨[], a, l, rfl, hr, hstep.1, hstep.2, by simp, hall⟩
      · refine ⟨a :: l1, x, l2, by simp [hl], hr, hx, lt_trans hstep.2 hgt, ?_, h2⟩
        intro y hy hyB
        rcases List.mem_cons.mp hy with rfl | hy
        · exact hgt
        · exact h1 y hy hyB
    · have hs : lowStep n B st a = st := by
        simp only [lowStep, hstep, if_false]
      rw [hs]
      rcases ih st with ⟨hr, hall⟩ | ⟨l1, x, l2, hl, hr, hx, hgt, h1, h2⟩
      · left
        refine ⟨hr, ?_⟩
        intro y hy hyB
        rcases List.mem_cons.mp hy with rfl | hy
        · by_contra hcon
          exact hstep ⟨hyB, lt_of_not_ge hcon⟩
        · exact hall y hy hyB
      · right
        refine ⟨a :: l1, x, l2, by simp [hl], hr, hx, hgt, ?_, h2⟩
        intro y hy hyB
        rcases List.mem_cons.mp hy with rfl | hy
        · by_contra hcon
          exact hstep ⟨hyB, lt_of_lt_of_le hgt (le_of_not_gt hcon) ⟩
        · exact h1 y hy hyB

/-- The high-budget scan keeps the last feasible element. -/
theorem highFold_spec (n B : ℚ) : ∀ (l : List (ℕ × ℕ × ℕ)) (st : ℕ × ℕ × ℕ),
    (l.foldl (highStep n B) st = st ∧
        ∀ y ∈ l, ¬ pointsAfterStage3 n y.1 y.2.1 y.2.2 ≤ B) ∨
    (∃ l1 x l2, l = l1 ++ x :: l2 ∧ l.foldl (highStep n B) st = x ∧
        pointsAfterStage3 n x.1 x.2.1 x.2.2 ≤ B ∧
        ∀ y ∈ l2, ¬ pointsAfterStage3 n y.1 y.2.1 y.2.2 ≤ B) := by
  intro l
  induction l with
  | nil => intro st; left; simp
  | cons a l ih =>
    intro st
    simp only [List.foldl_cons]
    by_cases hstep : pointsAfterStage3 n a.1 a.2.1 a.2.2 ≤ B
    · have hs : highStep n B st a = a := by simp only [highStep, hstep, if_true]
      rw [hs]
      right
      rcases ih a with ⟨hr, hall⟩ | ⟨l1, x, l2, hl, hr, hx, h2⟩
      · exact ⟨[], a, l, rfl, hr, hstep, hall⟩
      · exact ⟨a :: l1, x, l2, by simp [hl], hr, hx, h2⟩
    · have hs : highStep n B st a = st := by simp only [highStep, hstep, if_false]
      rw [hs]
      rcases ih st with ⟨hr, hall⟩ | ⟨l1, x, l2, hl, hr, hx, h2⟩
      · left
        refine ⟨hr, ?_⟩
        intro y hy
        rcases List.mem_cons.mp hy with rfl | hy
        · exact hstep
        · exact hall y hy
      · right
        exact ⟨a :: l1, x, l2, by simp [hl], hr, hx, h2⟩

theorem pointsAfterStage2_pos (n : ℚ) (i j : ℕ) (hn : 1 ≤ n) : 0 < pointsAfterStage2 n i j := by
  have e : pointsAfterStage2 n i j = ((j : ℚ) + 1) * ((i : ℚ) + 1) * (n - 1) + 1 := by
    unfold pointsAfterStage2; ring
  rw [e]
  have h1 : (0 : ℚ) ≤ n - 1 := by linarith
  positivity

theorem countAfter_cast (n a : ℕ) (hn : 1 ≤ n) :
    ((countAfter n a : ℕ) : ℚ) = (a : ℚ) * ((n : ℚ) - 1) + (n : ℚ) := by
  unfold countAfter
  push_cast [Nat.cast_sub hn]
  ring

theorem countAfter_pos (n a : ℕ) (hn : 1 ≤ n) : 1 ≤ countAfter n a := by
  unfold countAfter
  omega

theorem plannedCount_cast (n a b c : ℕ) (hn : 1 ≤ n) :
    ((plannedCount n [a, b, c] : ℕ) : ℚ) = pointsAfterStage3 (n : ℚ) a b c := by
  unfold plannedCount pointsAfterStage3 pointsAfterStage2
  simp only [List.getD_cons_zero, List.getD_cons_succ]
  rw [countAfter_cast _ c (countAfter_pos _ b (countAfter_pos n a hn)),
    countAfter_cast _ b (countAfter_pos n a hn), countAfter_cast n a hn]

theorem pointsAfterStage3_zero (n : ℚ) (i j : ℕ) :
    pointsAfterStage3 n i j 0 = pointsAfterStage2 n i j := by
  simp [pointsAfterStage3]

/-- The plan returned is `(0, 0, 0)` or a combination whose projected count fits the budget. -/
theorem planner_feasible_or_zero (n T dt : ℚ) :
    injectionCounter2Steps n T dt = [0, 0, 0] ∨
      ∃ a b c, injectionCounter2Steps n T dt = [a, b, c] ∧ pointsAfterStage3 n a b c ≤ T / dt := by
  by_cases hlow : T / dt < 100
  · rw [planner_low_eq n T dt hlow]
    rcases lowFold_spec n (T / dt) lowGrid (0, 0, 0) with
      ⟨hr, _⟩ | ⟨l1, x, l2, _, hr, hx, _, _, _⟩
    · left; rw [hr]
    · right
      exact ⟨x.1, x.2, 0, by rw [hr], by rw [pointsAfterStage3_zero]; exact hx⟩
  · rw [planner_high_eq n T dt hlow]
    rcases highFold_spec n (T / dt) highGrid (0, 0, 0) with
      ⟨hr, _⟩ | ⟨l1, x, l2, _, hr, hx, _⟩
    · left; rw [hr]
    · right
      exact ⟨x.1, x.2.1, x.2.2, by rw [hr], hx⟩

/-! ## The stages of `smoothPath` -/

/-- One inject/smooth stage on a well-formed path: the shape of the result and its
endpoints. -/
theorem stage_spec (fuel n D : Nat) (src : Path) (k : Nat) (wd ws tol : ℚ) (r : Path)
    (hn : 1 ≤ n) (hwf : WellFormed n D src)
    (h : smoother fuel (countAfter n k) D (inject n D src k) wd ws tol = some r) :
    WellFormed (countAfter n k) D r ∧ 1 ≤ countAfter n k ∧
      r[0]? = src[0]? ∧ r[countAfter n k - 1]? = src[n - 1]? := by
  have hinj : WellFormed (countAfter n k) D (inject n D src k) := inject_wellFormed n D src k hn
  obtain ⟨m, rfl, _⟩ := smoother_some fuel _ D _ wd ws tol r h
  have hframe := smootherPasses_frame (countAfter n k) D (inject n D src k) wd ws tol hinj m
  refine ⟨hframe.1, countAfter_pos n k hn, ?_, ?_⟩
  · rw [hframe.2 0 (Or.inl rfl)]
    have h0 := inject_getElem?_original n D src k 0 hn hwf (by omega)
    simpa using h0
  · rw [hframe.2 _ (Or.inr (le_refl _))]
    have hl := inject_getElem?_original n D src k (n - 1) hn hwf (by omega)
    have hidx : countAfter n k - 1 = (n - 1) * (k + 1) := by
      unfold countAfter
      obtain ⟨d, rfl⟩ : ∃ d, n = d + 1 := ⟨n - 1, by omega⟩
      simp only [Nat.add_sub_cancel]
      have : d + 1 + k * d = d * (k + 1) + 1 := by ring
      omega
    rw [hidx]
    exact hl

/-- The three stages of `smoothPath`, one after the other. -/
theorem smoothStages_eq (fuel N D : Nat) (wp : Path) (T dt : ℚ) :
    smoothStages fuel N D wp T dt =
      (smoother fuel (countAfter N ((injectionCounter2StepsF32 (fl32 (N : ℚ)) T dt).getD 0 0)) D
          (inject N D wp ((injectionCounter2StepsF32 (fl32 (N : ℚ)) T dt).getD 0 0))
          (7 / 10) (3 / 10) (1 / 10000000)).bind (fun p1 =>
        (smoother fuel
            (countAfter (countAfter N ((injectionCounter2StepsF32 (fl32 (N : ℚ)) T dt).getD 0 0))
              ((injectionCounter2StepsF32 (fl32 (N : ℚ)) T dt).getD 1 0)) D
            (inject (countAfter N ((injectionCounter2StepsF32 (fl32 (N : ℚ)) T dt).getD 0 0)) D p1
              ((injectionCounter2StepsF32 (fl32 (N : ℚ)) T dt).getD 1 0))
            (7 / 10) (3 / 10) (1 / 10000000)).bind (fun p2 =>
          (smoother fuel (plannedCount N (injectionCounter2StepsF32 (fl32 (N : ℚ)) T dt)) D
              (inject
                (countAfter (countAfter N ((injectionCounter2StepsF32 (fl32 (N : ℚ)) T dt).getD 0 0))
                  ((injectionCounter2StepsF32 (fl32 (N : ℚ)) T dt).getD 1 0)) D p2
                ((injectionCounter2StepsF32 (fl32 (N : ℚ)) T dt).getD 2 0))
              (7 / 10) (3 / 10) (1 / 10000000)).map (fun p3 =>
            (plannedCount N (injectionCounter2StepsF32 (fl32 (N : ℚ)) T dt), p3)))) := by
  unfold smoothStages plannedCount
  simp only [forLoop, Nat.sub_zero, List.range', List.foldl_cons, List.foldl_nil,
    Option.some_bind, if_true, Nat.zero_add, Nat.reduceAdd, OfNat.ofNat_ne_zero,
    Nat.one_ne_zero, if_false]
  cases smoother fuel (countAfter N ((injectionCounter2StepsF32 (fl32 (N : ℚ)) T dt).getD 0 0)) D
      (inject N D wp ((injectionCounter2StepsF32 (fl32 (N : ℚ)) T dt).getD 0 0))
      (7 / 10) (3 / 10) (1 / 10000000) with
  | none => rfl
  | some p1 =>
    simp only [Option.map_some', Option.some_bind]
    cases smoother fuel
        (countAfter (countAfter N ((injectionCounter2StepsF32 (fl32 (N : ℚ)) T dt).getD 0 0))
          ((injectionCounter2StepsF32 (fl32 (N : ℚ)) T dt).getD 1 0)) D
        (inject (countAfter N ((injectionCounter2StepsF32 (fl32 (N : ℚ)) T dt).getD 0 0)) D p1
          ((injectionCounter2StepsF32 (fl32 (N : ℚ)) T dt).getD 1 0))
        (7 / 10) (3 / 10) (1 / 10000000) with
    | none => rfl
    | some p2 => rfl

/-- When the three stages return, the final path is well-formed with `numPoints` points and
has the endpoints of the waypoints. -/
theorem smoothStages_spec (fuel N D : Nat) (wp : Path) (T dt : ℚ) (cnt : Nat) (p : Path)
    (hN : 1 ≤ N) (hwf : WellFormed N D wp)
    (h : smoothStages fuel N D wp T dt = some (cnt, p)) :
    cnt = plannedCount N (injectionCounter2StepsF32 (fl32 (N : ℚ)) T dt) ∧ 1 ≤ cnt ∧
      WellFormed cnt D p ∧ p[0]? = wp[0]? ∧ p[cnt - 1]? = wp[N - 1]? := by
  rw [smoothStages_eq] at h
  obtain ⟨p1, h1, h⟩ := Option.bind_eq_some.mp h
  obtain ⟨p2, h2, h⟩ := Option.bind_eq_some.mp h
  obtain ⟨p3, h3, h⟩ := Option.map_eq_some'.mp h
  have s1 := stage_spec fuel N D wp _ _ _ _ p1 hN hwf h1
  have s2 := stage_spec fuel _ D p1 _ _ _ _ p2 s1.2.1 s1.1 h2
  have s3 := stage_spec fuel _ D p2 _ _ _ _ p3 s2.2.1 s2.1 h3
  have hc : plannedCount N (injectionCounter2StepsF32 (fl32 (N : ℚ)) T dt) = cnt := congrArg Prod.fst h
  have hp : p3 = p := congrArg Prod.snd h
  subst hp
  rw [← hc]
  exact ⟨rfl, s3.2.1, s3.1, s3.2.2.1.trans (s2.2.2.1.trans s1.2.2.1),
    s3.2.2.2.trans (s2.2.2.2.trans s1.2.2.2)⟩

/-! ## The relaxation pass, row by row -/

theorem forLoop_first {σ : Type} (lo hi : Nat) (body : Nat → σ → σ) (s : σ) (h : lo < hi) :
    forLoop lo hi body s = forLoop (lo + 1) hi body (body lo s) := by
  unfold forLoop
  have e : hi - lo = (hi - (lo + 1)) + 1 := by omega
  rw [e, List.range'_succ]
  rfl

theorem rd_mid (pre post : Path) (row : List ℚ) (i j : Nat) (hi : pre.length = i) :
    rd (pre ++ row :: post) i j = row.getD j 0 := by
  subst hi
  unfold rd
  rw [getD_append_length]

theorem wr_mid (pre post : Path) (row : List ℚ) (i j : Nat) (v : ℚ) (hi : pre.length = i) :
    wr (pre ++ row :: post) i j v = pre ++ row.set j v :: post := by
  subst hi
  exact wr_append pre post row j v

/-- The loop over the coordinates of point `i` acts on row `i` alone, as `relaxRow` does. -/
theorem smoother_inner_eq (wd ws : ℚ) (D : Nat) (path : Path) (pre rest : Path)
    (prev s next : List ℚ) (change : ℚ) (i : Nat) (hi : pre.length + 1 = i) :
    forLoop 0 D (fun j (st : Path × ℚ) =>
        (wr st.1 i j
            (rd st.1 i j + (wd * (rd path i j - rd st.1 i j)
              + ws * (rd st.1 (i - 1) j + rd st.1 (i + 1) j - 2 * rd st.1 i j))),
          st.2 + cAbs (rd st.1 i j - rd
            (wr st.1 i j
              (rd st.1 i j + (wd * (rd path i j - rd st.1 i j)
                + ws * (rd st.1 (i - 1) j + rd st.1 (i + 1) j - 2 * rd st.1 i j)))) i j)))
      (pre ++ prev :: s :: next :: rest, change)
    = (pre ++ prev :: (relaxRow wd ws D prev s next (path.getD i []) change).1 :: next :: rest,
        (relaxRow wd ws D prev s next (path.getD i []) change).2) := by
  unfold relaxRow
  refine forLoop_inv
    (fun m (st : Path × ℚ) =>
      st = (pre ++ prev ::
              (forLoop 0 m (fun j (acc : List ℚ × ℚ) =>
                (acc.1.set j
                    (acc.1.getD j 0 + (wd * ((path.getD i []).getD j 0 - acc.1.getD j 0)
                      + ws * (prev.getD j 0 + next.getD j 0 - 2 * acc.1.getD j 0))),
                  acc.2 + cAbs (acc.1.getD j 0 -
                    (acc.1.set j
                      (acc.1.getD j 0 + (wd * ((path.getD i []).getD j 0 - acc.1.getD j 0)
                        + ws * (prev.getD j 0 + next.getD j 0 - 2 * acc.1.getD j 0)))).getD
                      j 0))) (s, change)).1 :: next :: rest,
            (forLoop 0 m (fun j (acc : List ℚ × ℚ) =>
                (acc.1.set j
                    (acc.1.getD j 0 + (wd * ((path.getD i []).getD j 0 - acc.1.getD j 0)
                      + ws * (prev.getD j 0 + next.getD j 0 - 2 * acc.1.getD j 0))),
                  acc.2 + cAbs (acc.1.getD j 0 -
                    (acc.1.set j
                      (acc.1.getD j 0 + (wd * ((path.getD i []).getD j 0 - acc.1.getD j 0)
                        + ws * (prev.getD j 0 + next.getD j 0 - 2 * acc.1.getD j 0)))).getD
                      j 0))) (s, change)).2))
    0 D _ _ (Nat.zero_le _) (by simp [forLoop]) ?_
  intro m st _ _ hst
  subst hst
  rw [forLoop_succ 0 m _ _ (Nat.zero_le _)]
  generalize forLoop 0 m _ (s, change) = acc
  have h1 : ∀ (row : List ℚ) (j : Nat),
      rd (pre ++ prev :: row :: next :: rest) i j = row.getD j 0 := by
    intro row j
    have := rd_mid (pre ++ [prev]) (next :: rest) row i j (by simp [hi])
    simpa using this
  have h0 : ∀ (row : List ℚ) (j : Nat),
      rd (pre ++ prev :: row :: next :: rest) (i - 1) j = prev.getD j 0 := by
    intro row j
    exact rd_mid pre (row :: next :: rest) prev (i - 1) j (by omega)
  have h2 : ∀ (row : List ℚ) (j : Nat),
      rd (pre ++ prev :: row :: next :: rest) (i + 1) j = next.getD j 0 := by
    intro row j
    have := rd_mid (pre ++ [prev, row]) rest next (i + 1) j (by simp [← hi])
    simpa using this
  have hw : ∀ (row : List ℚ) (j : Nat) (v : ℚ),
      wr (pre ++ prev :: row :: next :: rest) i j v
        = pre ++ prev :: row.set j v :: next :: rest := by
    intro row j v
    have := wr_mid (pre ++ [prev]) (next :: rest) row i j v (by simp [hi])
    simpa using this
  have hp : rd path i m = (path.getD i []).getD m 0 := rfl
  simp only [h1, h0, h2, hw, hp]

/-- The loop over the points, from point `pre.length + 1` on, acts as `relaxFrom` does. -/
theorem smoother_outer_eq (wd ws : ℚ) (D : Nat) (path : Path) :
    ∀ (rest pre : Path) (prev s : List ℚ) (change : ℚ),
    forLoop (pre.length + 1) (pre.length + 1 + rest.length) (fun i (st : Path × ℚ) =>
        forLoop 0 D (fun j (st : Path × ℚ) =>
          (wr st.1 i j
              (rd st.1 i j + (wd * (rd path i j - rd st.1 i j)
                + ws * (rd st.1 (i - 1) j + rd st.1 (i + 1) j - 2 * rd st.1 i j))),
            st.2 + cAbs (rd st.1 i j - rd
              (wr st.1 i j
                (rd st.1 i j + (wd * (rd path i j - rd st.1 i j)
                  + ws * (rd st.1 (i - 1) j + rd st.1 (i + 1) j - 2 * rd st.1 i j)))) i j)))
          st)
      (pre ++ prev :: s :: rest, change)
    = (pre ++ prev :: (relaxFrom wd ws D path (pre.length + 1) prev (s :: rest) change).1,
        (relaxFrom wd ws D path (pre.length + 1) prev (s :: rest) change).2) := by
  intro rest
  induction rest with
  | nil =>
    intro pre prev s change
    rw [forLoop_empty _ _ _ _ (by simp)]
    simp [relaxFrom]
  | cons next rest ih =>
    intro pre prev s change
    rw [forLoop_first _ _ _ _ (by simp)]
    rw [smoother_inner_eq wd ws D path pre rest prev s next change (pre.length + 1) rfl]
    have hassoc : ∀ (row : List ℚ) (tl : Path),
        pre ++ prev :: row :: tl = (pre ++ [prev]) ++ row :: tl := by
      intro row tl; simp
    have hlen : (pre ++ [prev]).length = pre.length + 1 := by simp
    have hhi : pre.length + 1 + (next :: rest).length
        = (pre ++ [prev]).length + 1 + rest.length := by
      simp only [List.length_cons, hlen]; omega
    rw [hassoc, hhi, ← hlen, ih (pre ++ [prev]) _ next _]
    simp [relaxFrom]

/-- One pass of `smoother` over a path of `N` rows is `relaxPass`. -/
theorem smootherPass_eq_relaxPass (N D : Nat) (path : Path) (wd ws : ℚ) (np : Path)
    (hlen : np.length = N) :
    smootherPass N D path wd ws np = relaxPass wd ws D path np := by
  unfold smootherPass relaxPass
  subst hlen
  match np with
  | [] => simp [forLoop]
  | [s0] => simp [forLoop, relaxFrom]
  | s0 :: s :: rest =>
    have h := smoother_outer_eq wd ws D path rest [] s0 s 0
    simp only [List.length_nil, Nat.zero_add, List.nil_append] at h
    have hN : (s0 :: s :: rest).length - 1 = 1 + rest.length := by
      simp only [List.length_cons]; omega
    rw [hN]
    exact h

theorem smootherLoop_eq_relaxLoop (N D : Nat) (path : Path) (wd ws tol : ℚ) :
    ∀ (fuel : Nat) (st : Path × ℚ), st.1.length = N →
      smootherLoop N D path wd ws tol fuel st = relaxLoop D path wd ws tol fuel st := by
  intro fuel
  induction fuel with
  | zero => intro st _; rfl
  | succ fuel ih =>
    intro st hst
    simp only [smootherLoop, relaxLoop]
    split
    · rw [← smootherPass_eq_relaxPass N D path wd ws st.1 hst]
      apply ih
      have h := (smootherPass_frame N D path wd ws st.1).1
      have h2 := congrArg List.length h
      simpa [hst] using h2
    · rfl

/-- On a well-formed path, `smoother` is the loop of row-by-row passes started on the path. -/
theorem smoother_eq_relaxLoop (fuel N D : Nat) (path : Path) (wd ws tol : ℚ)
    (hwf : WellFormed N D path) :
    smoother fuel N D path wd ws tol = relaxLoop D path wd ws tol fuel (path, tol) := by
  unfold smoother
  rw [smootherCopy_eq N D path hwf]
  exact smootherLoop_eq_relaxLoop N D path wd ws tol fuel (path, tol) hwf.1

theorem stage_eq_rows (fuel n D : Nat) (src : Path) (k : Nat) (wd ws tol : ℚ) (hn : 1 ≤ n) :
    smoother fuel (countAfter n k) D (inject n D src k) wd ws tol
      = relaxLoop D (injectRows n D src k) wd ws tol fuel (injectRows n D src k, tol) := by
  rw [smoother_eq_relaxLoop fuel (countAfter n k) D (inject n D src k) wd ws tol
    (inject_wellFormed n D src k hn), inject_eq_rows n D src k hn]

/-- On well-formed waypoints, `smoothPath` is the pipeline computed row by row. -/
theorem smoothPath_eq_rows (fuel N D : Nat) (wp : Path) (T dt : ℚ) (hN : 1 ≤ N)
    (hwf : WellFormed N D wp) :
    smoothPath fuel N D wp T dt = smoothPathRows fuel N D wp T dt := by
  unfold smoothPath smoothPathRows
  rw [smoothStages_eq]
  simp only
  rw [← stage_eq_rows fuel N D wp _ _ _ _ hN]
  cases h1 : smoother fuel (countAfter N ((injectionCounter2StepsF32 (fl32 (N : ℚ)) T dt).getD 0 0)) D
      (inject N D wp ((injectionCounter2StepsF32 (fl32 (N : ℚ)) T dt).getD 0 0))
      (7 / 10) (3 / 10) (1 / 10000000) with
  | none => rfl
  | some p1 =>
    have s1 := stage_spec fuel N D wp _ _ _ _ p1 hN hwf h1
    simp only [Option.some_bind]
    rw [← stage_eq_rows fuel _ D p1 _ _ _ _ s1.2.1]
    cases h2 : smoother fuel
        (countAfter (countAfter N ((injectionCounter2StepsF32 (fl32 (N : ℚ)) T dt).getD 0 0))
          ((injectionCounter2StepsF32 (fl32 (N : ℚ)) T dt).getD 1 0)) D
        (inject (countAfter N ((injectionCounter2StepsF32 (fl32 (N : ℚ)) T dt).getD 0 0)) D p1
          ((injectionCounter2StepsF32 (fl32 (N : ℚ)) T dt).getD 1 0))
        (7 / 10) (3 / 10) (1 / 10000000) with
    | none => rfl
    | some p2 =>
      have s2 := stage_spec fuel _ D p1 _ _ _ _ p2 s1.2.1 s1.1 h2
      simp only [Option.some_bind]
      rw [← stage_eq_rows fuel _ D p2 _ _ _ _ s2.2.1]
      have hpc : plannedCount N (injectionCounter2StepsF32 (fl32 (N : ℚ)) T dt)
          = countAfter (countAfter (countAfter N ((injectionCounter2StepsF32 (fl32 (N : ℚ)) T dt).getD 0 0))
              ((injectionCounter2StepsF32 (fl32 (N : ℚ)) T dt).getD 1 0))
              ((injectionCounter2StepsF32 (fl32 (N : ℚ)) T dt).getD 2 0) := rfl
      rw [hpc]
      cases h3 : smoother fuel
          (countAfter (countAfter (countAfter N ((injectionCounter2StepsF32 (fl32 (N : ℚ)) T dt).getD 0 0))
              ((injectionCounter2StepsF32 (fl32 (N : ℚ)) T dt).getD 1 0))
              ((injectionCounter2StepsF32 (fl32 (N : ℚ)) T dt).getD 2 0)) D
          (inject
            (countAfter (countAfter N ((injectionCounter2StepsF32 (fl32 (N : ℚ)) T dt).getD 0 0))
              ((injectionCounter2StepsF32 (fl32 (N : ℚ)) T dt).getD 1 0)) D p2
            ((injectionCounter2StepsF32 (fl32 (N : ℚ)) T dt).getD 2 0))
          (7 / 10) (3 / 10) (1 / 10000000) with
      | none => rfl
      | some p3 =>
        have s3 := stage_spec fuel _ D p2 _ _ _ _ p3 s2.2.1 s2.1 h3
        simp only [Option.map_some', Option.some.injEq]
        exact packageFinal_eq _ D p3 s3.1

/-! ## The integer `abs` -/

theorem abs_eq_natAbs_div (x : ℚ) : |x| = ((x.num.natAbs : ℕ) : ℚ) / (x.den : ℚ) := by
  have hdenq : (0 : ℚ) < (x.den : ℚ) := by exact_mod_cast x.den_pos
  conv_lhs => rw [← Rat.num_div_den x]
  rw [abs_div, abs_of_pos hdenq]
  congr 1
  rw [Nat.cast_natAbs]
  push_cast
  rfl

theorem natAbs_div_lt_iff (x : ℚ) (b : ℕ) : x.num.natAbs / x.den < b ↔ |x| < (b : ℚ) := by
  have hdenq : (0 : ℚ) < (x.den : ℚ) := by exact_mod_cast x.den_pos
  rw [abs_eq_natAbs_div, div_lt_iff₀ hdenq, Nat.div_lt_iff_lt_mul x.den_pos]
  exact_mod_cast Iff.rfl

/-- Below `2^31` in absolute value the integer `abs` is the truncated absolute value. -/
theorem cAbs_eq_natCast (x : ℚ) (h : |x| < 2147483648) :
    cAbs x = ((x.num.natAbs / x.den : ℕ) : ℚ) := by
  have hlt : x.num.natAbs / x.den < 2147483648 :=
    (natAbs_div_lt_iff x 2147483648).mpr (by exact_mod_cast h)
  have hn : (Int.tdiv x.num x.den).natAbs = x.num.natAbs / x.den := by
    rw [Int.natAbs_tdiv]
    rfl
  have hr : -2147483648 ≤ Int.tdiv x.num x.den ∧ Int.tdiv x.num x.den ≤ 2147483647 := by
    omega
  have hne : Int.tdiv x.num x.den ≠ -2147483648 := by omega
  unfold cAbs truncToInt
  simp only []
  rw [if_pos hr, if_neg hne, hn]

/-- From `2^31` on in absolute value the integer `abs` delivers `INT_MIN`. -/
theorem cAbs_of_large (x : ℚ) (h : 2147483648 ≤ |x|) : cAbs x = -2147483648 := by
  have hge : ¬ x.num.natAbs / x.den < 2147483648 := by
    rw [natAbs_div_lt_iff]
    exact not_lt.mpr (by exact_mod_cast h)
  have hn : (Int.tdiv x.num x.den).natAbs = x.num.natAbs / x.den := by
    rw [Int.natAbs_tdiv]
    rfl
  have ht : truncToInt x = -2147483648 := by
    unfold truncToInt
    simp only []
    split_ifs with hr
    · omega
    · rfl
  unfold cAbs
  simp only []
  rw [if_pos ht]

/-- The integer `abs` is `0` exactly for the arguments of absolute value below 1. -/
theorem cAbs_eq_zero_iff (x : ℚ) : cAbs x = 0 ↔ |x| < 1 := by
  by_cases hb : |x| < 2147483648
  · rw [cAbs_eq_natCast x hb]
    have h1 := natAbs_div_lt_iff x 1
    rw [Nat.lt_one_iff] at h1
    rw [← Nat.cast_one, ← h1]
    exact_mod_cast Iff.rfl
  · rw [cAbs_of_large x (not_lt.mp hb)]
    constructor
    · intro h
      norm_num at h
    · intro h
      exact absurd (lt_trans h (by norm_num)) hb

/-! ## Reads after writes -/

theorem getD_set_self {α : Type} (l : List α) (i : Nat) (v d : α) (h : i < l.length) :
    (l.set i v).getD i d = v := by
  rw [List.getD_eq_getElem?_getD, List.getElem?_set_self h]
  rfl

theorem getD_set_ne {α : Type} (l : List α) (i i2 : Nat) (v d : α) (h : i ≠ i2) :
    (l.set i v).getD i2 d = l.getD i2 d := by
  rw [List.getD_eq_getElem?_getD, List.getElem?_set_ne h, ← List.getD_eq_getElem?_getD]

theorem rd_wr_same (a : Path) (i j : Nat) (v : ℚ) (hi : i < a.length)
    (hj : j < (a.getD i []).length) : rd (wr a i j v) i j = v := by
  unfold rd wr
  rw [getD_set_self a i _ [] hi, getD_set_self _ j v 0 hj]

theorem rd_wr_ne (a : Path) (i j i2 j2 : Nat) (v : ℚ) (h : i2 ≠ i ∨ j2 ≠ j) :
    rd (wr a i j v) i2 j2 = rd a i2 j2 := by
  unfold rd wr
  by_cases hi : i2 = i
  · subst hi
    have hj : j2 ≠ j := by
      rcases h with h | h
      · exact absurd rfl h
      · exact h
    by_cases hlen : i2 < a.length
    · rw [getD_set_self a i2 _ [] hlen, getD_set_ne _ j j2 v 0 (Ne.symm hj)]
    · rw [List.set_eq_of_length_le (by omega)]
  · rw [getD_set_ne a i i2 _ [] (Ne.symm hi)]

theorem shape_bounds (N D : Nat) (a : Path) (h : a.map List.length = List.replicate N D)
    (i : Nat) (hi : i < N) : i < a.length ∧ (a.getD i []).length = D := by
  have hlen : a.length = N := by
    have := congrArg List.length h
    simpa using this
  have hi2 : i < a.length := by omega
  refine ⟨hi2, ?_⟩
  have hmem : (a.getD i []).length ∈ a.map List.length := by
    rw [List.getD_eq_getElem?_getD, List.getElem?_eq_getElem hi2]
    exact List.mem_map.mpr ⟨a[i], List.getElem_mem hi2, rfl⟩
  rw [h] at hmem
  exact (List.mem_replicate.mp hmem).2

/-! ## Invariants of the relaxation pass -/

theorem rowInv_init (D : Nat) (wd ws : ℚ) (R S : Path) (st0 : Path × ℚ) (m : Nat)
    (h : PassInv D wd ws R S m st0) : RowInv D wd ws R S st0 m 0 st0 := by
  obtain ⟨hA, hB, _, hch⟩ := h
  refine ⟨hA, fun _ _ _ => rfl, fun c hc => absurd hc (Nat.not_lt_zero c),
    fun c _ => hB m c (Or.inr (le_refl _)), ?_⟩
  intro hsmall
  obtain ⟨k, hk, hiff⟩ := hch hsmall.1
  refine ⟨k, hk, ?_⟩
  rw [hiff]
  constructor
  · intro h
    exact ⟨h, fun c hc => absurd hc (Nat.not_lt_zero c)⟩
  · intro h
    exact h.1

theorem rowInv_step (N D : Nat) (wd ws : ℚ) (R S : Path) (hS : WellFormed N D S)
    (st0 : Path × ℚ) (m j : Nat) (hm1 : 1 ≤ m) (hm : m < N - 1) (hj : j < D)
    (h0 : PassInv D wd ws R S m st0) (st : Path × ℚ)
    (h : RowInv D wd ws R S st0 m j st) :
    RowInv D wd ws R S st0 m (j + 1)
      (wr st.1 m j
          (rd st.1 m j + (wd * (rd R m j - rd st.1 m j)
            + ws * (rd st.1 (m - 1) j + rd st.1 (m + 1) j - 2 * rd st.1 m j))),
        st.2 + cAbs (rd st.1 m j - rd
          (wr st.1 m j
            (rd st.1 m j + (wd * (rd R m j - rd st.1 m j)
              + ws * (rd st.1 (m - 1) j + rd st.1 (m + 1) j - 2 * rd st.1 m j)))) m j)) := by
  obtain ⟨hA, hB, hC, hC2, hch⟩ := h
  have hshape : st.1.map List.length = List.replicate N D := by
    rw [hA]; exact (wellFormed_iff_shape N D S).mp hS
  obtain ⟨hb1, hb2⟩ := shape_bounds N D st.1 hshape m (by omega)
  have haux : rd st.1 m j = rd S m j := hC2 j (le_refl _)
  have hleft : rd st.1 (m - 1) j = rd st0.1 (m - 1) j := hB (m - 1) j (by omega)
  have hright : rd st.1 (m + 1) j = rd S (m + 1) j := by
    rw [hB (m + 1) j (by omega)]
    exact h0.2.1 (m + 1) j (Or.inr (by omega))
  have hv : rd st.1 m j + (wd * (rd R m j - rd st.1 m j)
        + ws * (rd st.1 (m - 1) j + rd st.1 (m + 1) j - 2 * rd st.1 m j))
      = relaxValue wd ws R S m j (rd st0.1 (m - 1) j) := by
    rw [haux, hleft, hright]
    rfl
  rw [hv, rd_wr_same st.1 m j _ hb1 (by omega), haux]
  refine ⟨by rw [wr_map_length]; exact hA, ?_, ?_, ?_, ?_⟩
  · intro i c hi
    rw [rd_wr_ne st.1 m j i c _ (Or.inl hi)]
    exact hB i c hi
  · intro c hc
    by_cases hcj : c = j
    · subst hcj
      exact rd_wr_same st.1 m c _ hb1 (by omega)
    · rw [rd_wr_ne st.1 m j m c _ (Or.inr hcj)]
      exact hC c (by omega)
  · intro c hc
    rw [rd_wr_ne st.1 m j m c _ (Or.inr (by omega))]
    exact hC2 c (by omega)
  · intro hsmall
    simp only at hsmall
    have hprev : ∀ c, c < j → |rd S m c - rd st.1 m c| < 2147483648 := by
      intro c hc
      have := hsmall.2 c (by omega)
      rw [rd_wr_ne st.1 m j m c _ (Or.inr (by omega))] at this
      exact this
    have hnew : |rd S m j - relaxValue wd ws R S m j (rd st0.1 (m - 1) j)| < 2147483648 := by
      have := hsmall.2 j (by omega)
      rw [rd_wr_same st.1 m j _ hb1 (by omega)] at this
      exact this
    obtain ⟨k, hk, hiff⟩ := hch ⟨hsmall.1, hprev⟩
    refine ⟨k + (rd S m j - relaxValue wd ws R S m j (rd st0.1 (m - 1) j)).num.natAbs
        / (rd S m j - relaxValue wd ws R S m j (rd st0.1 (m - 1) j)).den, ?_, ?_⟩
    · rw [hk, cAbs_eq_natCast _ hnew]
      push_cast
      rfl
    · have hz : (rd S m j - relaxValue wd ws R S m j (rd st0.1 (m - 1) j)).num.natAbs
            / (rd S m j - relaxValue wd ws R S m j (rd st0.1 (m - 1) j)).den = 0
          ↔ |rd S m j - relaxValue wd ws R S m j (rd st0.1 (m - 1) j)| < 1 := by
        rw [← cAbs_eq_zero_iff, cAbs_eq_natCast _ hnew]
        exact_mod_cast Iff.rfl
      rw [Nat.add_eq_zero_iff, hiff, hz]
      constructor
      · rintro ⟨⟨h1, h2⟩, h3⟩
        refine ⟨h1, ?_⟩
        intro c hc
        by_cases hcj : c = j
        · subst hcj
          rw [rd_wr_same st.1 m c _ hb1 (by omega)]
          exact h3
        · rw [rd_wr_ne st.1 m j m c _ (Or.inr hcj)]
          exact h2 c (by omega)
      · rintro ⟨h1, h2⟩
        refine ⟨⟨h1, ?_⟩, ?_⟩
        · intro c hc
          have := h2 c (by omega)
          rw [rd_wr_ne st.1 m j m c _ (Or.inr (by omega))] at this
          exact this
        · have := h2 j (by omega)
          rw [rd_wr_same st.1 m j _ hb1 (by omega)] at this
          exact this

theorem passInv_succ (D : Nat) (wd ws : ℚ) (R S : Path) (st0 st : Path × ℚ) (m : Nat)
    (hm1 : 1 ≤ m) (h0 : PassInv D wd ws R S m st0) (h : RowInv D wd ws R S st0 m D st) :
    PassInv D wd ws R S (m + 1) st := by
  obtain ⟨_, hB0, hC0, _⟩ := h0
  obtain ⟨hA, hB, hC, _, hch⟩ := h
  have hsplit : ∀ b : ℚ,
      ((∀ i c, 1 ≤ i → i < m → c < D → |rd S i c - rd st0.1 i c| < b) ∧
        ∀ c, c < D → |rd S m c - rd st.1 m c| < b) ↔
      ∀ i j, 1 ≤ i → i < m + 1 → j < D → |rd S i j - rd st.1 i j| < b := by
    intro b
    constructor
    · rintro ⟨h1, h2⟩ i j hi1 hi hj
      by_cases him : i = m
      · subst him
        exact h2 j hj
      · rw [hB i j him]
        exact h1 i j hi1 (by omega) hj
    · intro h
      refine ⟨?_, fun c hc => h m c hm1 (by omega) hc⟩
      intro i c hi1 hi hc
      have := h i c hi1 (by omega) hc
      rw [hB i c (by omega)] at this
      exact this
  refine ⟨hA, ?_, ?_, ?_⟩
  · intro i j hi
    rw [hB i j (by omega)]
    exact hB0 i j (by omega)
  · intro i j hi1 hi hj
    by_cases him : i = m
    · subst him
      rw [hC j hj, hB (i - 1) j (by omega)]
    · rw [hB i j him, hB (i - 1) j (by omega)]
      exact hC0 i j hi1 (by omega) hj
  · intro hsmall
    obtain ⟨k, hk, hiff⟩ := hch ((hsplit 2147483648).mpr hsmall)
    exact ⟨k, hk, hiff.trans (hsplit 1)⟩

/-- The state after one pass started on a well-formed `S` satisfies the invariant at
`max 1 (N - 1)`. -/
theorem smootherPass_inv (N D : Nat) (R : Path) (wd ws : ℚ) (S : Path)
    (hS : WellFormed N D S) :
    PassInv D wd ws R S (max 1 (N - 1)) (smootherPass N D R wd ws S) := by
  have hinit : PassInv D wd ws R S 1 (S, 0) := by
    refine ⟨rfl, fun _ _ _ => rfl, ?_, fun _ => ⟨0, by simp, ?_⟩⟩
    · intro i j h1 h2; omega
    · simp only [true_iff]
      intro i j h1 h2; omega
  unfold smootherPass
  by_cases hN : 1 ≤ N - 1
  · rw [max_eq_right hN]
    refine forLoop_inv (PassInv D wd ws R S) 1 (N - 1) _ (S, 0) hN hinit ?_
    intro m st0 hm1 hm h0
    refine passInv_succ D wd ws R S st0 _ m hm1 h0 ?_
    refine forLoop_inv (RowInv D wd ws R S st0 m) 0 D _ st0 (Nat.zero_le _)
      (rowInv_init D wd ws R S st0 m h0) ?_
    intro j st _ hj h
    exact rowInv_step N D wd ws R S hS st0 m j hm1 hm hj h0 st h
  · rw [forLoop_empty _ _ _ _ (by omega), max_eq_left (by omega)]
    exact hinit

/-! ## Runs of the loop of `smoother` -/

theorem smootherLoop_succ (N D : Nat) (path : Path) (wd ws tol : ℚ) (fuel n : Nat) :
    smootherLoop N D path wd ws tol (fuel + 1) (smootherPasses N D path wd ws tol n)
      = if (smootherPasses N D path wd ws tol n).2 ≥ tol then
          smootherLoop N D path wd ws tol fuel (smootherPasses N D path wd ws tol (n + 1))
        else some (smootherPasses N D path wd ws tol n).1 := rfl

/-- When `change` is at least `tolerance` after every pass, the loop never exits. -/
theorem smootherLoop_none (N D : Nat) (path : Path) (wd ws tol : ℚ)
    (h : ∀ t, tol ≤ (smootherPasses N D path wd ws tol t).2) :
    ∀ fuel n, smootherLoop N D path wd ws tol fuel (smootherPasses N D path wd ws tol n)
      = none := by
  intro fuel
  induction fuel with
  | zero => intro n; rfl
  | succ fuel ih =>
    intro n
    rw [smootherLoop_succ, if_pos (h n)]
    exact ih (n + 1)

/-- When `change` first falls below `tolerance` after pass `n + d`, the loop started after
pass `n` exits there, given enough fuel. -/
theorem smootherLoop_exit (N D : Nat) (path : Path) (wd ws tol : ℚ) :
    ∀ (d n : Nat),
      (∀ t, n ≤ t → t < n + d → tol ≤ (smootherPasses N D path wd ws tol t).2) →
      (smootherPasses N D path wd ws tol (n + d)).2 < tol →
      ∀ fuel, d + 1 ≤ fuel →
        smootherLoop N D path wd ws tol fuel (smootherPasses N D path wd ws tol n)
          = some (smootherPasses N D path wd ws tol (n + d)).1 := by
  intro d
  induction d with
  | zero =>
    intro n _ hlt fuel hfuel
    obtain ⟨f, rfl⟩ : ∃ f, fuel = f + 1 := ⟨fuel - 1, by omega⟩
    rw [Nat.add_zero] at hlt
    rw [smootherLoop_succ, if_neg (not_le.mpr hlt)]
    rfl
  | succ d ih =>
    intro n hge hlt fuel hfuel
    obtain ⟨f, rfl⟩ : ∃ f, fuel = f + 1 := ⟨fuel - 1, by omega⟩
    rw [smootherLoop_succ, if_pos (hge n (le_refl _) (by omega))]
    have e : n + (d + 1) = (n + 1) + d := by omega
    rw [e] at hlt ⊢
    exact ih (n + 1) (fun t h1 h2 => hge t (by omega) (by omega)) hlt f (by omega)

/-- The result of the loop does not depend on the fuel that was left over. -/
theorem smootherLoop_fuel_irrel (N D : Nat) (path : Path) (wd ws tol : ℚ) :
    ∀ (f1 f2 : Nat) (st : Path × ℚ) (r1 r2 : Path),
      smootherLoop N D path wd ws tol f1 st = some r1 →
      smootherLoop N D path wd ws tol f2 st = some r2 → r1 = r2 := by
  intro f1
  induction f1 with
  | zero => intro f2 st r1 r2 h1 _; simp [smootherLoop] at h1
  | succ f1 ih =>
    intro f2 st r1 r2 h1 h2
    cases f2 with
    | zero => simp [smootherLoop] at h2
    | succ f2 =>
      simp only [smootherLoop] at h1 h2
      by_cases hc : st.2 ≥ tol
      · rw [if_pos hc] at h1 h2
        exact ih f2 _ r1 r2 h1 h2
      · rw [if_neg hc] at h1 h2
        exact (Option.some.inj h1).symm.trans (Option.some.inj h2)

/-- After a pass in which every interior coordinate moved by less than `2^31`, `change` is a
natural number, and it is `0` exactly when every interior coordinate moved by less than 1. -/
theorem smootherPasses_change_nat (N D : Nat) (path : Path) (wd ws tol : ℚ)
    (hwf : WellFormed N D path) (n : Nat)
    (hsmall : ∀ i j, 1 ≤ i → i < N - 1 → j < D →
      |rd (smootherPasses N D path wd ws tol n).1 i j
        - rd (smootherPasses N D path wd ws tol (n + 1)).1 i j| < 2147483648) :
    ∃ k : ℕ, (smootherPasses N D path wd ws tol (n + 1)).2 = (k : ℚ) ∧
      (k = 0 ↔ ∀ i j, 1 ≤ i → i < N - 1 → j < D →
        |rd (smootherPasses N D path wd ws tol n).1 i j
          - rd (smootherPasses N D path wd ws tol (n + 1)).1 i j| < 1) := by
  have hS := (smootherPasses_frame N D path wd ws tol hwf n).1
  have hrange : ∀ i, i < max 1 (N - 1) → 1 ≤ i → i < N - 1 := by
    intro i h2 h1
    rcases max_cases 1 (N - 1) with ⟨he, _⟩ | ⟨he, _⟩
    · rw [he] at h2; omega
    · rw [he] at h2; exact h2
  obtain ⟨_, _, _, hch⟩ :=
    smootherPass_inv N D path wd ws (smootherPasses N D path wd ws tol n).1 hS
  obtain ⟨k, hk, hiff⟩ := hch (fun i j h1 h2 h3 => hsmall i j h1 (hrange i h2 h1) h3)
  refine ⟨k, hk, ?_⟩
  rw [hiff]
  constructor
  · intro h i j h1 h2 h3
    exact h i j h1 (lt_of_lt_of_le h2 (le_max_right _ _)) h3
  · intro h i j h1 h2 h3
    exact h i j h1 (hrange i h2 h1) h3

/-- Injecting no point returns the path itself. -/
theorem inject_zero_eq (N D : Nat) (orig : Path) (hN : 1 ≤ N) (hwf : WellFormed N D orig) :
    inject N D orig 0 = orig := by
  apply List.ext_getElem?
  intro m
  by_cases hm : m < N
  · simpa using inject_getElem?_original N D orig 0 m hN hwf hm
  · rw [List.getElem?_eq_none (by rw [inject_length N D orig 0 hN]; omega),
      List.getElem?_eq_none (by rw [hwf.1]; omega)]

/-- In the low-budget branch the plan is `(0, 0, 0)` exactly when no pair of the grid is
feasible. -/
theorem planner_low_zero_iff (n T dt : ℚ) (hn : 1 ≤ n) (hlow : T / dt < 100) :
    injectionCounter2Steps n T dt = [0, 0, 0] ↔
      ¬ ∃ i j, (4 ≤ i ∧ i ≤ 6) ∧ (1 ≤ j ∧ j ≤ 8) ∧ pointsAfterStage2 n i j ≤ T / dt := by
  rw [planner_low_eq n T dt hlow]
  rcases lowFold_spec n (T / dt) lowGrid (0, 0, 0) with
    ⟨hr, hall⟩ | ⟨l1, x, l2, hl, hr, hx, _, _, _⟩
  · rw [hr]
    refine ⟨fun _ => ?_, fun _ => rfl⟩
    rintro ⟨i, j, hi, hj, hfeas⟩
    have h := hall (i, j) ((mem_lowGrid i j).mpr ⟨hi, hj⟩) hfeas
    exact absurd (lt_of_lt_of_le (pointsAfterStage2_pos n i j hn) h) (lt_irrefl _)
  · have hxmem : (x.1, x.2) ∈ lowGrid := by rw [hl]; simp
    have hxg := (mem_lowGrid x.1 x.2).mp hxmem
    rw [hr]
    constructor
    · intro h
      have h1 : x.1 = 0 := by simpa using congrArg (fun l => l.getD 0 0) h
      omega
    · intro h
      exact absurd ⟨x.1, x.2, hxg.1, hxg.2, hx⟩ h

/-- In the high-budget branch the plan is `(0, 0, 0)` exactly when no triple of the grid is
feasible. -/
theorem planner_high_zero_iff (n T dt : ℚ) (hhigh : ¬ T / dt < 100) :
    injectionCounter2Steps n T dt = [0, 0, 0] ↔
      ¬ ∃ i j k, (1 ≤ i ∧ i ≤ 5) ∧ (1 ≤ j ∧ j ≤ 8) ∧ (1 ≤ k ∧ k ≤ 7) ∧
        pointsAfterStage3 n i j k ≤ T / dt := by
  rw [planner_high_eq n T dt hhigh]
  rcases highFold_spec n (T / dt) highGrid (0, 0, 0) with
    ⟨hr, hall⟩ | ⟨l1, x, l2, hl, hr, hx, _⟩
  · rw [hr]
    refine ⟨fun _ => ?_, fun _ => rfl⟩
    rintro ⟨i, j, k, hi, hj, hk, hfeas⟩
    exact hall (i, j, k) ((mem_highGrid i j k).mpr ⟨hi, hj, hk⟩) hfeas
  · have hxmem : (x.1, x.2.1, x.2.2) ∈ highGrid := by rw [hl]; simp
    have hxg := (mem_highGrid x.1 x.2.1 x.2.2).mp hxmem
    rw [hr]
    constructor
    · intro h
      have h1 : x.1 = 0 := by simpa using congrArg (fun l => l.getD 0 0) h
      omega
    · intro h
      exact absurd ⟨x.1, x.2.1, x.2.2, hxg.1, hxg.2.1, hxg.2.2, hx⟩ h

/-! ## The running point count -/

theorem countAfter_one_add (m k : Nat) : countAfter (1 + m) k = 1 + m * (k + 1) := by
  unfold countAfter
  rw [Nat.add_sub_cancel_left]
  ring

/-- The point count after the three stages, in closed form. -/
theorem plannedCount_closed (N a b c : Nat) (hN : 1 ≤ N) :
    plannedCount N [a, b, c] = 1 + (N - 1) * (a + 1) * (b + 1) * (c + 1) := by
  obtain ⟨d, rfl⟩ : ∃ d, N = 1 + d := ⟨N - 1, by omega⟩
  unfold plannedCount
  simp only [List.getD_cons_zero, List.getD_cons_succ, Nat.add_sub_cancel_left]
  rw [countAfter_one_add, countAfter_one_add, countAfter_one_add]

/-- In the low-budget branch the third count of the plan is `0`. -/
theorem planner_low_third (n T dt : ℚ) (hlow : T / dt < 100) :
    (injectionCounter2Steps n T dt).getD 2 0 = 0 := by
  rw [planner_low_eq n T dt hlow]
  rfl

/-! ## Single-precision rounding of small integers -/

theorem log2Fuel_spec : ∀ (fuel n : ℕ), n ≤ fuel → 1 ≤ n →
    2 ^ log2Fuel fuel n ≤ n ∧ n < 2 ^ (log2Fuel fuel n + 1) := by
  intro fuel
  induction fuel with
  | zero => intro n h0 h1; omega
  | succ f ih =>
    intro n hf h1
    unfold log2Fuel
    by_cases h2 : n < 2
    · rw [if_pos h2]
      have : n = 1 := by omega
      subst this
      exact ⟨by norm_num, by norm_num⟩
    · rw [if_neg h2]
      obtain ⟨ha, hb⟩ := ih (n / 2) (by omega) (by omega)
      rw [Nat.pow_succ, Nat.pow_succ]
      rw [Nat.pow_succ] at hb
      constructor <;> omega

theorem log2Nat_spec (n : ℕ) (h : 1 ≤ n) : 2 ^ log2Nat n ≤ n ∧ n < 2 ^ (log2Nat n + 1) :=
  log2Fuel_spec n n (le_refl n) h

theorem pow2_eq_zpow (e : ℤ) : pow2 e = (2 : ℚ) ^ e := by
  unfold pow2
  by_cases h : 0 ≤ e
  · rw [if_pos h]
    obtain ⟨n, rfl⟩ := Int.eq_ofNat_of_zero_le h
    simp
  · rw [if_neg h]
    obtain ⟨n, hn⟩ := Int.eq_ofNat_of_zero_le (by omega : 0 ≤ -e)
    have he : e = -(n : ℤ) := by omega
    rw [hn, he]
    simp

theorem roundHalfEven_intCast (z : ℤ) : roundHalfEven (z : ℚ) = z := by
  simp [roundHalfEven]

/-- A natural number up to `2^24` is a `float`: rounding leaves it as it is. -/
theorem fl32_natCast (k : ℕ) (hk : k ≤ 16777216) : fl32 (k : ℚ) = (k : ℚ) := by
  by_cases h0 : k = 0
  · subst h0
    simp [fl32]
  have h1 : 1 ≤ k := by omega
  obtain ⟨hlo, hhi⟩ := log2Nat_spec k h1
  have hl24 : log2Nat k ≤ 24 := by
    by_contra hc
    have : 2 ^ 25 ≤ 2 ^ log2Nat k := Nat.pow_le_pow_right (by norm_num) (by omega)
    norm_num at this
    omega
  have hk0 : (k : ℚ) ≠ 0 := by exact_mod_cast h0
  have hlog1 : log2Nat 1 = 0 := by decide
  unfold fl32
  rw [if_neg hk0]
  simp only [Rat.num_natCast, Rat.den_natCast, Int.natAbs_ofNat, hlog1, Nat.cast_zero,
    sub_zero, Nat.cast_one, mul_one]
  have hcond : pow2 (log2Nat k : ℤ) ≤ (k : ℚ) := by
    rw [pow2_eq_zpow, zpow_natCast]
    exact_mod_cast hlo
  rw [if_pos hcond, max_eq_left (by omega), pow2_eq_zpow]
  by_cases h24 : log2Nat k = 24
  · have hk24 : k = 16777216 := by
      rw [h24] at hlo
      norm_num at hlo
      omega
    subst hk24
    rw [h24]
    have e : ((16777216 : ℕ) : ℚ) / (2 : ℚ) ^ (((24 : ℕ) : ℤ) - 23) = ((8388608 : ℤ) : ℚ) := by
      norm_num
    rw [e, roundHalfEven_intCast]
    norm_num
  · have hl23 : log2Nat k ≤ 23 := by omega
    obtain ⟨d, hd⟩ : ∃ d : ℕ, (log2Nat k : ℤ) - 23 = -(d : ℤ) := ⟨23 - log2Nat k, by omega⟩
    rw [hd, zpow_neg, zpow_natCast]
    have e : (k : ℚ) / ((2 : ℚ) ^ d)⁻¹ = (((k * 2 ^ d : ℕ) : ℤ) : ℚ) := by
      rw [div_inv_eq_mul]
      push_cast
      rfl
    rw [e, roundHalfEven_intCast]
    push_cast
    field_simp

theorem toF32_natCast (k : ℕ) (hk : k ≤ 16777216) : toF32 (k : ℚ) = F32.finite (k : ℚ) := by
  have hq : (k : ℚ) ≤ 16777216 := by exact_mod_cast hk
  have h0 : (0 : ℚ) ≤ (k : ℚ) := Nat.cast_nonneg k
  unfold toF32
  rw [fl32_natCast k hk, if_neg (by linarith), if_neg (by linarith)]

/-- Within `2^24` the `float` expression `m * (p - 1) + p` is computed without rounding. -/
theorem stageF32_exact (m : ℕ) (p : ℚ) (P : ℕ) (hp : p = (P : ℚ)) (h1 : 1 ≤ P)
    (hb : countAfter P m ≤ 16777216) :
    stageF32 m (F32.finite p) = F32.finite ((m : ℚ) * (p - 1) + p) ∧
      (m : ℚ) * (p - 1) + p = ((countAfter P m : ℕ) : ℚ) := by
  subst hp
  have hc : countAfter P m = P + m * (P - 1) := rfl
  have hle : m * (P - 1) ≤ 16777216 := by omega
  have hP : P ≤ 16777216 := by omega
  have e1 : (P : ℚ) - 1 = ((P - 1 : ℕ) : ℚ) := by
    rw [Nat.cast_sub h1]
    simp
  have e2 : (m : ℚ) * ((P - 1 : ℕ) : ℚ) = ((m * (P - 1) : ℕ) : ℚ) := by
    push_cast
    rfl
  have e3 : ((m * (P - 1) : ℕ) : ℚ) + (P : ℚ) = ((countAfter P m : ℕ) : ℚ) := by
    rw [hc]
    push_cast
    ring
  constructor
  · unfold stageF32 fsub fmul fadd
    simp only []
    rw [e1, toF32_natCast (P - 1) (by omega)]
    simp only []
    rw [e2, toF32_natCast _ hle]
    simp only []
    rw [e3, toF32_natCast _ hb]
  · rw [e1, e2, e3]

/-- An integer of absolute value up to `2^24` is a `float`: rounding leaves it as it is. -/
theorem fl32_intCast (z : ℤ) (hz : z.natAbs ≤ 16777216) : fl32 (z : ℚ) = (z : ℚ) := by
  by_cases h0 : z = 0
  · subst h0
    simp [fl32]
  have h1 : 1 ≤ z.natAbs := by omega
  obtain ⟨hlo, hhi⟩ := log2Nat_spec z.natAbs h1
  have hl24 : log2Nat z.natAbs ≤ 24 := by
    by_contra hc
    have : 2 ^ 25 ≤ 2 ^ log2Nat z.natAbs := Nat.pow_le_pow_right (by norm_num) (by omega)
    norm_num at this
    omega
  have hz0 : (z : ℚ) ≠ 0 := by exact_mod_cast h0
  have hlog1 : log2Nat 1 = 0 := by decide
  unfold fl32
  rw [if_neg hz0]
  simp only [Rat.num_intCast, Rat.den_intCast, hlog1, Nat.cast_zero, sub_zero, Nat.cast_one,
    mul_one]
  have hcond : pow2 (log2Nat z.natAbs : ℤ) ≤ (z.natAbs : ℚ) := by
    rw [pow2_eq_zpow, zpow_natCast]
    exact_mod_cast hlo
  rw [if_pos hcond, max_eq_left (by omega), pow2_eq_zpow]
  by_cases h24 : log2Nat z.natAbs = 24
  · have hk24 : z.natAbs = 16777216 := by
      rw [h24] at hlo
      norm_num at hlo
      omega
    rw [h24]
    rcases Int.natAbs_eq z with hzz | hzz
    · rw [hk24] at hzz
      rw [hzz]
      have e : (((16777216 : ℕ) : ℤ) : ℚ) / (2 : ℚ) ^ (((24 : ℕ) : ℤ) - 23)
          = ((8388608 : ℤ) : ℚ) := by norm_num
      rw [e, roundHalfEven_intCast]
      norm_num
    · rw [hk24] at hzz
      rw [hzz]
      have e : ((-((16777216 : ℕ) : ℤ) : ℤ) : ℚ) / (2 : ℚ) ^ (((24 : ℕ) : ℤ) - 23)
          = ((-8388608 : ℤ) : ℚ) := by norm_num
      rw [e, roundHalfEven_intCast]
      norm_num
  · have hl23 : log2Nat z.natAbs ≤ 23 := by omega
    obtain ⟨d, hd⟩ : ∃ d : ℕ, (log2Nat z.natAbs : ℤ) - 23 = -(d : ℤ) :=
      ⟨23 - log2Nat z.natAbs, by omega⟩
    rw [hd, zpow_neg, zpow_natCast]
    have e : (z : ℚ) / ((2 : ℚ) ^ d)⁻¹ = ((z * 2 ^ d : ℤ) : ℚ) := by
      rw [div_inv_eq_mul]
      push_cast
      rfl
    rw [e, roundHalfEven_intCast]
    push_cast
    field_simp

theorem toF32_intCast (z : ℤ) (hz : z.natAbs ≤ 16777216) :
    toF32 (z : ℚ) = F32.finite (z : ℚ) := by
  have h1 : (z : ℚ) ≤ 16777216 := by
    have : z ≤ 16777216 := by omega
    exact_mod_cast this
  have h2 : (-16777216 : ℚ) ≤ (z : ℚ) := by
    have : -16777216 ≤ z := by omega
    exact_mod_cast this
  unfold toF32
  rw [fl32_intCast z hz, if_neg (by linarith), if_neg (by linarith)]

/-- The `float` expression `m * (p - 1) + p` is computed without rounding for `p = 1 - P` with
`P * (m + 1)` at most `2^24`. -/
theorem stageF32_neg (m P : ℕ) (hb : P * (m + 1) ≤ 16777216) :
    stageF32 m (F32.finite (1 - (P : ℚ))) = F32.finite (1 - ((P * (m + 1) : ℕ) : ℚ)) := by
  have hP : P ≤ 16777216 := le_trans (Nat.le_mul_of_pos_right P (Nat.succ_pos m)) hb
  have hmP : m * P ≤ 16777216 := by
    have : m * P ≤ P * (m + 1) := by
      rw [Nat.mul_comm m P]
      exact Nat.mul_le_mul_left P (Nat.le_succ m)
    omega
  have e1 : (1 - (P : ℚ)) - 1 = ((-(P : ℤ) : ℤ) : ℚ) := by
    push_cast
    ring
  have e2 : (m : ℚ) * ((-(P : ℤ) : ℤ) : ℚ) = ((-((m * P : ℕ) : ℤ) : ℤ) : ℚ) := by
    push_cast
    ring
  have e3 : ((-((m * P : ℕ) : ℤ) : ℤ) : ℚ) + (1 - (P : ℚ))
      = ((1 - ((P * (m + 1) : ℕ) : ℤ) : ℤ) : ℚ) := by
    push_cast
    ring
  have e4 : ((1 - ((P * (m + 1) : ℕ) : ℤ) : ℤ) : ℚ) = 1 - ((P * (m + 1) : ℕ) : ℚ) := by
    push_cast
    ring
  unfold stageF32 fsub fmul fadd
  simp only []
  rw [e1, toF32_intCast _ (by omega)]
  simp only []
  rw [e2, toF32_intCast _ (by omega)]
  simp only []
  rw [e3, toF32_intCast _ (by omega), e4]

/-- From 0 points the projected counts of a combination are computed in single precision
without rounding. -/
theorem stageF32_chain_zero (i j k : ℕ) (hprod : (i + 1) * (j + 1) * (k + 1) ≤ 16777216) :
    (stageF32 j (stageF32 i (F32.finite ((0 : ℕ) : ℚ)))
        = F32.finite (pointsAfterStage2 ((0 : ℕ) : ℚ) i j) ∧
      -16777216 ≤ pointsAfterStage2 ((0 : ℕ) : ℚ) i j ∧
      pointsAfterStage2 ((0 : ℕ) : ℚ) i j ≤ 16777216) ∧
    (stageF32 k (stageF32 j (stageF32 i (F32.finite ((0 : ℕ) : ℚ))))
        = F32.finite (pointsAfterStage3 ((0 : ℕ) : ℚ) i j k) ∧
      -16777216 ≤ pointsAfterStage3 ((0 : ℕ) : ℚ) i j k ∧
      pointsAfterStage3 ((0 : ℕ) : ℚ) i j k ≤ 16777216) := by
  have h2 : (i + 1) * (j + 1) ≤ 16777216 :=
    le_trans (Nat.le_mul_of_pos_right _ (Nat.succ_pos k)) hprod
  have h1 : 1 * (i + 1) ≤ 16777216 := by
    rw [Nat.one_mul]
    exact le_trans (Nat.le_mul_of_pos_right _ (Nat.succ_pos j)) h2
  have e0 : ((0 : ℕ) : ℚ) = 1 - ((1 : ℕ) : ℚ) := by norm_num
  have s1 := stageF32_neg i 1 h1
  have s2 := stageF32_neg j (1 * (i + 1)) (by rw [Nat.one_mul]; exact h2)
  have s3 := stageF32_neg k (1 * (i + 1) * (j + 1)) (by rw [Nat.one_mul]; exact hprod)
  have p2 : pointsAfterStage2 ((0 : ℕ) : ℚ) i j
      = 1 - ((1 * (i + 1) * (j + 1) : ℕ) : ℚ) := by
    unfold pointsAfterStage2
    push_cast
    ring
  have p3 : pointsAfterStage3 ((0 : ℕ) : ℚ) i j k
      = 1 - ((1 * (i + 1) * (j + 1) * (k + 1) : ℕ) : ℚ) := by
    unfold pointsAfterStage3 pointsAfterStage2
    push_cast
    ring
  have b2 : ((1 * (i + 1) * (j + 1) : ℕ) : ℚ) ≤ 16777216 := by
    rw [Nat.one_mul]
    exact_mod_cast h2
  have b3 : ((1 * (i + 1) * (j + 1) * (k + 1) : ℕ) : ℚ) ≤ 16777216 := by
    rw [Nat.one_mul]
    exact_mod_cast hprod
  have n2 : (0 : ℚ) ≤ ((1 * (i + 1) * (j + 1) : ℕ) : ℚ) := Nat.cast_nonneg _
  have n3 : (0 : ℚ) ≤ ((1 * (i + 1) * (j + 1) * (k + 1) : ℕ) : ℚ) := Nat.cast_nonneg _
  refine ⟨⟨?_, ?_, ?_⟩, ⟨?_, ?_, ?_⟩⟩
  · rw [p2, e0, s1, s2]
  · rw [p2]; linarith
  · rw [p2]; linarith
  · rw [p3, e0, s1, s2, s3]
  · rw [p3]; linarith
  · rw [p3]; linarith

/-! ## The single-precision planner on small point counts -/

theorem plannerF32_low_eq (n T dt : ℚ)
    (h : flt (totalPointsF32 T dt) (F32.finite 100) = true) :
    injectionCounter2StepsF32 n T dt =
      [(lowGrid.foldl (lowStepF32 n (totalPointsF32 T dt)) (0, 0, F32.finite 0)).1,
       (lowGrid.foldl (lowStepF32 n (totalPointsF32 T dt)) (0, 0, F32.finite 0)).2.1, 0] := by
  unfold injectionCounter2StepsF32 lowGrid
  simp only [h, if_true]
  rw [foldl_product]
  rfl

theorem plannerF32_high_eq (n T dt : ℚ)
    (h : ¬ flt (totalPointsF32 T dt) (F32.finite 100) = true) :
    injectionCounter2StepsF32 n T dt =
      [(highGrid.foldl (highStepF32 n (totalPointsF32 T dt)) (0, 0, 0)).1,
       (highGrid.foldl (highStepF32 n (totalPointsF32 T dt)) (0, 0, 0)).2.1,
       (highGrid.foldl (highStepF32 n (totalPointsF32 T dt)) (0, 0, 0)).2.2] := by
  unfold injectionCounter2StepsF32 highGrid
  simp only [h, if_false]
  rw [foldl_product]
  simp only [foldl_product]
  rfl

/-- Two scans whose steps correspond under `φ` on the elements of the list end in
corresponding states. -/
theorem foldl_sim {α σ τ : Type} (φ : τ → σ) (f : σ → α → σ) (g : τ → α → τ) :
    ∀ (l : List α) (s : τ), (∀ x ∈ l, ∀ s, f (φ s) x = φ (g s x)) →
      l.foldl f (φ s) = φ (l.foldl g s) := by
  intro l
  induction l with
  | nil => intro s _; rfl
  | cons a l ih =>
    intro s h
    rw [List.foldl_cons, List.foldl_cons, h a (List.mem_cons_self a l) s]
    exact ih (g s a) (fun i hi => h i (List.mem_cons_of_mem a hi))

theorem countAfter_mono (P m : ℕ) : P ≤ countAfter P m := by
  unfold countAfter
  omega

/-- Up to 38837 points every projected count of the two grids is below `2^24 = 16777216`. -/
theorem plannedCount_le (N i j k : ℕ) (h1 : 1 ≤ N) (hN : N ≤ 38837)
    (hprod : (i + 1) * (j + 1) * (k + 1) ≤ 432) :
    countAfter (countAfter (countAfter N i) j) k ≤ 16777153 := by
  have e := plannedCount_closed N i j k h1
  unfold plannedCount at e
  simp only [List.getD_cons_zero, List.getD_cons_succ] at e
  rw [e]
  have h2 : (N - 1) * ((i + 1) * (j + 1) * (k + 1)) ≤ 38836 * 432 :=
    Nat.mul_le_mul (by omega) hprod
  have e2 : (N - 1) * (i + 1) * (j + 1) * (k + 1) = (N - 1) * ((i + 1) * (j + 1) * (k + 1)) := by
    ring
  rw [e2]
  omega

/-- The projected counts of a combination are computed in single precision without rounding
when the last of them is at most `2^24`. -/
theorem stageF32_chain_of_le (N i j k : ℕ) (h1 : 1 ≤ N)
    (hb3 : countAfter (countAfter (countAfter N i) j) k ≤ 16777216) :
    (stageF32 j (stageF32 i (F32.finite (N : ℚ)))
        = F32.finite (pointsAfterStage2 (N : ℚ) i j) ∧
      0 ≤ pointsAfterStage2 (N : ℚ) i j ∧ pointsAfterStage2 (N : ℚ) i j ≤ 16777216) ∧
    (stageF32 k (stageF32 j (stageF32 i (F32.finite (N : ℚ))))
        = F32.finite (pointsAfterStage3 (N : ℚ) i j k) ∧
      0 ≤ pointsAfterStage3 (N : ℚ) i j k ∧ pointsAfterStage3 (N : ℚ) i j k ≤ 16777216) := by
  have hb2 : countAfter (countAfter N i) j ≤ 16777216 :=
    le_trans (countAfter_mono _ k) hb3
  have hb1 : countAfter N i ≤ 16777216 := le_trans (countAfter_mono _ j) hb2
  obtain ⟨s1, c1⟩ := stageF32_exact i (N : ℚ) N rfl h1 hb1
  obtain ⟨s2, c2⟩ := stageF32_exact j _ (countAfter N i) c1 (countAfter_pos N i h1) hb2
  obtain ⟨s3, c3⟩ := stageF32_exact k _ (countAfter (countAfter N i) j) c2
    (countAfter_pos _ j (countAfter_pos N i h1)) hb3
  have e2 : pointsAfterStage2 (N : ℚ) i j = ((countAfter (countAfter N i) j : ℕ) : ℚ) := c2
  have e3 : pointsAfterStage3 (N : ℚ) i j k
      = ((countAfter (countAfter (countAfter N i) j) k : ℕ) : ℚ) := c3
  refine ⟨⟨?_, ?_, ?_⟩, ⟨?_, ?_, ?_⟩⟩
  · rw [s1, s2]
    rfl
  · rw [e2]
    exact Nat.cast_nonneg _
  · rw [e2]
    exact_mod_cast hb2
  · rw [s1, s2, s3]
    rfl
  · rw [e3]
    exact Nat.cast_nonneg _
  · rw [e3]
    exact_mod_cast hb3

/-- The three projected counts of a combination, computed in single precision from at most
38837 points, are the exact counts, and these lie between `0` and `2^24`. -/
theorem stageF32_chain (N i j k : ℕ) (h1 : 1 ≤ N) (hN : N ≤ 38837)
    (hprod : (i + 1) * (j + 1) * (k + 1) ≤ 432) :
    (stageF32 j (stageF32 i (F32.finite (N : ℚ)))
        = F32.finite (pointsAfterStage2 (N : ℚ) i j) ∧
      0 ≤ pointsAfterStage2 (N : ℚ) i j ∧ pointsAfterStage2 (N : ℚ) i j ≤ 16777216) ∧
    (stageF32 k (stageF32 j (stageF32 i (F32.finite (N : ℚ))))
        = F32.finite (pointsAfterStage3 (N : ℚ) i j k) ∧
      0 ≤ pointsAfterStage3 (N : ℚ) i j k ∧ pointsAfterStage3 (N : ℚ) i j k ≤ 16777216) :=
  stageF32_chain_of_le N i j k h1
    (le_trans (plannedCount_le N i j k h1 hN hprod) (by norm_num))

theorem fle_nan (p : F32) : fle p F32.nan = false := by
  cases p <;> rfl

/-- A count between `-2^24` and `2^24` is within the quotient exactly when it is at most the
rational that stands for the quotient. -/
theorem fle_count (c : ℚ) (tp : F32) (h0 : -16777216 ≤ c) (h1 : c ≤ 16777216)
    (hn : tp ≠ F32.nan) : fle (F32.finite c) tp = decide (c ≤ budgetOf tp) := by
  cases tp with
  | finite b => rfl
  | posInf =>
    have : c ≤ budgetOf F32.posInf := by
      show c ≤ 340282366920938463463374607431768211456
      linarith
    rw [decide_eq_true this]
    rfl
  | negInf =>
    have : ¬ c ≤ budgetOf F32.negInf := by
      show ¬ c ≤ -340282366920938463463374607431768211456
      linarith
    rw [decide_eq_false this]
    rfl
  | nan => exact absurd rfl hn

theorem flt_hundred (tp : F32) (hn : tp ≠ F32.nan) :
    flt tp (F32.finite 100) = decide (budgetOf tp < 100) := by
  cases tp with
  | finite b => rfl
  | posInf =>
    have : ¬ budgetOf F32.posInf < 100 := by
      show ¬ (340282366920938463463374607431768211456 : ℚ) < 100
      norm_num
    rw [decide_eq_false this]
    rfl
  | negInf =>
    have : budgetOf F32.negInf < 100 := by
      show (-340282366920938463463374607431768211456 : ℚ) < 100
      norm_num
    rw [decide_eq_true this]
    rfl
  | nan => exact absurd rfl hn

/-- Up to 38837 points the projected counts of the pairs of the low-budget grid are computed
without rounding. -/
theorem lowGrid_exact (N : ℕ) (hN : N ≤ 38837) :
    ∀ x ∈ lowGrid,
      stageF32 x.2 (stageF32 x.1 (F32.finite (N : ℚ)))
        = F32.finite (pointsAfterStage2 (N : ℚ) x.1 x.2) ∧
      -16777216 ≤ pointsAfterStage2 (N : ℚ) x.1 x.2 ∧
      pointsAfterStage2 (N : ℚ) x.1 x.2 ≤ 16777216 := by
  intro x hx
  have hm := (mem_lowGrid x.1 x.2).mp hx
  have hprod : (x.1 + 1) * (x.2 + 1) * (0 + 1) ≤ 432 := by
    have : (x.1 + 1) * (x.2 + 1) ≤ 7 * 9 := Nat.mul_le_mul (by omega) (by omega)
    omega
  by_cases h0 : N = 0
  · subst h0
    exact (stageF32_chain_zero x.1 x.2 0 (by omega)).1
  · obtain ⟨⟨c2, p0, p1⟩, _⟩ := stageF32_chain N x.1 x.2 0 (by omega) hN hprod
    exact ⟨c2, by linarith, p1⟩

/-- Up to 38837 points the projected counts of the triples of the high-budget grid are
computed without rounding. -/
theorem highGrid_exact (N : ℕ) (hN : N ≤ 38837) :
    ∀ x ∈ highGrid,
      stageF32 x.2.2 (stageF32 x.2.1 (stageF32 x.1 (F32.finite (N : ℚ))))
        = F32.finite (pointsAfterStage3 (N : ℚ) x.1 x.2.1 x.2.2) ∧
      -16777216 ≤ pointsAfterStage3 (N : ℚ) x.1 x.2.1 x.2.2 ∧
      pointsAfterStage3 (N : ℚ) x.1 x.2.1 x.2.2 ≤ 16777216 := by
  intro x hx
  have hm := (mem_highGrid x.1 x.2.1 x.2.2).mp hx
  have hprod : (x.1 + 1) * (x.2.1 + 1) * (x.2.2 + 1) ≤ 432 := by
    have h2 : (x.1 + 1) * (x.2.1 + 1) ≤ 6 * 9 := Nat.mul_le_mul (by omega) (by omega)
    have h3 : (x.1 + 1) * (x.2.1 + 1) * (x.2.2 + 1) ≤ 6 * 9 * 8 :=
      Nat.mul_le_mul h2 (by omega)
    omega
  by_cases h0 : N = 0
  · subst h0
    exact (stageF32_chain_zero x.1 x.2.1 x.2.2 (by omega)).2
  · obtain ⟨_, c3, p0, p1⟩ := stageF32_chain N x.1 x.2.1 x.2.2 (by omega) hN hprod
    exact ⟨c3, by linarith, p1⟩

theorem lowStepF32_eq (N : ℕ) (tp : F32) (hN : N ≤ 38837) (hn : tp ≠ F32.nan)
    (x : ℕ × ℕ) (hx : x ∈ lowGrid) (s : ℕ × ℕ × ℚ) :
    lowStepF32 (N : ℚ) tp (liftLow s) x = liftLow (lowStep (N : ℚ) (budgetOf tp) s x) := by
  obtain ⟨c2, p0, p1⟩ := lowGrid_exact N hN x hx
  unfold lowStepF32 lowStep
  rw [c2, fle_count _ tp p0 p1 hn]
  simp only [liftLow, flt, decide_eq_true_eq, gt_iff_lt]
  split_ifs <;> rfl

theorem highStepF32_eq (N : ℕ) (tp : F32) (hN : N ≤ 38837) (hn : tp ≠ F32.nan)
    (x : ℕ × ℕ × ℕ) (hx : x ∈ highGrid) (s : ℕ × ℕ × ℕ) :
    highStepF32 (N : ℚ) tp s x = highStep (N : ℚ) (budgetOf tp) s x := by
  obtain ⟨c3, p0, p1⟩ := highGrid_exact N hN x hx
  unfold highStepF32 highStep
  rw [c3, fle_count _ tp p0 p1 hn]
  simp only [decide_eq_true_eq]

/-- Up to 38837 points, and when the quotient is not a NaN, the single-precision planner
returns what the exact planner returns for the budget that stands for the quotient. -/
theorem plannerF32_eq_exact (N : ℕ) (T dt : ℚ) (hN : N ≤ 38837)
    (hn : totalPointsF32 T dt ≠ F32.nan) :
    injectionCounter2StepsF32 (N : ℚ) T dt
      = injectionCounter2Steps (N : ℚ) (budgetOf (totalPointsF32 T dt)) 1 := by
  have hflt := flt_hundred (totalPointsF32 T dt) hn
  by_cases hlow : budgetOf (totalPointsF32 T dt) < 100
  · rw [plannerF32_low_eq (N : ℚ) T dt (by rw [hflt]; exact decide_eq_true hlow),
      planner_low_eq (N : ℚ) _ 1 (by rw [div_one]; exact hlow), div_one]
    have key := foldl_sim liftLow (lowStepF32 (N : ℚ) (totalPointsF32 T dt))
      (lowStep (N : ℚ) (budgetOf (totalPointsF32 T dt)))
      lowGrid (0, 0, 0) (fun x hx s => lowStepF32_eq N _ hN hn x hx s)
    have e0 : liftLow (0, 0, 0) = ((0, 0, F32.finite 0) : ℕ × ℕ × F32) := rfl
    rw [e0] at key
    rw [key]
    rfl
  · rw [plannerF32_high_eq (N : ℚ) T dt (by rw [hflt]; simpa using hlow),
      planner_high_eq (N : ℚ) _ 1 (by rw [div_one]; exact hlow), div_one]
    have key := foldl_sim (fun s : ℕ × ℕ × ℕ => s) (highStepF32 (N : ℚ) (totalPointsF32 T dt))
      (highStep (N : ℚ) (budgetOf (totalPointsF32 T dt))) highGrid (0, 0, 0)
      (fun x hx s => highStepF32_eq N _ hN hn x hx s)
    simp only at key
    rw [key]

theorem foldl_fixed {α σ : Type} (f : σ → α → σ) (s : σ) :
    ∀ (l : List α), (∀ x ∈ l, f s x = s) → l.foldl f s = s := by
  intro l
  induction l with
  | nil => intro _; rfl
  | cons a l ih =>
    intro h
    rw [List.foldl_cons, h a (List.mem_cons_self a l)]
    exact ih (fun x hx => h x (List.mem_cons_of_mem a hx))

/-- When the quotient is a NaN no comparison succeeds and the plan is `(0, 0, 0)`. -/
theorem plannerF32_nan (n T dt : ℚ) (h : totalPointsF32 T dt = F32.nan) :
    injectionCounter2StepsF32 n T dt = [0, 0, 0] := by
  rw [plannerF32_high_eq n T dt (by rw [h]; simp [flt]), h]
  have key := foldl_fixed (highStepF32 n F32.nan) (0, 0, 0) highGrid
    (fun x _ => by unfold highStepF32; rw [fle_nan]; rfl)
  rw [key]
/-! ## The plan is a combination of the grid searched -/

/-- The plan of the exact planner is `(0, 0, 0)` or a feasible combination of the grid of the
branch taken. -/
theorem planner_cases (n T dt : ℚ) :
    injectionCounter2Steps n T dt = [0, 0, 0] ∨
      ∃ a b c, injectionCounter2Steps n T dt = [a, b, c] ∧
        (((4 ≤ a ∧ a ≤ 6) ∧ (1 ≤ b ∧ b ≤ 8) ∧ c = 0 ∧ T / dt < 100) ∨
          ((1 ≤ a ∧ a ≤ 5) ∧ (1 ≤ b ∧ b ≤ 8) ∧ (1 ≤ c ∧ c ≤ 7) ∧ ¬ T / dt < 100)) ∧
        pointsAfterStage3 n a b c ≤ T / dt := by
  by_cases hlow : T / dt < 100
  · rw [planner_low_eq n T dt hlow]
    rcases lowFold_spec n (T / dt) lowGrid (0, 0, 0) with
      ⟨hr, _⟩ | ⟨l1, x, l2, hl, hr, hx, _, _, _⟩
    · left; rw [hr]
    · right
      have hxmem : (x.1, x.2) ∈ lowGrid := by rw [hl]; simp
      have hxg := (mem_lowGrid x.1 x.2).mp hxmem
      exact ⟨x.1, x.2, 0, by rw [hr], Or.inl ⟨hxg.1, hxg.2, rfl, hlow⟩,
        by rw [pointsAfterStage3_zero]; exact hx⟩
  · rw [planner_high_eq n T dt hlow]
    rcases highFold_spec n (T / dt) highGrid (0, 0, 0) with
      ⟨hr, _⟩ | ⟨l1, x, l2, hl, hr, hx, _⟩
    · left; rw [hr]
    · right
      have hxmem : (x.1, x.2.1, x.2.2) ∈ highGrid := by rw [hl]; simp
      have hxg := (mem_highGrid x.1 x.2.1 x.2.2).mp hxmem
      exact ⟨x.1, x.2.1, x.2.2, by rw [hr], Or.inr ⟨hxg.1, hxg.2.1, hxg.2.2, hlow⟩, hx⟩

/-- In the high-budget branch of the exact planner, when some triple of the grid is feasible,
the triple returned is the last feasible triple in the order of the loops. -/
theorem planner_high_last (n T dt : ℚ) (hhigh : ¬ T / dt < 100)
    (hex : ∃ i j k, (1 ≤ i ∧ i ≤ 5) ∧ (1 ≤ j ∧ j ≤ 8) ∧ (1 ≤ k ∧ k ≤ 7) ∧
      pointsAfterStage3 n i j k ≤ T / dt) :
    ∃ a b c, injectionCounter2Steps n T dt = [a, b, c] ∧
      (1 ≤ a ∧ a ≤ 5) ∧ (1 ≤ b ∧ b ≤ 8) ∧ (1 ≤ c ∧ c ≤ 7) ∧
      pointsAfterStage3 n a b c ≤ T / dt ∧
      ∀ i j k, (1 ≤ i ∧ i ≤ 5) → (1 ≤ j ∧ j ≤ 8) → (1 ≤ k ∧ k ≤ 7) →
        pointsAfterStage3 n i j k ≤ T / dt →
        i < a ∨ (i = a ∧ (j < b ∨ (j = b ∧ k ≤ c))) := by
  rw [planner_high_eq n T dt hhigh]
  obtain ⟨i0, j0, k0, hi0, hj0, hk0, hfeas⟩ := hex
  rcases highFold_spec n (T / dt) highGrid (0, 0, 0) with
    ⟨_, hall⟩ | ⟨l1, x, l2, hl, hr, hx, h2⟩
  · exact absurd hfeas (hall (i0, j0, k0) ((mem_highGrid i0 j0 k0).mpr ⟨hi0, hj0, hk0⟩))
  · have hxmem : (x.1, x.2.1, x.2.2) ∈ highGrid := by
      rw [hl]; simp
    have hxg := (mem_highGrid x.1 x.2.1 x.2.2).mp hxmem
    have hsorted := highGrid_sorted
    rw [hl, List.pairwise_append] at hsorted
    obtain ⟨_, _, hs12⟩ := hsorted
    refine ⟨x.1, x.2.1, x.2.2, by rw [hr], hxg.1, hxg.2.1, hxg.2.2, hx, ?_⟩
    intro i j k hi hj hk hijk
    have hmem : (i, j, k) ∈ l1 ++ x :: l2 := by
      rw [← hl]; exact (mem_highGrid i j k).mpr ⟨hi, hj, hk⟩
    rcases List.mem_append.mp hmem with hm | hm
    · have hlex : lexLt3 (i, j, k) x := hs12 (i, j, k) hm x (List.mem_cons_self _ _)
      unfold lexLt3 at hlex
      rcases hlex with h | ⟨h, h' | ⟨h', h''⟩⟩
      · exact Or.inl h
      · exact Or.inr ⟨h, Or.inl h'⟩
      · exact Or.inr ⟨h, Or.inr ⟨h', le_of_lt h''⟩⟩
    · rcases List.mem_cons.mp hm with heq | hm
      · have e1 : i = x.1 := congrArg Prod.fst heq
        have e2 : j = x.2.1 := congrArg (fun p => p.2.1) heq
        have e3 : k = x.2.2 := congrArg (fun p => p.2.2) heq
        exact Or.inr ⟨e1, Or.inr ⟨e2, le_of_eq e3⟩⟩
      · exact absurd hijk (h2 (i, j, k) hm)

/-- Up to 38837 points, the count projected for a pair of the low-budget grid passes the
comparison with the quotient exactly when it is at most the rational that stands for the
quotient. -/
theorem fits_low_iff (N : ℕ) (tp : F32) (hN : N ≤ 38837) (hn : tp ≠ F32.nan) (i j : ℕ)
    (hi : 4 ≤ i ∧ i ≤ 6) (hj : 1 ≤ j ∧ j ≤ 8) :
    fle (F32.finite (pointsAfterStage2 (N : ℚ) i j)) tp = true
      ↔ pointsAfterStage2 (N : ℚ) i j ≤ budgetOf tp := by
  obtain ⟨_, p0, p1⟩ := lowGrid_exact N hN (i, j) ((mem_lowGrid i j).mpr ⟨hi, hj⟩)
  rw [fle_count _ tp p0 p1 hn, decide_eq_true_eq]

/-- Up to 38837 points, the count projected for a triple of the high-budget grid passes the
comparison with the quotient exactly when it is at most the rational that stands for the
quotient. -/
theorem fits_high_iff (N : ℕ) (tp : F32) (hN : N ≤ 38837) (hn : tp ≠ F32.nan) (i j k : ℕ)
    (hi : 1 ≤ i ∧ i ≤ 5) (hj : 1 ≤ j ∧ j ≤ 8) (hk : 1 ≤ k ∧ k ≤ 7) :
    fle (F32.finite (pointsAfterStage3 (N : ℚ) i j k)) tp = true
      ↔ pointsAfterStage3 (N : ℚ) i j k ≤ budgetOf tp := by
  obtain ⟨_, p0, p1⟩ := highGrid_exact N hN (i, j, k) ((mem_highGrid i j k).mpr ⟨hi, hj, hk⟩)
  rw [fle_count _ tp p0 p1 hn, decide_eq_true_eq]

/-- Up to 38837 points, the plan of the single-precision planner is `(0, 0, 0)` or a
combination of the grid of the branch taken whose projected count, computed without
rounding, passes the comparison with the quotient. -/
theorem plannerF32_cases (N : ℕ) (T dt : ℚ) (hN : N ≤ 38837) :
    injectionCounter2StepsF32 (N : ℚ) T dt = [0, 0, 0] ∨
      ∃ a b c, injectionCounter2StepsF32 (N : ℚ) T dt = [a, b, c] ∧
        (((4 ≤ a ∧ a ≤ 6) ∧ (1 ≤ b ∧ b ≤ 8) ∧ c = 0 ∧
            flt (totalPointsF32 T dt) (F32.finite 100) = true) ∨
          ((1 ≤ a ∧ a ≤ 5) ∧ (1 ≤ b ∧ b ≤ 8) ∧ (1 ≤ c ∧ c ≤ 7) ∧
            flt (totalPointsF32 T dt) (F32.finite 100) = false)) ∧
        fle (F32.finite (pointsAfterStage3 (N : ℚ) a b c)) (totalPointsF32 T dt) = true := by
  by_cases hn : totalPointsF32 T dt = F32.nan
  · exact Or.inl (plannerF32_nan _ T dt hn)
  · rw [plannerF32_eq_exact N T dt hN hn]
    have hflt := flt_hundred (totalPointsF32 T dt) hn
    rcases planner_cases (N : ℚ) (budgetOf (totalPointsF32 T dt)) 1 with
      h0 | ⟨a, b, c, hr, hgrid, hfeas⟩
    · exact Or.inl h0
    · right
      rw [div_one] at hfeas hgrid
      refine ⟨a, b, c, hr, ?_, ?_⟩
      · rcases hgrid with ⟨ha, hb, hc, hlow⟩ | ⟨ha, hb, hc, hhigh⟩
        · exact Or.inl ⟨ha, hb, hc, by rw [hflt]; exact decide_eq_true hlow⟩
        · exact Or.inr ⟨ha, hb, hc, by rw [hflt]; exact decide_eq_false hhigh⟩
      · rcases hgrid with ⟨ha, hb, hc, _⟩ | ⟨ha, hb, hc, _⟩
        · subst hc
          rw [pointsAfterStage3_zero] at hfeas ⊢
          exact (fits_low_iff N _ hN hn a b ha hb).mpr hfeas
        · exact (fits_high_iff N _ hN hn a b c ha hb hc).mpr hfeas

/-! ## The quotient of positive arguments -/

theorem pow2_pos (e : ℤ) : 0 < pow2 e := by
  rw [pow2_eq_zpow]
  exact zpow_pos (by norm_num) e

theorem roundHalfEven_nonneg (y : ℚ) (hy : 0 ≤ y) : 0 ≤ roundHalfEven y := by
  have hf : 0 ≤ y.num / (y.den : ℤ) :=
    Int.ediv_nonneg (Rat.num_nonneg.mpr hy) (Int.natCast_nonneg _)
  unfold roundHalfEven
  simp only []
  split_ifs <;> omega

theorem fl32_nonneg (x : ℚ) (hx : 0 ≤ x) : 0 ≤ fl32 x := by
  unfold fl32
  split_ifs with h0
  · exact le_refl _
  · simp only []
    apply mul_nonneg
    · exact_mod_cast roundHalfEven_nonneg _ (div_nonneg hx (le_of_lt (pow2_pos _)))
    · exact le_of_lt (pow2_pos _)

/-- For positive `totalTime` and `timeStep` the quotient that the code computes is `+inf` or
a finite number that is not negative. -/
theorem totalPointsF32_pos (T dt : ℚ) (hT : 0 < T) (hdt : 0 < dt) :
    totalPointsF32 T dt = F32.posInf ∨
      ∃ B : ℚ, 0 ≤ B ∧ totalPointsF32 T dt = F32.finite B := by
  have hq : 0 ≤ fl32 (T / dt) := fl32_nonneg _ (le_of_lt (div_pos hT hdt))
  have e : totalPointsF32 T dt = toF32 (T / dt) := by
    unfold totalPointsF32 fdiv
    simp only []
    rw [if_neg (ne_of_gt hdt)]
  rw [e]
  unfold toF32
  split_ifs with h1 h2
  · exact Or.inl rfl
  · linarith
  · exact Or.inr ⟨_, hq, rfl⟩

/-! ## The plan on some inputs -/

/-- Up to 38837 points and for a finite quotient `B`, the single-precision planner returns
what the exact planner returns for the budget `B`. -/
theorem plannerF32_small (N : ℕ) (T dt B : ℚ) (hN : N ≤ 38837)
    (hB : totalPointsF32 T dt = F32.finite B) :
    injectionCounter2StepsF32 (N : ℚ) T dt = injectionCounter2Steps (N : ℚ) B 1 := by
  rw [plannerF32_eq_exact N T dt hN (by rw [hB]; exact fun h => F32.noConfusion h), hB]
  rfl

/-- The `float` nearest to `0.1`. -/
theorem fl32_tenth : fl32 (1 / 10) = 13421773 / 134217728 := by decide!

theorem totalPoints_test : totalPointsF32 15 (fl32 (1 / 10)) = F32.finite 150 := by decide!

/-- The plan for the input of the driver `test`. -/
theorem plan_test : injectionCounter2StepsF32 5 15 (fl32 (1 / 10)) = [5, 2, 1] := by
  have h := plannerF32_small 5 15 (fl32 (1 / 10)) 150 (by decide) totalPoints_test
  rw [Nat.cast_ofNat] at h
  rw [h]
  decide!

theorem totalPoints_145 : totalPointsF32 (29 / 2) (fl32 (1 / 10)) = F32.finite 145 := by
  decide!

theorem plan_145 : injectionCounter2StepsF32 5 (29 / 2) (fl32 (1 / 10)) = [5, 2, 1] := by
  have h := plannerF32_small 5 (29 / 2) (fl32 (1 / 10)) 145 (by decide) totalPoints_145
  rw [Nat.cast_ofNat] at h
  rw [h]
  decide!

theorem totalPoints_105 : totalPointsF32 (21 / 2) (fl32 (1 / 10)) = F32.finite 105 := by
  decide!

theorem plan_105 : injectionCounter2StepsF32 14 (21 / 2) (fl32 (1 / 10)) = [1, 1, 1] := by
  have h := plannerF32_small 14 (21 / 2) (fl32 (1 / 10)) 105 (by decide) totalPoints_105
  rw [Nat.cast_ofNat] at h
  rw [h]
  decide!

theorem plan_38838 : injectionCounter2StepsF32 38838 16777584 1 = [5, 8, 7] := by decide!

theorem plan_2097153 : injectionCounter2StepsF32 2097153 16777216 1 = [1, 1, 1] := by decide!

theorem plan_nothing_fits : injectionCounter2StepsF32 5 1 1 = [0, 0, 0] := by
  have hB : totalPointsF32 1 1 = F32.finite 1 := by decide!
  have h := plannerF32_small 5 1 1 1 (by decide) hB
  rw [Nat.cast_ofNat] at h
  rw [h]
  decide!

/-! ## The pipeline on a path whose points coincide -/

theorem path_ext (a b : Path) (hshape : a.map List.length = b.map List.length)
    (h : ∀ i j, rd a i j = rd b i j) : a = b := by
  have hlen : a.length = b.length := by
    have := congrArg List.length hshape
    simpa using this
  apply List.ext_getElem hlen
  intro i h1 h2
  have hrow : (a[i]).length = (b[i]).length := by
    have e1 : (a.map List.length)[i]? = some (a[i]).length := by
      rw [List.getElem?_map, List.getElem?_eq_getElem h1]
      rfl
    have e2 : (b.map List.length)[i]? = some (b[i]).length := by
      rw [List.getElem?_map, List.getElem?_eq_getElem h2]
      rfl
    rw [hshape, e2] at e1
    exact (Option.some.inj e1).symm
  apply List.ext_getElem hrow
  intro j hj1 hj2
  have := h i j
  simp only [rd, List.getD_eq_getElem?_getD, List.getElem?_eq_getElem h1,
    List.getElem?_eq_getElem h2, Option.getD_some, List.getElem?_eq_getElem hj1,
    List.getElem?_eq_getElem hj2] at this
  exact this

theorem rd_constPath (N D i j : Nat) : rd (constPath N D) i j = 0 := by
  unfold rd constPath
  simp only [List.getD_eq_getElem?_getD, List.getElem?_replicate]
  split_ifs <;> simp

theorem wellFormed_constPath (N D : Nat) : WellFormed N D (constPath N D) := by
  unfold WellFormed constPath
  refine ⟨List.length_replicate _ _, ?_⟩
  intro row hrow
  rw [(List.mem_replicate.mp hrow).2]
  exact List.length_replicate _ _

/-- A pass over a path whose coordinates are all `0`, with itself as the reference, moves
nothing and leaves `change` at `0`. -/
theorem smootherPass_const (N D : Nat) (wd ws : ℚ) :
    smootherPass N D (constPath N D) wd ws (constPath N D) = (constPath N D, 0) := by
  obtain ⟨hA, hB, hC, hch⟩ :=
    smootherPass_inv N D (constPath N D) wd ws (constPath N D) (wellFormed_constPath N D)
  have hshape := (wellFormed_iff_shape N D _).mp (wellFormed_constPath N D)
  have hzero : ∀ i j, rd (smootherPass N D (constPath N D) wd ws (constPath N D)).1 i j = 0 := by
    intro i
    induction i with
    | zero =>
      intro j
      rw [hB 0 j (Or.inl rfl), rd_constPath]
    | succ i ih =>
      intro j
      by_cases hi : i + 1 < max 1 (N - 1)
      · by_cases hj : j < D
        · rw [hC (i + 1) j (by omega) hi hj]
          unfold relaxValue
          rw [Nat.add_sub_cancel, ih j]
          simp only [rd_constPath]
          ring
        · have hN : i + 1 < N := by
            rcases max_cases 1 (N - 1) with ⟨he, _⟩ | ⟨he, _⟩ <;> rw [he] at hi <;> omega
          have hb := shape_bounds N D _ (hA.trans hshape) (i + 1) hN
          unfold rd
          exact List.getD_eq_default _ _ (by rw [hb.2]; omega)
      · rw [hB (i + 1) j (Or.inr (by omega)), rd_constPath]
  have hpath : (smootherPass N D (constPath N D) wd ws (constPath N D)).1 = constPath N D :=
    path_ext _ _ hA (fun i j => by rw [hzero i j, rd_constPath])
  have hmoves : ∀ (b : ℚ), 0 < b → ∀ i j, 1 ≤ i → i < max 1 (N - 1) → j < D →
      |rd (constPath N D) i j
        - rd (smootherPass N D (constPath N D) wd ws (constPath N D)).1 i j| < b := by
    intro b hb i j _ _ _
    rw [hzero i j, rd_constPath]
    simpa using hb
  obtain ⟨k, hk, hiff⟩ := hch (hmoves 2147483648 (by norm_num))
  have hk0 : k = 0 := hiff.mpr (hmoves 1 (by norm_num))
  rw [hk0] at hk
  exact Prod.ext hpath (by simpa using hk)

/-- The relaxation returns a path whose coordinates are all `0` after one pass. -/
theorem smoother_const (fuel N D : Nat) (wd ws tol : ℚ) (hfuel : 2 ≤ fuel) (htol : 0 < tol) :
    smoother fuel N D (constPath N D) wd ws tol = some (constPath N D) := by
  have h0 : smootherPasses N D (constPath N D) wd ws tol 0 = (constPath N D, tol) := by
    show (smootherCopy N D (constPath N D), tol) = _
    rw [smootherCopy_eq N D _ (wellFormed_constPath N D)]
  have h1 : smootherPasses N D (constPath N D) wd ws tol 1 = (constPath N D, 0) := by
    show smootherPass N D (constPath N D) wd ws
      (smootherPasses N D (constPath N D) wd ws tol 0).1 = _
    rw [h0]
    exact smootherPass_const N D wd ws
  have h := smootherLoop_exit N D (constPath N D) wd ws tol 1 0
    (by
      intro t _ ht
      have : t = 0 := by omega
      subst this
      rw [h0])
    (by rw [Nat.zero_add, h1]; exact htol)
    fuel (by omega)
  rw [Nat.zero_add, h1] at h
  exact h

/-- With the plan `(0, 0, 0)` the three stages return a path whose coordinates are all `0` as
it is, and the packaging stores the rounded count in the sentinel. -/
theorem smoothPath_const (fuel N D : Nat) (T dt : ℚ) (hfuel : 2 ≤ fuel) (hN : 1 ≤ N)
    (hplan : injectionCounter2StepsF32 (fl32 (N : ℚ)) T dt = [0, 0, 0]) :
    smoothStages fuel N D (constPath N D) T dt = some (N, constPath N D) ∧
    smoothPath fuel N D (constPath N D) T dt
      = some ((List.replicate D (0 : ℚ)).set 0 (fl32 ((N : ℚ) + 1)) :: constPath N D) := by
  have hwf := wellFormed_constPath N D
  have hst : smoothStages fuel N D (constPath N D) T dt = some (N, constPath N D) := by
    rw [smoothStages_eq, hplan]
    have hc : plannedCount N [0, 0, 0] = N := by simp [plannedCount, countAfter]
    have h0 : countAfter N 0 = N := by simp [countAfter]
    simp only [List.getD_cons_zero, List.getD_cons_succ, hc, h0]
    rw [inject_zero_eq N D _ hN hwf, smoother_const fuel N D _ _ _ hfuel (by norm_num)]
    simp only [Option.some_bind]
    rw [inject_zero_eq N D _ hN hwf, smoother_const fuel N D _ _ _ hfuel (by norm_num)]
    simp only [Option.some_bind]
    rw [inject_zero_eq N D _ hN hwf, smoother_const fuel N D _ _ _ hfuel (by norm_num)]
    rfl
  refine ⟨hst, ?_⟩
  unfold smoothPath
  rw [hst]
  simp only [Option.map_some']
  rw [packageFinal_eq N D _ hwf]

/-- The result of `smoothPath` on a path whose coordinates are all `0`, when the plan is
`(0, 0, 0)`: the points as they are, below a sentinel that holds the rounded count. -/
theorem smoothPath_const_layout (fuel N D : Nat) (T dt : ℚ) (hfuel : 2 ≤ fuel) (hN : 1 ≤ N)
    (hD : 1 ≤ D) (hplan : injectionCounter2StepsF32 (fl32 (N : ℚ)) T dt = [0, 0, 0]) :
    ∃ r : Path, smoothPath fuel N D (constPath N D) T dt = some r ∧
      smoothStages fuel N D (constPath N D) T dt = some (N, constPath N D) ∧
      (constPath N D).length = N ∧
      r.length = N + 1 ∧
      r[1]? = (constPath N D)[0]? ∧
      r[N]? = (constPath N D)[N - 1]? ∧
      (r[0]?.bind fun row => row[0]?) = some (fl32 ((N : ℚ) + 1)) := by
  obtain ⟨hst, hsp⟩ := smoothPath_const fuel N D T dt hfuel hN hplan
  have hlen : (constPath N D).length = N := (wellFormed_constPath N D).1
  refine ⟨_, hsp, hst, hlen, by rw [List.length_cons, hlen], by simp, ?_, ?_⟩
  · obtain ⟨n, rfl⟩ : ∃ n, N = n + 1 := ⟨N - 1, by omega⟩
    simp
  · obtain ⟨d, rfl⟩ : ∃ d, D = d + 1 := ⟨D - 1, by omega⟩
    simp [List.replicate_succ]

/-! ## The change of a pass is an integer -/

theorem cAbs_int (x : ℚ) : ∃ z : ℤ, cAbs x = (z : ℚ) := by
  unfold cAbs
  simp only []
  split_ifs
  · exact ⟨-2147483648, by norm_num⟩
  · exact ⟨(((truncToInt x).natAbs : ℕ) : ℤ), (Int.cast_natCast _).symm⟩

/-- After a pass `change` is an integer: every term of the sum went through the integer
`abs`. -/
theorem smootherPass_change_int (N D : Nat) (path : Path) (wd ws : ℚ) (np : Path) :
    ∃ z : ℤ, (smootherPass N D path wd ws np).2 = (z : ℚ) := by
  unfold smootherPass
  by_cases hN : 1 ≤ N - 1
  · refine forLoop_inv (fun _ (st : Path × ℚ) => ∃ z : ℤ, st.2 = (z : ℚ)) 1 (N - 1) _ (np, 0) hN
      ⟨0, by simp⟩ ?_
    intro i st _ _ hst
    refine forLoop_inv (fun _ (st : Path × ℚ) => ∃ z : ℤ, st.2 = (z : ℚ)) 0 D _ st
      (Nat.zero_le _) hst ?_
    intro j st2 _ _ hst2
    obtain ⟨z, hz⟩ := hst2
    obtain ⟨w, hw⟩ := cAbs_int (rd st2.1 i j - rd (wr st2.1 i j
      (rd st2.1 i j + (wd * (rd path i j - rd st2.1 i j)
        + ws * (rd st2.1 (i - 1) j + rd st2.1 (i + 1) j - 2 * rd st2.1 i j)))) i j)
    exact ⟨z + w, by simp only []; rw [hz, hw]; push_cast; rfl⟩
  · rw [forLoop_empty _ _ _ _ (by omega)]
    exact ⟨0, by simp⟩

/-- For a tolerance in `(0, 1]` the loop condition `change >= tolerance` after a pass holds
exactly when `change` is at least 1. -/
theorem smootherPasses_cond (N D : Nat) (path : Path) (wd ws tol : ℚ) (htol : 0 < tol)
    (htol1 : tol ≤ 1) (n : Nat) :
    (smootherPasses N D path wd ws tol (n + 1)).2 ≥ tol ↔
      (smootherPasses N D path wd ws tol (n + 1)).2 ≥ 1 := by
  obtain ⟨z, hz⟩ := smootherPass_change_int N D path wd ws
    (smootherPasses N D path wd ws tol n).1
  have e : smootherPasses N D path wd ws tol (n + 1)
      = smootherPass N D path wd ws (smootherPasses N D path wd ws tol n).1 := rfl
  rw [e, hz]
  constructor
  · intro h
    have h0 : (0 : ℚ) < (z : ℚ) := lt_of_lt_of_le htol h
    have h1 : 0 < z := by exact_mod_cast h0
    have h2 : 1 ≤ z := by omega
    exact_mod_cast h2
  · intro h
    exact le_trans htol1 h

/-! ## Rounding does not cross a small natural number -/

theorem roundHalfEven_ge (n : ℤ) (y : ℚ) (h : (n : ℚ) ≤ y) : n ≤ roundHalfEven y := by
  have hf : n ≤ y.num / (y.den : ℤ) := by
    rw [← Rat.floor_def]
    exact Int.le_floor.mpr h
  unfold roundHalfEven
  simp only []
  split_ifs <;> omega

/-- The exponent that `fl32` computes for a positive `x = a / b` is not too large:
`2 ^ e ≤ x`. -/
theorem fl32_exponent_le (a b : ℕ) (ha : 1 ≤ a) (hb : 1 ≤ b) :
    pow2 (if pow2 ((log2Nat a : ℤ) - (log2Nat b : ℤ)) * (b : ℚ) ≤ (a : ℚ)
        then (log2Nat a : ℤ) - (log2Nat b : ℤ)
        else (log2Nat a : ℤ) - (log2Nat b : ℤ) - 1) * (b : ℚ) ≤ (a : ℚ) := by
  split_ifs with hc
  · exact hc
  · obtain ⟨hla, _⟩ := log2Nat_spec a ha
    obtain ⟨_, hlb⟩ := log2Nat_spec b hb
    have h2 : (2 : ℚ) ≠ 0 := by norm_num
    have hbq : (b : ℚ) ≤ (2 : ℚ) ^ ((log2Nat b : ℤ) + 1) := by
      rw [show ((log2Nat b : ℤ) + 1) = ((log2Nat b + 1 : ℕ) : ℤ) by push_cast; rfl,
        zpow_natCast]
      exact_mod_cast le_of_lt hlb
    have haq : (2 : ℚ) ^ (log2Nat a : ℤ) ≤ (a : ℚ) := by
      rw [zpow_natCast]
      exact_mod_cast hla
    rw [pow2_eq_zpow]
    calc (2 : ℚ) ^ ((log2Nat a : ℤ) - (log2Nat b : ℤ) - 1) * (b : ℚ)
        ≤ (2 : ℚ) ^ ((log2Nat a : ℤ) - (log2Nat b : ℤ) - 1)
            * (2 : ℚ) ^ ((log2Nat b : ℤ) + 1) :=
          mul_le_mul_of_nonneg_left hbq (le_of_lt (zpow_pos (by norm_num) _))
      _ = (2 : ℚ) ^ (log2Nat a : ℤ) := by
          rw [← zpow_add₀ h2]
          congr 1
          ring
      _ ≤ (a : ℚ) := haq

/-- Rounding to single precision does not fall below a natural number of at most `2^24`
that the argument reaches. -/
theorem fl32_ge_nat (c : ℕ) (hc : c ≤ 16777216) (x : ℚ) (hx : (c : ℚ) ≤ x) :
    (c : ℚ) ≤ fl32 x := by
  by_cases hc0 : c = 0
  · subst hc0
    rw [Nat.cast_zero] at hx ⊢
    exact fl32_nonneg x hx
  have hc1 : (1 : ℚ) ≤ (c : ℚ) := by exact_mod_cast (by omega : 1 ≤ c)
  have hxpos : 0 < x := by linarith
  have hnum : 0 < x.num := Rat.num_pos.mpr hxpos
  have ha : 1 ≤ x.num.natAbs := by omega
  have hb : 1 ≤ x.den := x.den_pos
  have hbq : (0 : ℚ) < (x.den : ℚ) := by exact_mod_cast x.den_pos
  have hxab : x = (x.num.natAbs : ℚ) / (x.den : ℚ) := by
    have h1 : ((x.num.natAbs : ℕ) : ℚ) = ((x.num : ℤ) : ℚ) := by
      rw [← Int.cast_natCast, Int.natAbs_of_nonneg (le_of_lt hnum)]
    rw [h1]
    exact (Rat.num_div_den x).symm
  have hexp := fl32_exponent_le x.num.natAbs x.den ha hb
  unfold fl32
  rw [if_neg (ne_of_gt hxpos)]
  simp only []
  generalize hE : (if pow2 ((log2Nat x.num.natAbs : ℤ) - (log2Nat x.den : ℤ)) * (x.den : ℚ)
        ≤ (x.num.natAbs : ℚ)
      then (log2Nat x.num.natAbs : ℤ) - (log2Nat x.den : ℤ)
      else (log2Nat x.num.natAbs : ℤ) - (log2Nat x.den : ℤ) - 1) = e at hexp ⊢
  have hex : pow2 e ≤ x := by
    rw [hxab, le_div_iff₀ hbq]
    exact hexp
  have hq : 0 < pow2 (max (e - 23) (-149)) := pow2_pos _
  by_cases ht : max (e - 23) (-149) ≤ 0
  · obtain ⟨d, hd⟩ : ∃ d : ℕ, max (e - 23) (-149) = -(d : ℤ) :=
      ⟨(-(max (e - 23) (-149))).toNat, by omega⟩
    rw [hd, pow2_eq_zpow, zpow_neg, zpow_natCast]
    have hpos : (0 : ℚ) < (2 : ℚ) ^ d := by positivity
    have hle : (((c * 2 ^ d : ℕ) : ℤ) : ℚ) ≤ x / ((2 : ℚ) ^ d)⁻¹ := by
      rw [div_inv_eq_mul]
      push_cast
      exact mul_le_mul_of_nonneg_right hx (le_of_lt hpos)
    have hr := roundHalfEven_ge _ _ hle
    have hrq : (((c * 2 ^ d : ℕ) : ℤ) : ℚ) ≤ (roundHalfEven (x / ((2 : ℚ) ^ d)⁻¹) : ℚ) := by
      exact_mod_cast hr
    have : (c : ℚ) = (((c * 2 ^ d : ℕ) : ℤ) : ℚ) * ((2 : ℚ) ^ d)⁻¹ := by
      push_cast
      field_simp
    rw [this]
    exact mul_le_mul_of_nonneg_right hrq (le_of_lt (inv_pos.mpr hpos))
  · have ht1 : max (e - 23) (-149) = e - 23 := by omega
    have he : 24 ≤ e := by omega
    rw [ht1] at hq ⊢
    have hsplit : pow2 e = ((8388608 : ℤ) : ℚ) * pow2 (e - 23) := by
      rw [pow2_eq_zpow, pow2_eq_zpow, zpow_sub₀ (by norm_num : (2 : ℚ) ≠ 0)]
      norm_num
      field_simp
    have hle : ((8388608 : ℤ) : ℚ) ≤ x / pow2 (e - 23) := by
      rw [le_div_iff₀ hq, ← hsplit]
      exact hex
    have hr := roundHalfEven_ge _ _ hle
    have hrq : ((8388608 : ℤ) : ℚ) ≤ (roundHalfEven (x / pow2 (e - 23)) : ℚ) := by
      exact_mod_cast hr
    have h24 : (16777216 : ℚ) ≤ ((8388608 : ℤ) : ℚ) * pow2 (e - 23) := by
      rw [← hsplit, pow2_eq_zpow]
      have : (2 : ℚ) ^ (24 : ℤ) ≤ (2 : ℚ) ^ e := zpow_le_zpow_right₀ (by norm_num) he
      norm_num at this
      exact this
    have hcq : (c : ℚ) ≤ 16777216 := by exact_mod_cast hc
    calc (c : ℚ) ≤ 16777216 := hcq
      _ ≤ ((8388608 : ℤ) : ℚ) * pow2 (e - 23) := h24
      _ ≤ (roundHalfEven (x / pow2 (e - 23)) : ℚ) * pow2 (e - 23) :=
          mul_le_mul_of_nonneg_right hrq (le_of_lt hq)

/-! ## Lower bounds on the projected counts in single precision -/

theorem toF32_atLeast (c : ℕ) (hc : c ≤ 16777216) (x : ℚ) (hx : (c : ℚ) ≤ x) :
    atLeast (c : ℚ) (toF32 x) := by
  have h := fl32_ge_nat c hc x hx
  have h0 : (0 : ℚ) ≤ (c : ℚ) := Nat.cast_nonneg c
  unfold toF32
  split_ifs with h1 h2
  · exact Or.inl rfl
  · linarith
  · exact Or.inr ⟨_, rfl, h⟩

/-- One stage of the projection keeps a lower bound: from at least `c` points it projects at
least `countAfter c 1 = 2 * c - 1` points, for every count `m ≥ 1`. -/
theorem stageF32_atLeast (m c : ℕ) (hm : 1 ≤ m) (hc : 1 ≤ c)
    (hb : countAfter c 1 ≤ 16777216) (p : F32) (hp : atLeast (c : ℚ) p) :
    atLeast ((countAfter c 1 : ℕ) : ℚ) (stageF32 m p) := by
  have hcc : countAfter c 1 = c + (c - 1) := by
    unfold countAfter
    omega
  have hmq : (1 : ℚ) ≤ (m : ℚ) := by exact_mod_cast hm
  have hm0 : (0 : ℚ) < (m : ℚ) := by linarith
  rcases hp with hp | ⟨q, hp, hq⟩
  · subst hp
    left
    unfold stageF32 fsub fmul fadd
    simp only [ne_of_gt hm0, hm0, if_false, if_true]
  · subst hp
    have hsub : atLeast ((c - 1 : ℕ) : ℚ) (toF32 (q - 1)) := by
      apply toF32_atLeast (c - 1) (by omega)
      rw [Nat.cast_sub hc]
      push_cast
      linarith
    have e1 : fsub (F32.finite q) (F32.finite 1) = toF32 (q - 1) := rfl
    unfold stageF32
    rw [e1]
    rcases hsub with hs | ⟨d, hs, hd⟩
    · rw [hs]
      left
      unfold fmul fadd
      simp only [ne_of_gt hm0, hm0, if_false, if_true]
    · rw [hs]
      have hd0 : (0 : ℚ) ≤ d := le_trans (Nat.cast_nonneg _) hd
      have hmul : atLeast ((c - 1 : ℕ) : ℚ) (toF32 ((m : ℚ) * d)) := by
        apply toF32_atLeast (c - 1) (by omega)
        calc ((c - 1 : ℕ) : ℚ) ≤ d := hd
          _ = 1 * d := (one_mul d).symm
          _ ≤ (m : ℚ) * d := mul_le_mul_of_nonneg_right hmq hd0
      have e2 : fmul (F32.finite (m : ℚ)) (F32.finite d) = toF32 ((m : ℚ) * d) := rfl
      rw [e2]
      rcases hmul with ht | ⟨t, ht, htd⟩
      · rw [ht]
        exact Or.inl rfl
      · rw [ht]
        have e3 : fadd (F32.finite t) (F32.finite q) = toF32 (t + q) := rfl
        rw [e3]
        apply toF32_atLeast _ hb
        rw [hcc]
        push_cast
        linarith

theorem atLeast_finite (N : ℕ) : atLeast (N : ℚ) (F32.finite (N : ℚ)) :=
  Or.inr ⟨_, rfl, le_refl _⟩

/-- A count that a `float` of the comparison reaches passes the comparison too. -/
theorem fle_of_atLeast (c : ℚ) (p tp : F32) (hp : atLeast c p) (h : fle p tp = true) :
    fle (F32.finite c) tp = true := by
  rcases hp with hp | ⟨q, hp, hq⟩
  · subst hp
    cases tp <;> simp_all [fle]
  · subst hp
    cases tp with
    | finite b =>
      simp only [fle, decide_eq_true_eq] at h ⊢
      exact le_trans hq h
    | posInf => rfl
    | negInf => simp [fle] at h
    | nan => simp [fle] at h

theorem fle_mono_left (a b : ℚ) (tp : F32) (hab : a ≤ b)
    (h : fle (F32.finite b) tp = true) : fle (F32.finite a) tp = true :=
  fle_of_atLeast a (F32.finite b) tp (Or.inr ⟨b, rfl, hab⟩) h

/-- A count within a quotient that is below 100 is below 100. -/
theorem lt_hundred_of_fle (a : ℚ) (tp : F32) (h : fle (F32.finite a) tp = true)
    (hlow : flt tp (F32.finite 100) = true) : a < 100 := by
  cases tp with
  | finite b =>
    simp only [fle, flt, decide_eq_true_eq] at h hlow
    exact lt_of_le_of_lt h hlow
  | posInf => simp [flt] at hlow
  | negInf => simp [fle] at h
  | nan => simp [fle] at h

/-! ## The scans in single precision -/

theorem highFoldF32_spec (n : ℚ) (tp : F32) : ∀ (l : List (ℕ × ℕ × ℕ)) (st : ℕ × ℕ × ℕ),
    (l.foldl (highStepF32 n tp) st = st ∧
        ∀ y ∈ l, ¬ fle (stageF32 y.2.2 (stageF32 y.2.1 (stageF32 y.1 (F32.finite n)))) tp
          = true) ∨
    (∃ x ∈ l, l.foldl (highStepF32 n tp) st = x ∧
        fle (stageF32 x.2.2 (stageF32 x.2.1 (stageF32 x.1 (F32.finite n)))) tp = true) := by
  intro l
  induction l with
  | nil => intro st; left; simp
  | cons a l ih =>
    intro st
    simp only [List.foldl_cons]
    by_cases ha : fle (stageF32 a.2.2 (stageF32 a.2.1 (stageF32 a.1 (F32.finite n)))) tp
        = true
    · have hstep : highStepF32 n tp st a = a := by
        unfold highStepF32
        rw [if_pos ha]
      rw [hstep]
      rcases ih a with ⟨hr, _⟩ | ⟨x, hx, hr, hp⟩
      · right
        exact ⟨a, List.mem_cons_self a l, hr, ha⟩
      · right
        exact ⟨x, List.mem_cons_of_mem a hx, hr, hp⟩
    · have hstep : highStepF32 n tp st a = st := by
        unfold highStepF32
        rw [if_neg ha]
      rw [hstep]
      rcases ih st with ⟨hr, hall⟩ | ⟨x, hx, hr, hp⟩
      · left
        refine ⟨hr, ?_⟩
        intro y hy
        rcases List.mem_cons.mp hy with rfl | hy
        · exact ha
        · exact hall y hy
      · right
        exact ⟨x, List.mem_cons_of_mem a hx, hr, hp⟩

theorem lowFoldF32_spec (n : ℚ) (tp : F32) : ∀ (l : List (ℕ × ℕ)) (st : ℕ × ℕ × F32),
    l.foldl (lowStepF32 n tp) st = st ∨
    (∃ x ∈ l, (l.foldl (lowStepF32 n tp) st).1 = x.1 ∧
        (l.foldl (lowStepF32 n tp) st).2.1 = x.2 ∧
        fle (stageF32 x.2 (stageF32 x.1 (F32.finite n))) tp = true) := by
  intro l
  induction l with
  | nil => intro st; left; rfl
  | cons a l ih =>
    intro st
    simp only [List.foldl_cons]
    by_cases ha : fle (stageF32 a.2 (stageF32 a.1 (F32.finite n))) tp = true ∧
        flt st.2.2 (stageF32 a.2 (stageF32 a.1 (F32.finite n))) = true
    · have hstep : lowStepF32 n tp st a
          = (a.1, a.2, stageF32 a.2 (stageF32 a.1 (F32.finite n))) := by
        unfold lowStepF32
        rw [if_pos ha]
      rw [hstep]
      right
      rcases ih (a.1, a.2, stageF32 a.2 (stageF32 a.1 (F32.finite n))) with
        hr | ⟨x, hx, h1, h2, hp⟩
      · exact ⟨a, List.mem_cons_self a l, by rw [hr], by rw [hr], ha.1⟩
      · exact ⟨x, List.mem_cons_of_mem a hx, h1, h2, hp⟩
    · have hstep : lowStepF32 n tp st a = st := by
        unfold lowStepF32
        rw [if_neg ha]
      rw [hstep]
      rcases ih st with hr | ⟨x, hx, h1, h2, hp⟩
      · exact Or.inl hr
      · exact Or.inr ⟨x, List.mem_cons_of_mem a hx, h1, h2, hp⟩

/-! ## The default plan up to `2^21` points -/

/-- The projected count of a combination with counts of at least 1 is at least that of
`(1, 1, 1)`. -/
theorem plannedCount_ge_ones (N i j k : ℕ) (h1 : 1 ≤ N) (hi : 1 ≤ i) (hj : 1 ≤ j)
    (hk : 1 ≤ k) :
    pointsAfterStage3 (N : ℚ) 1 1 1 ≤ pointsAfterStage3 (N : ℚ) i j k := by
  rw [← plannedCount_cast N 1 1 1 h1, ← plannedCount_cast N i j k h1,
    plannedCount_closed N 1 1 1 h1, plannedCount_closed N i j k h1]
  have h2 : (1 + 1) * (1 + 1) ≤ (i + 1) * (j + 1) := Nat.mul_le_mul (by omega) (by omega)
  have h3 : (1 + 1) * (1 + 1) * (1 + 1) ≤ (i + 1) * (j + 1) * (k + 1) :=
    Nat.mul_le_mul h2 (by omega)
  have h4 : (N - 1) * ((1 + 1) * (1 + 1) * (1 + 1)) ≤ (N - 1) * ((i + 1) * (j + 1) * (k + 1)) :=
    Nat.mul_le_mul_left _ h3
  have e1 : (N - 1) * (1 + 1) * (1 + 1) * (1 + 1) = (N - 1) * ((1 + 1) * (1 + 1) * (1 + 1)) := by
    ring
  have e2 : (N - 1) * (i + 1) * (j + 1) * (k + 1) = (N - 1) * ((i + 1) * (j + 1) * (k + 1)) := by
    ring
  rw [e1, e2]
  exact_mod_cast Nat.add_le_add_left h4 1

/-- Up to `2^21 = 2097152` points every projected count of the high-budget grid, computed in
single precision, is at least the exact count of `(1, 1, 1)`, and that count is computed
without rounding. -/
theorem highGrid_atLeast (N : ℕ) (h1 : 1 ≤ N) (hN : N ≤ 2097152) :
    stageF32 1 (stageF32 1 (stageF32 1 (F32.finite (N : ℚ))))
      = F32.finite (pointsAfterStage3 (N : ℚ) 1 1 1) ∧
    ∀ x ∈ highGrid, atLeast (pointsAfterStage3 (N : ℚ) 1 1 1)
      (stageF32 x.2.2 (stageF32 x.2.1 (stageF32 x.1 (F32.finite (N : ℚ))))) := by
  have hc1 : countAfter N 1 = N + (N - 1) := by unfold countAfter; omega
  have hc2 : countAfter (countAfter N 1) 1 = countAfter N 1 + (countAfter N 1 - 1) := by
    unfold countAfter; omega
  have hc3 : countAfter (countAfter (countAfter N 1) 1) 1
      = countAfter (countAfter N 1) 1 + (countAfter (countAfter N 1) 1 - 1) := by
    unfold countAfter; omega
  have hb3 : countAfter (countAfter (countAfter N 1) 1) 1 ≤ 16777216 := by omega
  have hcast : ((countAfter (countAfter (countAfter N 1) 1) 1 : ℕ) : ℚ)
      = pointsAfterStage3 (N : ℚ) 1 1 1 := plannedCount_cast N 1 1 1 h1
  refine ⟨(stageF32_chain_of_le N 1 1 1 h1 hb3).2.1, ?_⟩
  intro x hx
  have hm := (mem_highGrid x.1 x.2.1 x.2.2).mp hx
  have a1 := stageF32_atLeast x.1 N hm.1.1 h1 (by omega) _ (atLeast_finite N)
  have a2 := stageF32_atLeast x.2.1 (countAfter N 1) hm.2.1.1 (by omega) (by omega) _ a1
  have a3 := stageF32_atLeast x.2.2 (countAfter (countAfter N 1) 1) hm.2.2.1 (by omega) hb3 _ a2
  rw [hcast] at a3
  exact a3

/-- Up to `2^21 = 2097152` points, in the high-budget branch of the single-precision planner,
the plan is `(0, 0, 0)` exactly when no triple of the grid has an exact projected count that
passes the comparison with the quotient. -/
theorem plannerF32_high_zero_iff (N : ℕ) (T dt : ℚ) (h1 : 1 ≤ N) (hN : N ≤ 2097152)
    (hhigh : ¬ flt (totalPointsF32 T dt) (F32.finite 100) = true) :
    injectionCounter2StepsF32 (N : ℚ) T dt = [0, 0, 0] ↔
      ¬ ∃ i j k, (1 ≤ i ∧ i ≤ 5) ∧ (1 ≤ j ∧ j ≤ 8) ∧ (1 ≤ k ∧ k ≤ 7) ∧
        fle (F32.finite (pointsAfterStage3 (N : ℚ) i j k)) (totalPointsF32 T dt) = true := by
  obtain ⟨hones, hge⟩ := highGrid_atLeast N h1 hN
  have hmem1 : ((1, 1, 1) : ℕ × ℕ × ℕ) ∈ highGrid :=
    (mem_highGrid 1 1 1).mpr ⟨by decide, by decide, by decide⟩
  rw [plannerF32_high_eq (N : ℚ) T dt hhigh]
  rcases highFoldF32_spec (N : ℚ) (totalPointsF32 T dt) highGrid (0, 0, 0) with
    ⟨hr, hall⟩ | ⟨x, hx, hr, hp⟩
  · rw [hr]
    refine ⟨fun _ => ?_, fun _ => rfl⟩
    rintro ⟨i, j, k, hi, hj, hk, hfeas⟩
    have h111 := fle_mono_left _ _ _ (plannedCount_ge_ones N i j k h1 hi.1 hj.1 hk.1) hfeas
    have := hall (1, 1, 1) hmem1
    simp only [] at this
    rw [hones] at this
    exact this h111
  · have hxg := (mem_highGrid x.1 x.2.1 x.2.2).mp hx
    rw [hr]
    constructor
    · intro h
      have hx1 : x.1 = 0 := by simpa using congrArg (fun l => l.getD 0 0) h
      omega
    · intro h
      exact absurd ⟨1, 1, 1, by decide, by decide, by decide,
        fle_of_atLeast _ _ _ (hge x hx) hp⟩ h

/-- From 38838 to `2^21` points, in the low-budget branch, no pair of the grid passes the
comparison, in single precision or exactly, and the plan is `(0, 0, 0)`. -/
theorem plannerF32_low_large (N : ℕ) (T dt : ℚ) (h1 : 38837 < N) (hN : N ≤ 2097152)
    (hlow : flt (totalPointsF32 T dt) (F32.finite 100) = true) :
    injectionCounter2StepsF32 (N : ℚ) T dt = [0, 0, 0] ∧
      ¬ ∃ i j, (4 ≤ i ∧ i ≤ 6) ∧ (1 ≤ j ∧ j ≤ 8) ∧
        fle (F32.finite (pointsAfterStage2 (N : ℚ) i j)) (totalPointsF32 T dt) = true := by
  have hNq : (38838 : ℚ) ≤ (N : ℚ) := by exact_mod_cast h1
  constructor
  · rw [plannerF32_low_eq (N : ℚ) T dt hlow]
    rcases lowFoldF32_spec (N : ℚ) (totalPointsF32 T dt) lowGrid (0, 0, F32.finite 0) with
      hr | ⟨x, hx, _, _, hp⟩
    · rw [hr]
    · exfalso
      have hm := (mem_lowGrid x.1 x.2).mp hx
      have hc1 : countAfter N 1 = N + (N - 1) := by unfold countAfter; omega
      have hc2 : countAfter (countAfter N 1) 1 = countAfter N 1 + (countAfter N 1 - 1) := by
        unfold countAfter; omega
      have a1 := stageF32_atLeast x.1 N (by omega) (by omega) (by omega) _ (atLeast_finite N)
      have a2 := stageF32_atLeast x.2 (countAfter N 1) hm.2.1 (by omega) (by omega) _ a1
      have hlt := lt_hundred_of_fle _ _ (fle_of_atLeast _ _ _ a2 hp) hlow
      have : (100 : ℚ) ≤ ((countAfter (countAfter N 1) 1 : ℕ) : ℚ) := by
        have : 100 ≤ countAfter (countAfter N 1) 1 := by omega
        exact_mod_cast this
      linarith
  · rintro ⟨i, j, _, _, hfeas⟩
    have hlt := lt_hundred_of_fle _ _ hfeas hlow
    have e : pointsAfterStage2 (N : ℚ) i j
        = ((j : ℚ) + 1) * ((i : ℚ) + 1) * ((N : ℚ) - 1) + 1 := by
      unfold pointsAfterStage2; ring
    have hi0 : (0 : ℚ) ≤ (i : ℚ) := Nat.cast_nonneg i
    have hj0 : (0 : ℚ) ≤ (j : ℚ) := Nat.cast_nonneg j
    have hprod : (1 : ℚ) ≤ ((j : ℚ) + 1) * ((i : ℚ) + 1) := by nlinarith
    have hbig : (N : ℚ) - 1 ≤ ((j : ℚ) + 1) * ((i : ℚ) + 1) * ((N : ℚ) - 1) :=
      le_mul_of_one_le_left (by linarith) hprod
    rw [e] at hlt
    linarith

/-! ## Claims on `inject` -/

/-- C1: for a path of `N ≥ 2` points of dimension `D` and any count `k`, `inject` returns
`N + k * (N - 1)` points, and for every `m < N` the point at index `m * (k + 1)` of the result
is the original point `m`, unchanged. -/
theorem inject_length_and_originals (N D k : Nat) (orig : Path) (hN : 2 ≤ N)
    (hwf : WellFormed N D orig) :
    (inject N D orig k).length = N + k * (N - 1) ∧
      ∀ m, m < N → (inject N D orig k)[m * (k + 1)]? = orig[m]? :=
  ⟨inject_length N D orig k (by omega),
    fun m hm => inject_getElem?_original N D orig k m (by omega) hwf hm⟩

theorem inject_length_and_originals_witness :
    (2 ≤ 3 ∧ WellFormed 3 2 [[0, 0], [3, 6], [9, 0]]) ∧
      ((inject 3 2 [[0, 0], [3, 6], [9, 0]] 2).length = 3 + 2 * (3 - 1) ∧
        ∀ m, m < 3 →
          (inject 3 2 [[0, 0], [3, 6], [9, 0]] 2)[m * (2 + 1)]?
            = ([[0, 0], [3, 6], [9, 0]] : Path)[m]?) :=
  ⟨⟨by decide, by decide⟩,
    inject_length_and_originals 3 2 2 [[0, 0], [3, 6], [9, 0]] (by decide) (by decide)⟩

/-- C2: for `N ≥ 2` and `k ≥ 1`, the point at index `m * (k + 1) + t` of the result of `inject`
(segment `m < N - 1`, offset `1 ≤ t ≤ k`) is, coordinate by coordinate,
`orig[m] + (t / (k + 1)) * (orig[m+1] - orig[m])`. -/
theorem inject_interpolants (N D k : Nat) (orig : Path) (hN : 2 ≤ N) (hk : 1 ≤ k)
    (hwf : WellFormed N D orig) (m t : Nat) (hm : m < N - 1) (ht1 : 1 ≤ t) (ht : t ≤ k)
    (p q : List ℚ) (hp : orig[m]? = some p) (hq : orig[m + 1]? = some q) :
    (inject N D orig k)[m * (k + 1) + t]?
      = some (List.zipWith (fun a b => a + ((t : ℚ) / ((k : ℚ) + 1)) * (b - a)) p q) := by
  obtain ⟨_, hdim⟩ := hwf
  have hpD : p.length = D := hdim p (List.getElem?_mem hp)
  have hqD : q.length = D := hdim q (List.getElem?_mem hq)
  rw [inject_getElem?_segment N D orig k m t (by omega) hm ht]
  obtain ⟨s, rfl⟩ : ∃ s, t = s + 1 := ⟨t - 1, by omega⟩
  simp only [injectSegment, List.getElem?_cons_succ]
  rw [List.getElem?_map, List.getElem?_range (by omega)]
  simp only [Option.map_some', interpRow, Option.some.injEq]
  apply List.ext_getElem
  · simp [hpD, hqD]
  · intro c h1 h2
    have hc : c < D := by simpa using h1
    have hcp : c < p.length := by omega
    have hcq : c < q.length := by omega
    have hpc : rd orig m c = p[c] := by
      simp [rd, List.getD_eq_getElem?_getD, hp, List.getElem?_eq_getElem hcp]
    have hqc : rd orig (m + 1) c = q[c] := by
      simp [rd, List.getD_eq_getElem?_getD, hq, List.getElem?_eq_getElem hcq]
    simp only [List.getElem_map, List.getElem_range, List.getElem_zipWith, hpc, hqc]
    have hk0 : ((k : ℚ) + 1) ≠ 0 := by positivity
    field_simp
    ring

theorem inject_interpolants_witness :
    (2 ≤ 2 ∧ 1 ≤ 2 ∧ WellFormed 2 2 [[0, 0], [3, 6]] ∧ 0 < 2 - 1 ∧ 1 ≤ 1 ∧ 1 ≤ 2 ∧
        ([[0, 0], [3, 6]] : Path)[0]? = some [0, 0] ∧
        ([[0, 0], [3, 6]] : Path)[0 + 1]? = some [3, 6]) ∧
      (inject 2 2 [[0, 0], [3, 6]] 2)[0 * (2 + 1) + 1]?
        = some (List.zipWith (fun a b => a + (((1 : ℕ) : ℚ) / (((2 : ℕ) : ℚ) + 1)) * (b - a))
            [0, 0] [3, 6]) :=
  ⟨⟨by decide, by decide, by decide, by decide, by decide, by decide, rfl, rfl⟩,
    inject_interpolants 2 2 2 [[0, 0], [3, 6]] (by decide) (by decide) (by decide) 0 1
      (by decide) (by decide) (by decide) [0, 0] [3, 6] rfl rfl⟩

/-- C3: for a path of `N ≥ 1` points, `inject` with `numToInject = 0` returns a path equal to
the input: same length, same dimension, every coordinate equal. -/
theorem inject_zero_identity (N D : Nat) (orig : Path) (hN : 1 ≤ N)
    (hwf : WellFormed N D orig) : inject N D orig 0 = orig := by
  apply List.ext_getElem?
  intro m
  by_cases hm : m < N
  · have h := inject_getElem?_original N D orig 0 m hN hwf hm
    simpa using h
  · have h1 : (inject N D orig 0).length ≤ m := by
      rw [inject_length N D orig 0 hN]; omega
    have h2 : orig.length ≤ m := by rw [hwf.1]; omega
    rw [List.getElem?_eq_none h1, List.getElem?_eq_none h2]

theorem inject_zero_identity_witness :
    (1 ≤ 1 ∧ WellFormed 1 3 [[4, 5, 6]]) ∧ inject 1 3 [[4, 5, 6]] 0 = [[4, 5, 6]] :=
  ⟨⟨by decide, by decide⟩, inject_zero_identity 1 3 [[4, 5, 6]] (by decide) (by decide)⟩

/-! ## Claims on `smoother` -/

/-- C4: for a path of `N ≥ 1` points and any weights and tolerance, a relaxation pass leaves
every row outside `1 .. N-2` as it was, so after any number of passes, and in the result
whenever `smoother` returns, the first and the last point are those of the input path. -/
theorem smoother_endpoints_fixed (N D : Nat) (path : Path) (wd ws tol : ℚ) (_hN : 1 ≤ N)
    (hwf : WellFormed N D path) :
    (∀ (np : Path) (i : Nat), (i = 0 ∨ N - 1 ≤ i) →
        (smootherPass N D path wd ws np).1[i]? = np[i]?) ∧
    (∀ n : Nat, (smootherPasses N D path wd ws tol n).1[0]? = path[0]? ∧
        (smootherPasses N D path wd ws tol n).1[N - 1]? = path[N - 1]?) ∧
    (∀ (fuel : Nat) (r : Path), smoother fuel N D path wd ws tol = some r →
        r[0]? = path[0]? ∧ r[N - 1]? = path[N - 1]?) := by
  refine ⟨fun np i hi => (smootherPass_frame N D path wd ws np).2 i hi, ?_, ?_⟩
  · intro n
    have h := (smootherPasses_frame N D path wd ws tol hwf n).2
    exact ⟨h 0 (Or.inl rfl), h (N - 1) (Or.inr (le_refl _))⟩
  · intro fuel r hr
    obtain ⟨m, rfl, _⟩ := smoother_some fuel N D path wd ws tol r hr
    have h := (smootherPasses_frame N D path wd ws tol hwf m).2
    exact ⟨h 0 (Or.inl rfl), h (N - 1) (Or.inr (le_refl _))⟩

theorem smoother_endpoints_fixed_witness :
    (1 ≤ 3 ∧ WellFormed 3 1 [[0], [5], [0]]) ∧
      smoother 3 3 1 [[0], [5], [0]] (7 / 10) (3 / 10) (1 / 10000000)
        = some [[0], [29 / 10], [0]] ∧
      ([[0], [29 / 10], [0]] : Path)[0]? = ([[0], [5], [0]] : Path)[0]? ∧
      ([[0], [29 / 10], [0]] : Path)[3 - 1]? = ([[0], [5], [0]] : Path)[3 - 1]? := by
  have hs : smoother 3 3 1 [[0], [5], [0]] (7 / 10) (3 / 10) (1 / 10000000)
      = some [[0], [29 / 10], [0]] := by decide!
  exact ⟨⟨by decide, by decide⟩, hs,
    (smoother_endpoints_fixed 3 1 [[0], [5], [0]] (7 / 10) (3 / 10) (1 / 10000000)
      (by decide) (by decide)).2.2 3 _ hs⟩

/-! ## Claims on the plan of `injectionCounter2Steps` -/

/-- C5, as stated, fails in three ways.  For 5 waypoints, `totalTime = 1` and `timeStep = 1`
no combination of the grid fits, the plan is `(0, 0, 0)`, and the count stays `5`, above
`floor (1 / 1) = 1`.  For 38838 waypoints, `totalTime = 16777584` and `timeStep = 1` the
plan is `(5, 8, 7)`: its projected count `16777585` is rounded to the `float` `16777584`, which
passes the comparison, and the count of the plan exceeds the budget.  For 5 waypoints,
`totalTime = 14.5` and `timeStep` the `float` nearest `0.1` the quotient is rounded up to `145`,
the plan is `(5, 2, 1)` with 145 points, and `floor (totalTime / timeStep)` is `144`. -/
theorem planner_bound_counterexample :
    ((2 ≤ 5 ∧ (0 : ℚ) < 1 ∧ (0 : ℚ) < 1) ∧
      injectionCounter2StepsF32 5 1 1 = [0, 0, 0] ∧
      ¬ ((plannedCount 5 (injectionCounter2StepsF32 5 1 1) : ℤ) ≤ ⌊(1 : ℚ) / 1⌋)) ∧
    ((2 ≤ 38838 ∧ (0 : ℚ) < 16777584 ∧ (0 : ℚ) < 1) ∧
      injectionCounter2StepsF32 38838 16777584 1 = [5, 8, 7] ∧
      plannedCount 38838 (injectionCounter2StepsF32 38838 16777584 1) = 16777585 ∧
      ¬ ((plannedCount 38838 (injectionCounter2StepsF32 38838 16777584 1) : ℤ)
          ≤ ⌊(16777584 : ℚ) / 1⌋)) ∧
    ((2 ≤ 5 ∧ (0 : ℚ) < 29 / 2 ∧ (0 : ℚ) < fl32 (1 / 10)) ∧
      fl32 (1 / 10) = 13421773 / 134217728 ∧
      totalPointsF32 (29 / 2) (fl32 (1 / 10)) = F32.finite 145 ∧
      injectionCounter2StepsF32 5 (29 / 2) (fl32 (1 / 10)) = [5, 2, 1] ∧
      plannedCount 5 (injectionCounter2StepsF32 5 (29 / 2) (fl32 (1 / 10))) = 145 ∧
      ¬ ((plannedCount 5 (injectionCounter2StepsF32 5 (29 / 2) (fl32 (1 / 10))) : ℤ)
          ≤ ⌊(29 / 2 : ℚ) / fl32 (1 / 10)⌋)) := by
  have h1 := plan_nothing_fits
  have h2 := plan_38838
  have hf := fl32_tenth
  have h3 := plan_145
  have e1 : plannedCount 5 [0, 0, 0] = 5 := rfl
  have e2 : plannedCount 38838 [5, 8, 7] = 16777585 := rfl
  have e3 : plannedCount 5 [5, 2, 1] = 145 := rfl
  refine ⟨⟨⟨by decide, by norm_num, by norm_num⟩, h1, ?_⟩,
    ⟨⟨by decide, by norm_num, by norm_num⟩, h2, ?_, ?_⟩,
    ⟨⟨by decide, by norm_num, by rw [hf]; norm_num⟩, hf, totalPoints_145, h3, ?_, ?_⟩⟩
  · rw [h1, e1, Int.le_floor]
    norm_num
  · rw [h2, e2]
  · rw [h2, e2, Int.le_floor]
    norm_num
  · rw [h3, e3]
  · rw [h3, e3, hf, Int.le_floor]
    norm_num

/-- C5 (amended): for `pointCount ≥ 2` and positive `totalTime` and `timeStep`, the `float`
quotient `totalPoints` that the code computes is `+inf` or a finite number `B ≥ 0`; for
`pointCount ≤ 38837`, when the plan returned by `injectionCounter2Steps` is not `(0, 0, 0)`,
the point count obtained by applying the three injection stages in order passes the
comparison `count <= totalPoints`, so that it does not exceed `floor B` when the quotient is
finite; when the plan is `(0, 0, 0)`, that count is `pointCount` itself. -/
theorem planner_bound (pointCount : ℕ) (T dt : ℚ) (hn : 2 ≤ pointCount)
    (hT : 0 < T) (hdt : 0 < dt) :
    (totalPointsF32 T dt = F32.posInf ∨
      ∃ B : ℚ, 0 ≤ B ∧ totalPointsF32 T dt = F32.finite B) ∧
    (pointCount ≤ 38837 →
      injectionCounter2StepsF32 (pointCount : ℚ) T dt ≠ [0, 0, 0] →
      fle (F32.finite
          ((plannedCount pointCount (injectionCounter2StepsF32 (pointCount : ℚ) T dt) : ℕ) : ℚ))
        (totalPointsF32 T dt) = true ∧
      ∀ B : ℚ, totalPointsF32 T dt = F32.finite B →
        (plannedCount pointCount (injectionCounter2StepsF32 (pointCount : ℚ) T dt) : ℤ)
          ≤ ⌊B⌋) ∧
    (injectionCounter2StepsF32 (pointCount : ℚ) T dt = [0, 0, 0] →
      plannedCount pointCount (injectionCounter2StepsF32 (pointCount : ℚ) T dt)
        = pointCount) := by
  refine ⟨totalPointsF32_pos T dt hT hdt, ?_, ?_⟩
  · intro hmax hplan
    rcases plannerF32_cases pointCount T dt hmax with h0 | ⟨a, b, c, hr, _, hfeas⟩
    · exact absurd h0 hplan
    · rw [hr, plannedCount_cast pointCount a b c (by omega)]
      refine ⟨hfeas, ?_⟩
      intro B hB
      rw [hB] at hfeas
      have hle : pointsAfterStage3 (pointCount : ℚ) a b c ≤ B := by
        simpa [fle] using hfeas
      rw [Int.le_floor]
      rw [← plannedCount_cast pointCount a b c (by omega)] at hle
      exact_mod_cast hle
  · intro h0
    rw [h0]
    simp [plannedCount, countAfter]

theorem planner_bound_witness :
    (2 ≤ 5 ∧ (0 : ℚ) < 15 ∧ (0 : ℚ) < fl32 (1 / 10) ∧ 5 ≤ 38837 ∧
      injectionCounter2StepsF32 ((5 : ℕ) : ℚ) 15 (fl32 (1 / 10)) ≠ [0, 0, 0] ∧
      totalPointsF32 15 (fl32 (1 / 10)) = F32.finite 150) ∧
    (plannedCount 5 (injectionCounter2StepsF32 ((5 : ℕ) : ℚ) 15 (fl32 (1 / 10))) : ℤ)
      ≤ ⌊(150 : ℚ)⌋ := by
  have hpos : (0 : ℚ) < fl32 (1 / 10) := by rw [fl32_tenth]; norm_num
  have hplan : injectionCounter2StepsF32 ((5 : ℕ) : ℚ) 15 (fl32 (1 / 10)) ≠ [0, 0, 0] := by
    rw [Nat.cast_ofNat, plan_test]
    decide
  have hB := totalPoints_test
  exact ⟨⟨by decide, by norm_num, hpos, by decide, hplan, hB⟩,
    ((planner_bound 5 15 (fl32 (1 / 10)) (by decide) (by norm_num) hpos).2.1 (by decide)
      hplan).2 150 hB⟩

/-! ## Claims on `smoothPath` -/

/-- C6, as stated, fails for a path of `2^24` points: on 16777216 waypoints of dimension 1 with
every coordinate `0`, `totalTime = 1` and `timeStep = 1`, the plan is `(0, 0, 0)`, the three
stages return the 16777216 points as they are, and the result has 16777217 rows; but the
first coordinate of row 0 is `16777216`, not `finalPointCount + 1 = 16777217`: the `int`
value 16777217 is stored in a `float` cell, and it is not a `float`. -/
theorem smoothPath_layout_counterexample :
    (2 ≤ 16777216 ∧ 1 ≤ 1 ∧ WellFormed 16777216 1 (constPath 16777216 1)) ∧
    ∃ r : Path, smoothPath 2 16777216 1 (constPath 16777216 1) 1 1 = some r ∧
      smoothStages 2 16777216 1 (constPath 16777216 1) 1 1
        = some (16777216, constPath 16777216 1) ∧
      (constPath 16777216 1).length = 16777216 ∧
      r.length = 16777216 + 1 ∧
      (r[0]?.bind fun row => row[0]?) = some 16777216 ∧
      (16777216 : ℚ) ≠ ((16777216 : ℕ) : ℚ) + 1 := by
  have hplan : injectionCounter2StepsF32 (fl32 ((16777216 : ℕ) : ℚ)) 1 1 = [0, 0, 0] := by
    rw [fl32_natCast 16777216 (le_refl _), Nat.cast_ofNat]
    decide!
  have hs : fl32 (((16777216 : ℕ) : ℚ) + 1) = 16777216 := by
    have e : ((16777216 : ℕ) : ℚ) + 1 = 16777217 := by norm_num
    rw [e]
    decide!
  obtain ⟨r, hr, hst, hlen, hrl, _, _, h0⟩ :=
    smoothPath_const_layout 2 16777216 1 1 1 (by decide) (by decide) (by decide) hplan
  rw [hs] at h0
  exact ⟨⟨by decide, by decide, wellFormed_constPath 16777216 1⟩, r, hr, hst, hlen, hrl, h0,
    by norm_num⟩

/-- C6 (amended): whenever `smoothPath` returns for waypoints of `N ≥ 2` points of dimension
`D ≥ 1`, the result has `finalPointCount + 1` rows, where `finalPointCount` is the length of
the path after the third inject/smooth stage; the first coordinate of row 0 is
`finalPointCount + 1` rounded to `float`, which is `finalPointCount + 1` itself as long as
that number is at most `2^24 = 16777216`; and row `i + 1` is point `i` of that path, for every
`i < finalPointCount`. -/
theorem smoothPath_layout (fuel N D : Nat) (wp : Path) (T dt : ℚ) (r : Path)
    (hN : 2 ≤ N) (hD : 1 ≤ D) (hwf : WellFormed N D wp)
    (h : smoothPath fuel N D wp T dt = some r) :
    ∃ (finalPointCount : Nat) (p : Path),
      smoothStages fuel N D wp T dt = some (finalPointCount, p) ∧
      p.length = finalPointCount ∧
      r.length = finalPointCount + 1 ∧
      (r[0]?.bind fun row => row[0]?) = some (fl32 ((finalPointCount : ℚ) + 1)) ∧
      (finalPointCount + 1 ≤ 16777216 →
        (r[0]?.bind fun row => row[0]?) = some ((finalPointCount : ℚ) + 1)) ∧
      ∀ i, i < finalPointCount → r[i + 1]? = p[i]? := by
  unfold smoothPath at h
  obtain ⟨⟨cnt, p⟩, hst, hr⟩ := Option.map_eq_some'.mp h
  have hspec := smoothStages_spec fuel N D wp T dt cnt p (by omega) hwf hst
  have hpk := packageFinal_eq cnt D p hspec.2.2.1
  simp only at hr
  rw [hpk] at hr
  subst hr
  have h0 : (((List.replicate D (0 : ℚ)).set 0 (fl32 ((cnt : ℚ) + 1)) :: p)[0]?.bind
      fun row => row[0]?) = some (fl32 ((cnt : ℚ) + 1)) := by
    obtain ⟨d, rfl⟩ : ∃ d, D = d + 1 := ⟨D - 1, by omega⟩
    simp [List.replicate_succ]
  refine ⟨cnt, p, hst, hspec.2.2.1.1, by simp [hspec.2.2.1.1], h0, ?_, fun i _ => by simp⟩
  intro hle
  rw [h0]
  have e : (cnt : ℚ) + 1 = ((cnt + 1 : ℕ) : ℚ) := by push_cast; rfl
  rw [e, fl32_natCast (cnt + 1) hle]

theorem smoothPath_layout_witness :
    (2 ≤ 2 ∧ 1 ≤ 1 ∧ WellFormed 2 1 [[0], [1]] ∧
      smoothPath 2 2 1 [[0], [1]] 1 1 = some [[3], [0], [1]]) ∧
    ∃ (finalPointCount : Nat) (p : Path),
      smoothStages 2 2 1 [[0], [1]] 1 1 = some (finalPointCount, p) ∧
      p.length = finalPointCount ∧
      ([[3], [0], [1]] : Path).length = finalPointCount + 1 ∧
      (([[3], [0], [1]] : Path)[0]?.bind fun row => row[0]?)
        = some (fl32 ((finalPointCount : ℚ) + 1)) ∧
      (finalPointCount + 1 ≤ 16777216 →
        (([[3], [0], [1]] : Path)[0]?.bind fun row => row[0]?)
          = some ((finalPointCount : ℚ) + 1)) ∧
      ∀ i, i < finalPointCount → ([[3], [0], [1]] : Path)[i + 1]? = p[i]? := by
  have hs : smoothPath 2 2 1 [[0], [1]] 1 1 = some [[3], [0], [1]] := by decide!
  exact ⟨⟨by decide, by decide, by decide, hs⟩,
    smoothPath_layout 2 2 1 [[0], [1]] 1 1 [[3], [0], [1]] (by decide) (by decide)
      (by decide) hs⟩

/-- C7, as stated, fails for a path of `2^24` points: on 16777216 waypoints of dimension 2 with
every coordinate `0`, `totalTime = 2` and `timeStep = 1`, `smoothPath` returns 16777217 rows,
row 1 is the first waypoint and the last row is the last waypoint, but the first coordinate
of row 0 is `16777216`, not `finalPointCount + 1 = 16777217`. -/
theorem smoothPath_endpoints_counterexample :
    (2 ≤ 16777216 ∧ WellFormed 16777216 2 (constPath 16777216 2) ∧ (0 : ℚ) < 2 ∧ (0 : ℚ) < 1) ∧
    ∃ r : Path, smoothPath 2 16777216 2 (constPath 16777216 2) 2 1 = some r ∧
      r.length = 16777216 + 1 ∧
      r[1]? = (constPath 16777216 2)[0]? ∧
      r[16777216]? = (constPath 16777216 2)[16777216 - 1]? ∧
      (r[0]?.bind fun row => row[0]?) = some 16777216 ∧
      (16777216 : ℚ) ≠ ((16777216 : ℕ) : ℚ) + 1 := by
  have hplan : injectionCounter2StepsF32 (fl32 ((16777216 : ℕ) : ℚ)) 2 1 = [0, 0, 0] := by
    rw [fl32_natCast 16777216 (le_refl _), Nat.cast_ofNat]
    decide!
  have hs : fl32 (((16777216 : ℕ) : ℚ) + 1) = 16777216 := by
    have e : ((16777216 : ℕ) : ℚ) + 1 = 16777217 := by norm_num
    rw [e]
    decide!
  obtain ⟨r, hr, _, _, hrl, h1, hl, h0⟩ :=
    smoothPath_const_layout 2 16777216 2 2 1 (by decide) (by decide) (by decide) hplan
  rw [hs] at h0
  exact ⟨⟨by decide, wellFormed_constPath 16777216 2, by norm_num, by norm_num⟩, r, hr, hrl,
    h1, hl, h0, by norm_num⟩

/-- C7 (amended): for waypoints of `N ≥ 2` points (of dimension `D ≥ 1`) and positive
`totalTime` and `timeStep` on which `smoothPath` returns, row 1 of the result is the first
waypoint, the last row is the last waypoint, the number of points `finalPointCount` is the
count of the plan of the single-precision planner, and the first coordinate of row 0 is
`finalPointCount + 1`, the number of rows, rounded to `float`; it is `finalPointCount + 1`
itself as long as that number is at most `2^24 = 16777216`. -/
theorem smoothPath_endpoints (fuel N D : Nat) (wp : Path) (T dt : ℚ) (r : Path)
    (hN : 2 ≤ N) (hD : 1 ≤ D) (hwf : WellFormed N D wp) (_hT : 0 < T) (_hdt : 0 < dt)
    (h : smoothPath fuel N D wp T dt = some r) :
    ∃ finalPointCount : Nat,
      finalPointCount = plannedCount N (injectionCounter2StepsF32 (fl32 (N : ℚ)) T dt) ∧
      r.length = finalPointCount + 1 ∧
      r[1]? = wp[0]? ∧
      r[finalPointCount]? = wp[N - 1]? ∧
      (r[0]?.bind fun row => row[0]?) = some (fl32 ((finalPointCount : ℚ) + 1)) ∧
      (finalPointCount + 1 ≤ 16777216 →
        (r[0]?.bind fun row => row[0]?) = some ((finalPointCount : ℚ) + 1)) := by
  unfold smoothPath at h
  obtain ⟨⟨cnt, p⟩, hst, hr⟩ := Option.map_eq_some'.mp h
  have hspec := smoothStages_spec fuel N D wp T dt cnt p (by omega) hwf hst
  have hpk := packageFinal_eq cnt D p hspec.2.2.1
  simp only at hr
  rw [hpk] at hr
  subst hr
  obtain ⟨hcnt, hpos, hwfp, hfirst, hlast⟩ := hspec
  have h0 : (((List.replicate D (0 : ℚ)).set 0 (fl32 ((cnt : ℚ) + 1)) :: p)[0]?.bind
      fun row => row[0]?) = some (fl32 ((cnt : ℚ) + 1)) := by
    obtain ⟨d, rfl⟩ : ∃ d, D = d + 1 := ⟨D - 1, by omega⟩
    simp [List.replicate_succ]
  refine ⟨cnt, hcnt, by simp [hwfp.1], by simpa using hfirst, ?_, h0, ?_⟩
  · obtain ⟨c, rfl⟩ : ∃ c, cnt = c + 1 := ⟨cnt - 1, by omega⟩
    simpa using hlast
  · intro hle
    rw [h0]
    have e : (cnt : ℚ) + 1 = ((cnt + 1 : ℕ) : ℚ) := by push_cast; rfl
    rw [e, fl32_natCast (cnt + 1) hle]

theorem smoothPath_endpoints_witness :
    (2 ≤ 5 ∧ 1 ≤ 2 ∧ WellFormed 5 2 testPoints ∧ (0 : ℚ) < 15 ∧ (0 : ℚ) < fl32 (1 / 10)) ∧
    ∃ r : Path, smoothPath 2 5 2 testPoints 15 (fl32 (1 / 10)) = some r ∧
      r.length = 145 + 1 ∧
      r[1]? = some [1, 2] ∧
      r[145]? = some [10, 11] ∧
      (r[0]?.bind fun row => row[0]?) = some ((145 : ℚ) + 1) := by
  have hplan : injectionCounter2StepsF32 (fl32 ((5 : ℕ) : ℚ)) 15 (fl32 (1 / 10))
      = [5, 2, 1] := by
    rw [fl32_natCast 5 (by decide), Nat.cast_ofNat]
    exact plan_test
  have hsome : (smoothPathRows 2 5 2 testPoints 15 (fl32 (1 / 10))).isSome = true := by
    unfold smoothPathRows
    simp only [hplan]
    decide!
  rw [← smoothPath_eq_rows 2 5 2 testPoints 15 (fl32 (1 / 10)) (by decide) (by decide)]
    at hsome
  have key : ∀ o : Option Path, o.isSome = true → ∃ r, o = some r :=
    fun o ho => Option.isSome_iff_exists.mp ho
  obtain ⟨r, hr⟩ := key _ hsome
  have hpos : (0 : ℚ) < fl32 (1 / 10) := by rw [fl32_tenth]; norm_num
  obtain ⟨cnt, hcnt, hlen, h1, hl, _, h0⟩ :=
    smoothPath_endpoints 2 5 2 testPoints 15 (fl32 (1 / 10)) r (by decide) (by decide)
      (by decide) (by norm_num) hpos hr
  rw [hplan] at hcnt
  have hc : cnt = 145 := by rw [hcnt]; rfl
  subst hc
  exact ⟨⟨by decide, by decide, by decide, by norm_num, hpos⟩, r, hr, hlen, h1, hl, by
    simpa using h0 (by decide)⟩

/-! ## The exit test of `smoother` -/

/-- C8 fails on the code: on the path `[(0), (1), (0)]` with weights `0.7`, `0.3` and tolerance
`1e-7`, `smoother` returns after its first pass, which left `change = 0` because `abs`
truncates the difference `0.6` to the integer `0`, while the true total change of that pass,
`3/5`, is not below the tolerance. -/
theorem smoother_returns_above_tolerance :
    smoother 2 3 1 [[0], [1], [0]] (7 / 10) (3 / 10) (1 / 10000000)
      = some [[0], [2 / 5], [0]] ∧
    smootherPasses 3 1 [[0], [1], [0]] (7 / 10) (3 / 10) (1 / 10000000) 0
      = ([[0], [1], [0]], 1 / 10000000) ∧
    smootherPasses 3 1 [[0], [1], [0]] (7 / 10) (3 / 10) (1 / 10000000) 1
      = ([[0], [2 / 5], [0]], 0) ∧
    trueChange 3 1 [[0], [1], [0]] [[0], [2 / 5], [0]] = 3 / 5 ∧
    ¬ (trueChange 3 1 [[0], [1], [0]] [[0], [2 / 5], [0]] < 1 / 10000000) := by
  refine ⟨by decide!, by decide!, by decide!, ?_, ?_⟩
  · norm_num [trueChange, forLoop, rd, abs_of_nonneg]
  · norm_num [trueChange, forLoop, rd, abs_of_nonneg]

/-! ## Claims on the search of `injectionCounter2Steps` -/


/-- C10, as stated, fails where rounding lets a triple pass the comparison.  For 38838
waypoints, `totalTime = 16777584` and `timeStep = 1` the triple returned is `(5, 8, 7)`, whose
projected count `16777585` exceeds the budget: in single precision that count is `16777584`.
For 5 waypoints, `totalTime = 14.5` and `timeStep` the `float` nearest `0.1` the quotient is
rounded up to `145` and the triple returned is `(5, 2, 1)`, whose projected count `145`
exceeds `totalTime / timeStep`.  In both cases a feasible triple exists, so the triple
returned is not the last feasible one. -/
theorem planner_high_budget_counterexample :
    (((100 : ℚ) ≤ 16777584 / 1 ∧
        ∃ i j k, (1 ≤ i ∧ i ≤ 5) ∧ (1 ≤ j ∧ j ≤ 8) ∧ (1 ≤ k ∧ k ≤ 7) ∧
          pointsAfterStage3 38838 i j k ≤ 16777584 / 1) ∧
      injectionCounter2StepsF32 38838 16777584 1 = [5, 8, 7] ∧
      ¬ pointsAfterStage3 38838 5 8 7 ≤ 16777584 / 1) ∧
    (((100 : ℚ) ≤ (29 / 2) / fl32 (1 / 10) ∧
        ∃ i j k, (1 ≤ i ∧ i ≤ 5) ∧ (1 ≤ j ∧ j ≤ 8) ∧ (1 ≤ k ∧ k ≤ 7) ∧
          pointsAfterStage3 5 i j k ≤ (29 / 2) / fl32 (1 / 10)) ∧
      injectionCounter2StepsF32 5 (29 / 2) (fl32 (1 / 10)) = [5, 2, 1] ∧
      ¬ pointsAfterStage3 5 5 2 1 ≤ (29 / 2) / fl32 (1 / 10)) := by
  have hf := fl32_tenth
  refine ⟨⟨⟨by norm_num, 1, 1, 1, by decide, by decide, by decide, ?_⟩, plan_38838, ?_⟩,
    ⟨⟨?_, 1, 1, 1, by decide, by decide, by decide, ?_⟩, plan_145, ?_⟩⟩
  · norm_num [pointsAfterStage3, pointsAfterStage2]
  · norm_num [pointsAfterStage3, pointsAfterStage2]
  · rw [hf]; norm_num
  · rw [hf]; norm_num [pointsAfterStage3, pointsAfterStage2]
  · rw [hf]; norm_num [pointsAfterStage3, pointsAfterStage2]

/-- C10 (amended): for a point count of at most 38837, in the high-budget branch (the `float`
quotient `totalPoints` that the code computes is at least 100), when some triple of the grid
`[1,5] × [1,8] × [1,7]` has a projected count `pointsAfterStage3` that passes the comparison
`pointsAfterStage3 <= totalPoints`, the triple returned is the last such triple in the order
of the loops: it passes the comparison, and every triple of the grid that passes it is
lexicographically at most the triple returned (`i` most significant). -/
theorem planner_high_budget (pointCount : ℕ) (T dt : ℚ) (hmax : pointCount ≤ 38837)
    (hhigh : fle (F32.finite 100) (totalPointsF32 T dt) = true)
    (hex : ∃ i j k, (1 ≤ i ∧ i ≤ 5) ∧ (1 ≤ j ∧ j ≤ 8) ∧ (1 ≤ k ∧ k ≤ 7) ∧
      fle (F32.finite (pointsAfterStage3 (pointCount : ℚ) i j k)) (totalPointsF32 T dt)
        = true) :
    ∃ a b c, injectionCounter2StepsF32 (pointCount : ℚ) T dt = [a, b, c] ∧
      (1 ≤ a ∧ a ≤ 5) ∧ (1 ≤ b ∧ b ≤ 8) ∧ (1 ≤ c ∧ c ≤ 7) ∧
      fle (F32.finite (pointsAfterStage3 (pointCount : ℚ) a b c)) (totalPointsF32 T dt)
        = true ∧
      ∀ i j k, (1 ≤ i ∧ i ≤ 5) → (1 ≤ j ∧ j ≤ 8) → (1 ≤ k ∧ k ≤ 7) →
        fle (F32.finite (pointsAfterStage3 (pointCount : ℚ) i j k)) (totalPointsF32 T dt)
          = true →
        i < a ∨ (i = a ∧ (j < b ∨ (j = b ∧ k ≤ c))) := by
  have hn : totalPointsF32 T dt ≠ F32.nan := by
    intro h
    rw [h, fle_nan] at hhigh
    exact absurd hhigh (by decide)
  have hB : ¬ budgetOf (totalPointsF32 T dt) / 1 < 100 := by
    rw [fle_count 100 _ (by norm_num) (by norm_num) hn, decide_eq_true_eq] at hhigh
    rw [div_one]
    exact not_lt.mpr hhigh
  obtain ⟨i0, j0, k0, hi0, hj0, hk0, hfeas⟩ := hex
  obtain ⟨a, b, c, hr, ha, hb, hc, hfit, hlast⟩ :=
    planner_high_last (pointCount : ℚ) (budgetOf (totalPointsF32 T dt)) 1 hB
      ⟨i0, j0, k0, hi0, hj0, hk0, by
        rw [div_one]
        exact (fits_high_iff pointCount _ hmax hn i0 j0 k0 hi0 hj0 hk0).mp hfeas⟩
  rw [div_one] at hfit
  refine ⟨a, b, c, by rw [plannerF32_eq_exact pointCount T dt hmax hn]; exact hr, ha, hb, hc,
    (fits_high_iff pointCount _ hmax hn a b c ha hb hc).mpr hfit, ?_⟩
  intro i j k hi hj hk hijk
  refine hlast i j k hi hj hk ?_
  rw [div_one]
  exact (fits_high_iff pointCount _ hmax hn i j k hi hj hk).mp hijk

theorem planner_high_budget_witness :
    (5 ≤ 38837 ∧
      fle (F32.finite 100) (totalPointsF32 15 (fl32 (1 / 10))) = true ∧
      ∃ i j k, (1 ≤ i ∧ i ≤ 5) ∧ (1 ≤ j ∧ j ≤ 8) ∧ (1 ≤ k ∧ k ≤ 7) ∧
        fle (F32.finite (pointsAfterStage3 ((5 : ℕ) : ℚ) i j k))
          (totalPointsF32 15 (fl32 (1 / 10))) = true) ∧
    ∃ a b c, injectionCounter2StepsF32 ((5 : ℕ) : ℚ) 15 (fl32 (1 / 10)) = [a, b, c] ∧
      (1 ≤ a ∧ a ≤ 5) ∧ (1 ≤ b ∧ b ≤ 8) ∧ (1 ≤ c ∧ c ≤ 7) ∧
      fle (F32.finite (pointsAfterStage3 ((5 : ℕ) : ℚ) a b c))
        (totalPointsF32 15 (fl32 (1 / 10))) = true ∧
      ∀ i j k, (1 ≤ i ∧ i ≤ 5) → (1 ≤ j ∧ j ≤ 8) → (1 ≤ k ∧ k ≤ 7) →
        fle (F32.finite (pointsAfterStage3 ((5 : ℕ) : ℚ) i j k))
          (totalPointsF32 15 (fl32 (1 / 10))) = true →
        i < a ∨ (i = a ∧ (j < b ∨ (j = b ∧ k ≤ c))) := by
  have hhigh : fle (F32.finite 100) (totalPointsF32 15 (fl32 (1 / 10))) = true := by
    rw [totalPoints_test]
    decide!
  have hex : ∃ i j k, (1 ≤ i ∧ i ≤ 5) ∧ (1 ≤ j ∧ j ≤ 8) ∧ (1 ≤ k ∧ k ≤ 7) ∧
      fle (F32.finite (pointsAfterStage3 ((5 : ℕ) : ℚ) i j k))
        (totalPointsF32 15 (fl32 (1 / 10))) = true :=
    ⟨1, 1, 1, by decide, by decide, by decide, by
      rw [Nat.cast_ofNat, totalPoints_test]
      decide!⟩
  exact ⟨⟨by decide, hhigh, hex⟩,
    planner_high_budget 5 15 (fl32 (1 / 10)) (by decide) hhigh hex⟩

/-! ## The default plan -/

/-- C11, as stated, fails where rounding lets a combination pass the comparison.  For
`2^21 + 1 = 2097153` waypoints, `totalTime = 16777216` and `timeStep = 1` every projected
count of the grid is at least `16777217`, above the budget, yet the plan is `(1, 1, 1)`: in
single precision the projected count of `(1, 1, 1)` is `16777216`.  For 14 waypoints,
`totalTime = 10.5` and `timeStep` the `float` nearest `0.1`, every projected count is at least
`105`, above `totalTime / timeStep`, yet the plan is `(1, 1, 1)`: the quotient is rounded up
to `105`. -/
theorem planner_zero_iff_counterexample :
    ((2 ≤ 2097153 ∧ (0 : ℚ) < 16777216 ∧ (0 : ℚ) < 1 ∧ ¬ (16777216 : ℚ) / 1 < 100) ∧
      injectionCounter2StepsF32 2097153 16777216 1 = [1, 1, 1] ∧
      ¬ ∃ i j k, (1 ≤ i ∧ i ≤ 5) ∧ (1 ≤ j ∧ j ≤ 8) ∧ (1 ≤ k ∧ k ≤ 7) ∧
        pointsAfterStage3 2097153 i j k ≤ 16777216 / 1) ∧
    ((2 ≤ 14 ∧ (0 : ℚ) < 21 / 2 ∧ (0 : ℚ) < fl32 (1 / 10) ∧
        ¬ (21 / 2 : ℚ) / fl32 (1 / 10) < 100) ∧
      totalPointsF32 (21 / 2) (fl32 (1 / 10)) = F32.finite 105 ∧
      injectionCounter2StepsF32 14 (21 / 2) (fl32 (1 / 10)) = [1, 1, 1] ∧
      ¬ ∃ i j k, (1 ≤ i ∧ i ≤ 5) ∧ (1 ≤ j ∧ j ≤ 8) ∧ (1 ≤ k ∧ k ≤ 7) ∧
        pointsAfterStage3 14 i j k ≤ (21 / 2) / fl32 (1 / 10)) := by
  have hf := fl32_tenth
  have hh1 : ¬ (16777216 : ℚ) / 1 < 100 := by norm_num
  have hh2 : ¬ (21 / 2 : ℚ) / fl32 (1 / 10) < 100 := by rw [hf]; norm_num
  have hz1 : injectionCounter2Steps 2097153 16777216 1 = [0, 0, 0] := by decide!
  have hz2 : injectionCounter2Steps 14 (21 / 2) (fl32 (1 / 10)) = [0, 0, 0] := by
    rw [hf]
    decide!
  exact ⟨⟨⟨by decide, by norm_num, by norm_num, hh1⟩, plan_2097153,
      (planner_high_zero_iff 2097153 16777216 1 hh1).mp hz1⟩,
    ⟨⟨by decide, by norm_num, by rw [hf]; norm_num, hh2⟩, totalPoints_105, plan_105,
      (planner_high_zero_iff 14 (21 / 2) (fl32 (1 / 10)) hh2).mp hz2⟩⟩

/-- C11 (amended): for `pointCount ≥ 2` and positive `totalTime` and `timeStep`, the `float`
quotient `totalPoints` that the code computes is `+inf` or a finite number `B ≥ 0`; for
`pointCount ≤ 2097152 = 2^21`, `injectionCounter2Steps` returns `(0, 0, 0)` if and only if no
combination of the grid of the branch taken (pairs `[4,6] × [1,8]` when `totalPoints < 100`,
triples `[1,5] × [1,8] × [1,7]` otherwise) has a projected count that passes the comparison
`count <= totalPoints`; with the plan `(0, 0, 0)` each of the three stages injects no point
and returns its input path. -/
theorem planner_zero_iff (pointCount : ℕ) (T dt : ℚ) (hn : 2 ≤ pointCount)
    (hT : 0 < T) (hdt : 0 < dt) :
    (totalPointsF32 T dt = F32.posInf ∨
      ∃ B : ℚ, 0 ≤ B ∧ totalPointsF32 T dt = F32.finite B) ∧
    (pointCount ≤ 2097152 → flt (totalPointsF32 T dt) (F32.finite 100) = true →
      (injectionCounter2StepsF32 (pointCount : ℚ) T dt = [0, 0, 0] ↔
        ¬ ∃ i j, (4 ≤ i ∧ i ≤ 6) ∧ (1 ≤ j ∧ j ≤ 8) ∧
          fle (F32.finite (pointsAfterStage2 (pointCount : ℚ) i j)) (totalPointsF32 T dt)
            = true)) ∧
    (pointCount ≤ 2097152 → flt (totalPointsF32 T dt) (F32.finite 100) = false →
      (injectionCounter2StepsF32 (pointCount : ℚ) T dt = [0, 0, 0] ↔
        ¬ ∃ i j k, (1 ≤ i ∧ i ≤ 5) ∧ (1 ≤ j ∧ j ≤ 8) ∧ (1 ≤ k ∧ k ≤ 7) ∧
          fle (F32.finite (pointsAfterStage3 (pointCount : ℚ) i j k)) (totalPointsF32 T dt)
            = true)) ∧
    (injectionCounter2StepsF32 (pointCount : ℚ) T dt = [0, 0, 0] →
      ∀ (stage N D : Nat) (p : Path), 1 ≤ N → WellFormed N D p →
        countAfter N ((injectionCounter2StepsF32 (pointCount : ℚ) T dt).getD stage 0) = N ∧
        inject N D p ((injectionCounter2StepsF32 (pointCount : ℚ) T dt).getD stage 0)
          = p) := by
  have hpos := totalPointsF32_pos T dt hT hdt
  have hnan : totalPointsF32 T dt ≠ F32.nan := by
    rcases hpos with h | ⟨B, _, h⟩ <;> rw [h] <;> exact fun h => F32.noConfusion h
  have hflt := flt_hundred (totalPointsF32 T dt) hnan
  have hq : (1 : ℚ) ≤ (pointCount : ℚ) := by exact_mod_cast (by omega : 1 ≤ pointCount)
  refine ⟨hpos, ?_, ?_, ?_⟩
  · intro hmax hlow
    by_cases hs : pointCount ≤ 38837
    · rw [hflt, decide_eq_true_eq] at hlow
      rw [plannerF32_eq_exact pointCount T dt hs hnan,
        planner_low_zero_iff (pointCount : ℚ) _ 1 hq (by rw [div_one]; exact hlow), div_one]
      apply not_congr
      constructor
      · rintro ⟨i, j, hi, hj, h⟩
        exact ⟨i, j, hi, hj, (fits_low_iff pointCount _ hs hnan i j hi hj).mpr h⟩
      · rintro ⟨i, j, hi, hj, h⟩
        exact ⟨i, j, hi, hj, (fits_low_iff pointCount _ hs hnan i j hi hj).mp h⟩
    · obtain ⟨hz, hno⟩ := plannerF32_low_large pointCount T dt (by omega) hmax hlow
      exact ⟨fun _ => hno, fun _ => hz⟩
  · intro hmax hhigh
    exact plannerF32_high_zero_iff pointCount T dt (by omega) hmax
      (by rw [hhigh]; exact Bool.false_ne_true)
  · intro h stage N D p hN hwf
    have h0 : (injectionCounter2StepsF32 (pointCount : ℚ) T dt).getD stage 0 = 0 := by
      rw [h]
      match stage with
      | 0 => rfl
      | 1 => rfl
      | 2 => rfl
      | _ + 3 => rfl
    rw [h0]
    exact ⟨by simp [countAfter], inject_zero_eq N D p hN hwf⟩

theorem planner_zero_iff_witness :
    (2 ≤ 5 ∧ (0 : ℚ) < 1 ∧ (0 : ℚ) < 1 ∧ 5 ≤ 2097152 ∧
      flt (totalPointsF32 1 1) (F32.finite 100) = true) ∧
    (injectionCounter2StepsF32 ((5 : ℕ) : ℚ) 1 1 = [0, 0, 0] ↔
      ¬ ∃ i j, (4 ≤ i ∧ i ≤ 6) ∧ (1 ≤ j ∧ j ≤ 8) ∧
        fle (F32.finite (pointsAfterStage2 ((5 : ℕ) : ℚ) i j)) (totalPointsF32 1 1) = true) ∧
    injectionCounter2StepsF32 ((5 : ℕ) : ℚ) 1 1 = [0, 0, 0] := by
  have hlow : flt (totalPointsF32 1 1) (F32.finite 100) = true := by decide!
  have hplan : injectionCounter2StepsF32 ((5 : ℕ) : ℚ) 1 1 = [0, 0, 0] := by
    rw [Nat.cast_ofNat]
    exact plan_nothing_fits
  exact ⟨⟨by decide, by norm_num, by norm_num, by decide, hlow⟩,
    (planner_zero_iff 5 1 1 (by decide) (by norm_num) (by norm_num)).2.1 (by decide) hlow,
    hplan⟩

/-! ## The shape of the smoothed path -/

/-- C12: for a path of `N` points of dimension `D` and any weights and tolerance, the path held
by `smoother` after any number of passes, and its result whenever it returns, has exactly `N`
points, each of dimension `D`. -/
theorem smoother_keeps_shape (N D : Nat) (path : Path) (wd ws tol : ℚ)
    (hwf : WellFormed N D path) :
    (∀ n : Nat, WellFormed N D (smootherPasses N D path wd ws tol n).1) ∧
    (∀ (fuel : Nat) (r : Path), smoother fuel N D path wd ws tol = some r →
      WellFormed N D r) := by
  refine ⟨fun n => (smootherPasses_frame N D path wd ws tol hwf n).1, ?_⟩
  intro fuel r hr
  obtain ⟨m, rfl, _⟩ := smoother_some fuel N D path wd ws tol r hr
  exact (smootherPasses_frame N D path wd ws tol hwf m).1

theorem smoother_keeps_shape_witness :
    WellFormed 3 1 [[0], [5], [0]] ∧
      smoother 3 3 1 [[0], [5], [0]] (7 / 10) (3 / 10) (1 / 10000000)
        = some [[0], [29 / 10], [0]] ∧
      WellFormed 3 1 [[0], [29 / 10], [0]] := by
  have hs : smoother 3 3 1 [[0], [5], [0]] (7 / 10) (3 / 10) (1 / 10000000)
      = some [[0], [29 / 10], [0]] := by decide!
  exact ⟨by decide, hs,
    (smoother_keeps_shape 3 1 [[0], [5], [0]] (7 / 10) (3 / 10) (1 / 10000000)
      (by decide)).2 3 _ hs⟩

/-! ## The high-budget scan is not a maximisation -/

/-- C14: one pass of `smoother` over the path `S` with reference path `R` leaves row 0 as it
is and gives every interior coordinate, `1 ≤ i ≤ N - 2` and `j < D`, the value
`S[i][j] + dataWeight * (R[i][j] - S[i][j])
  + smoothWeight * (S'[i-1][j] + S[i+1][j] - 2 * S[i][j])`,
where `S'` is the path after the pass: the left neighbour is the value already updated in
this pass, the right neighbour the value from before the pass. -/
theorem smootherPass_gauss_seidel (N D : Nat) (R : Path) (wd ws : ℚ) (S : Path)
    (hS : WellFormed N D S) :
    (∀ j, rd (smootherPass N D R wd ws S).1 0 j = rd S 0 j) ∧
    ∀ i j, 1 ≤ i → i ≤ N - 2 → j < D →
      rd (smootherPass N D R wd ws S).1 i j
        = rd S i j + wd * (rd R i j - rd S i j)
          + ws * (rd (smootherPass N D R wd ws S).1 (i - 1) j + rd S (i + 1) j
            - 2 * rd S i j) := by
  obtain ⟨_, hB, hC, _⟩ := smootherPass_inv N D R wd ws S hS
  refine ⟨fun j => hB 0 j (Or.inl rfl), ?_⟩
  intro i j hi1 hi hj
  have him : i < max 1 (N - 1) := lt_of_lt_of_le (by omega) (le_max_right 1 (N - 1))
  rw [hC i j hi1 him hj]
  unfold relaxValue
  ring

theorem smootherPass_gauss_seidel_witness :
    WellFormed 4 1 [[0], [10], [20], [0]] ∧
    rd (smootherPass 4 1 [[0], [10], [20], [0]] (7 / 10) (3 / 10) [[0], [10], [20], [0]]).1 1 0
      = 10 ∧
    rd (smootherPass 4 1 [[0], [10], [20], [0]] (7 / 10) (3 / 10) [[0], [10], [20], [0]]).1 2 0
      = rd [[0], [10], [20], [0]] 2 0
        + 7 / 10 * (rd [[0], [10], [20], [0]] 2 0 - rd [[0], [10], [20], [0]] 2 0)
        + 3 / 10 * (rd (smootherPass 4 1 [[0], [10], [20], [0]] (7 / 10) (3 / 10)
              [[0], [10], [20], [0]]).1 (2 - 1) 0
            + rd [[0], [10], [20], [0]] (2 + 1) 0 - 2 * rd [[0], [10], [20], [0]] 2 0) :=
  ⟨by decide, by decide!,
    (smootherPass_gauss_seidel 4 1 [[0], [10], [20], [0]] (7 / 10) (3 / 10)
      [[0], [10], [20], [0]] (by decide)).2 2 0 (by decide) (by decide) (by decide)⟩

/-! ## Termination on the test path -/

/-- C15: for `dataWeight = 0.7`, `smoothWeight = 0.3`, `tolerance = 1e-7` and the 5-point path of
the driver, the loop of `smoother` terminates: `change` is at least the tolerance after the
first pass and below it after the second, so with fuel for three evaluations of the loop
condition or more `smoother` returns the path held after the second pass; and whatever the
fuel, a call that returns gives that same path. -/
theorem smoother_terminates_on_test :
    (1 / 10000000 ≤ (smootherPasses 5 2 testPoints (7 / 10) (3 / 10) (1 / 10000000) 1).2 ∧
      (smootherPasses 5 2 testPoints (7 / 10) (3 / 10) (1 / 10000000) 2).2 < 1 / 10000000) ∧
    (∀ fuel, 3 ≤ fuel →
      smoother fuel 5 2 testPoints (7 / 10) (3 / 10) (1 / 10000000)
        = some [[1, 2], [2237 / 1000, 1199 / 200], [21161 / 5000, 7267 / 1000],
            [162039 / 25000, 45333 / 5000], [10, 11]]) ∧
    (∀ fuel r, smoother fuel 5 2 testPoints (7 / 10) (3 / 10) (1 / 10000000) = some r →
      r = [[1, 2], [2237 / 1000, 1199 / 200], [21161 / 5000, 7267 / 1000],
            [162039 / 25000, 45333 / 5000], [10, 11]]) := by
  have h1 : 1 / 10000000 ≤
      (smootherPasses 5 2 testPoints (7 / 10) (3 / 10) (1 / 10000000) 1).2 := by decide!
  have h2 : (smootherPasses 5 2 testPoints (7 / 10) (3 / 10) (1 / 10000000) 2).2
      < 1 / 10000000 := by decide!
  have hr : (smootherPasses 5 2 testPoints (7 / 10) (3 / 10) (1 / 10000000) 2).1
      = [[1, 2], [2237 / 1000, 1199 / 200], [21161 / 5000, 7267 / 1000],
          [162039 / 25000, 45333 / 5000], [10, 11]] := by decide!
  have hrun : ∀ fuel, 3 ≤ fuel →
      smoother fuel 5 2 testPoints (7 / 10) (3 / 10) (1 / 10000000)
        = some [[1, 2], [2237 / 1000, 1199 / 200], [21161 / 5000, 7267 / 1000],
            [162039 / 25000, 45333 / 5000], [10, 11]] := by
    intro fuel hfuel
    have h := smootherLoop_exit 5 2 testPoints (7 / 10) (3 / 10) (1 / 10000000) 2 0
      (by
        intro t _ ht
        match t with
        | 0 => exact le_refl _
        | 1 => exact h1
        | t + 2 => omega)
      h2 fuel hfuel
    rw [← hr]
    exact h
  refine ⟨⟨h1, h2⟩, hrun, ?_⟩
  intro fuel r hfr
  exact smootherLoop_fuel_irrel 5 2 testPoints (7 / 10) (3 / 10) (1 / 10000000) fuel 3 _ r _
    hfr (hrun 3 (le_refl _))

/-! ## Non-termination for out-of-range weights -/

/-- C16: there are a path, weights and a positive tolerance for which `smoother` never
terminates: on the path `[(0), (10), (0)]` with `dataWeight = 0.7`, `smoothWeight = 0.65` and
`tolerance = 1e-7` the interior point alternates between `-3` and `10`, `change` is 13 after
every pass, and no amount of fuel makes `smoother` return. -/
theorem smoother_never_terminates :
    ∃ (path : Path) (wd ws tol : ℚ), 0 < tol ∧ WellFormed 3 1 path ∧
      (∀ n : Nat, tol ≤ (smootherPasses 3 1 path wd ws tol n).2) ∧
      (∀ fuel : Nat, smoother fuel 3 1 path wd ws tol = none) := by
  have hA : smootherPass 3 1 [[0], [10], [0]] (7 / 10) (13 / 20) [[0], [10], [0]]
      = ([[0], [-3], [0]], 13) := by decide!
  have hB : smootherPass 3 1 [[0], [10], [0]] (7 / 10) (13 / 20) [[0], [-3], [0]]
      = ([[0], [10], [0]], 13) := by decide!
  have h0 : smootherPasses 3 1 [[0], [10], [0]] (7 / 10) (13 / 20) (1 / 10000000) 0
      = ([[0], [10], [0]], 1 / 10000000) := by decide!
  have hstate : ∀ n : Nat,
      ((smootherPasses 3 1 [[0], [10], [0]] (7 / 10) (13 / 20) (1 / 10000000) n).1
          = [[0], [10], [0]] ∨
        (smootherPasses 3 1 [[0], [10], [0]] (7 / 10) (13 / 20) (1 / 10000000) n).1
          = [[0], [-3], [0]]) ∧
      1 / 10000000
        ≤ (smootherPasses 3 1 [[0], [10], [0]] (7 / 10) (13 / 20) (1 / 10000000) n).2 := by
    intro n
    induction n with
    | zero => rw [h0]; exact ⟨Or.inl rfl, le_refl _⟩
    | succ n ih =>
      simp only [smootherPasses]
      rcases ih.1 with h | h
      · rw [h, hA]; exact ⟨Or.inr rfl, by norm_num⟩
      · rw [h, hB]; exact ⟨Or.inl rfl, by norm_num⟩
  refine ⟨[[0], [10], [0]], 7 / 10, 13 / 20, 1 / 10000000, by norm_num, by decide,
    fun n => (hstate n).2, ?_⟩
  intro fuel
  exact smootherLoop_none 3 1 [[0], [10], [0]] (7 / 10) (13 / 20) (1 / 10000000)
    (fun t => (hstate t).2) fuel 0

/-! ## The length of the smoothed path -/

/-- C17 fails on the code: on the path `[(0), (5), (5), (5), (5), (5), (5)]` of dimension 1 with
the pipeline weights and tolerance, `smoother` returns after its second pass, in which no
coordinate moved by 1 or more; the path returned rises above 5 at its sixth point, and its
total point-to-point length `2501701/500000` exceeds the length `5` of the input path. -/
theorem smoother_lengthens_path :
    WellFormed 7 1 stepPath ∧
    smoother 3 7 1 stepPath (7 / 10) (3 / 10) (1 / 10000000)
      = some [[0], [763 / 200], [4739 / 1000], [99001 / 20000], [62419 / 12500],
          [5001701 / 1000000], [5]] ∧
    pathLength1 7 stepPath = 5 ∧
    pathLength1 7 [[0], [763 / 200], [4739 / 1000], [99001 / 20000], [62419 / 12500],
        [5001701 / 1000000], [5]] = 2501701 / 500000 ∧
    ¬ (pathLength1 7 [[0], [763 / 200], [4739 / 1000], [99001 / 20000], [62419 / 12500],
        [5001701 / 1000000], [5]] ≤ pathLength1 7 stepPath) := by
  have hin : pathLength1 7 stepPath = 5 := by decide!
  have hout : pathLength1 7 [[0], [763 / 200], [4739 / 1000], [99001 / 20000],
      [62419 / 12500], [5001701 / 1000000], [5]] = 2501701 / 500000 := by decide!
  refine ⟨by decide, by decide!, hin, hout, ?_⟩
  rw [hin, hout]
  norm_num

/-! ## The length after an injection -/

/-- C18, as stated, fails for `numToInject = 0`: the output of `inject` on a path of 2 points
has 2 points, not more than its input. -/
theorem inject_zero_not_longer :
    WellFormed 2 1 [[0], [1]] ∧ (inject 2 1 [[0], [1]] 0).length = 2 ∧
      ¬ (([[0], [1]] : Path).length < (inject 2 1 [[0], [1]] 0).length) := by
  have h : (inject 2 1 [[0], [1]] 0).length = 2 := by decide!
  refine ⟨by decide, h, ?_⟩
  rw [h]
  decide

/-- C18 (amended): for a path of `N ≥ 2` points and any injection count, the output of `inject`
has `N + numToInject * (N - 1)` points, which is at least `N`, and strictly more than `N`
when `numToInject ≥ 1`. -/
theorem inject_length_increases (N D k : Nat) (orig : Path) (hN : 2 ≤ N)
    (hwf : WellFormed N D orig) :
    (inject N D orig k).length = orig.length + k * (orig.length - 1) ∧
      orig.length ≤ (inject N D orig k).length ∧
      (1 ≤ k → orig.length < (inject N D orig k).length) := by
  rw [inject_length N D orig k (by omega), hwf.1]
  refine ⟨rfl, Nat.le_add_right _ _, ?_⟩
  intro hk
  have h1 : 1 * 1 ≤ k * (N - 1) := Nat.mul_le_mul hk (by omega)
  omega

theorem inject_length_increases_witness :
    (2 ≤ 3 ∧ WellFormed 3 2 [[0, 0], [3, 6], [9, 0]]) ∧
      (inject 3 2 [[0, 0], [3, 6], [9, 0]] 2).length
        = ([[0, 0], [3, 6], [9, 0]] : Path).length
          + 2 * (([[0, 0], [3, 6], [9, 0]] : Path).length - 1) ∧
      ([[0, 0], [3, 6], [9, 0]] : Path).length < (inject 3 2 [[0, 0], [3, 6], [9, 0]] 2).length :=
  ⟨⟨by decide, by decide⟩,
    (inject_length_increases 3 2 2 [[0, 0], [3, 6], [9, 0]] (by decide) (by decide)).1,
    (inject_length_increases 3 2 2 [[0, 0], [3, 6], [9, 0]] (by decide) (by decide)).2.2
      (by decide)⟩

/-! ## The exit test with the integer `abs` -/

/-- C19, as stated, fails where a coordinate moves by `2^31` or more: on the path
`[(0), (10000000000), (0)]` with the weights and the tolerance of `smoothPath`, the first pass
moves the interior coordinate by `6000000000`, the conversion to `int` delivers `INT_MIN`,
`change` is `-2147483648`, and the loop exits after that pass although a coordinate changed
by 1 or more. -/
theorem smoother_exit_truncated_counterexample :
    (WellFormed 3 1 [[0], [10000000000], [0]] ∧
      (0 : ℚ) < 1 / 10000000 ∧ (1 : ℚ) / 10000000 ≤ 1) ∧
    (smootherPasses 3 1 [[0], [10000000000], [0]] (7 / 10) (3 / 10) (1 / 10000000) 1).1
      = [[0], [4000000000], [0]] ∧
    (1 ≤ 1 ∧ 1 < 3 - 1 ∧ 0 < 1) ∧
    1 ≤ |rd (smootherPasses 3 1 [[0], [10000000000], [0]] (7 / 10) (3 / 10)
            (1 / 10000000) 0).1 1 0
          - rd (smootherPasses 3 1 [[0], [10000000000], [0]] (7 / 10) (3 / 10)
            (1 / 10000000) 1).1 1 0| ∧
    (smootherPasses 3 1 [[0], [10000000000], [0]] (7 / 10) (3 / 10) (1 / 10000000) 1).2
      = -2147483648 ∧
    smoother 2 3 1 [[0], [10000000000], [0]] (7 / 10) (3 / 10) (1 / 10000000)
      = some [[0], [4000000000], [0]] := by
  refine ⟨⟨by decide, by norm_num, by norm_num⟩, by decide!, by decide, ?_, by decide!,
    by decide!⟩
  have e : rd (smootherPasses 3 1 [[0], [10000000000], [0]] (7 / 10) (3 / 10)
            (1 / 10000000) 0).1 1 0
          - rd (smootherPasses 3 1 [[0], [10000000000], [0]] (7 / 10) (3 / 10)
            (1 / 10000000) 1).1 1 0 = 6000000000 := by decide!
  rw [e]
  norm_num

/-- C19 (amended): the per-entry change goes through the integer `abs` of a 32-bit `int`.  For
a tolerance in `(0, 1]`: after a pass in which every interior coordinate moved by less than
`2^31`, the loop condition fails, and the loop exits, exactly when every interior coordinate
moved by less than 1 in that pass; when every coordinate moved by less than `2^31` in the
passes before pass `m`, each of these passes moved some coordinate by 1 or more, and pass `m`
moved every coordinate by less than 1, the loop exits after pass `m`; and on every path the
result is the same for every tolerance in `(0, 1]`. -/
theorem smoother_exit_truncated (N D : Nat) (path : Path) (wd ws tol : ℚ)
    (hwf : WellFormed N D path) (htol : 0 < tol) (htol1 : tol ≤ 1) :
    (∀ n : Nat,
      (∀ i j, 1 ≤ i → i < N - 1 → j < D →
        |rd (smootherPasses N D path wd ws tol n).1 i j
          - rd (smootherPasses N D path wd ws tol (n + 1)).1 i j| < 2147483648) →
      ((smootherPasses N D path wd ws tol (n + 1)).2 < tol ↔
        ∀ i j, 1 ≤ i → i < N - 1 → j < D →
          |rd (smootherPasses N D path wd ws tol n).1 i j
            - rd (smootherPasses N D path wd ws tol (n + 1)).1 i j| < 1)) ∧
    (∀ m : Nat,
      (∀ n, n < m → ∀ i j, 1 ≤ i → i < N - 1 → j < D →
        |rd (smootherPasses N D path wd ws tol n).1 i j
          - rd (smootherPasses N D path wd ws tol (n + 1)).1 i j| < 2147483648) →
      (∀ n, n < m → ∃ i j, (1 ≤ i ∧ i < N - 1 ∧ j < D) ∧
        1 ≤ |rd (smootherPasses N D path wd ws tol n).1 i j
          - rd (smootherPasses N D path wd ws tol (n + 1)).1 i j|) →
      (∀ i j, 1 ≤ i → i < N - 1 → j < D →
        |rd (smootherPasses N D path wd ws tol m).1 i j
          - rd (smootherPasses N D path wd ws tol (m + 1)).1 i j| < 1) →
      ∀ fuel, m + 2 ≤ fuel →
        smoother fuel N D path wd ws tol
          = some (smootherPasses N D path wd ws tol (m + 1)).1) ∧
    (∀ (tol2 : ℚ), 0 < tol2 → tol2 ≤ 1 → ∀ fuel,
      smoother fuel N D path wd ws tol2 = smoother fuel N D path wd ws tol) := by
  have hexit : ∀ n : Nat,
      (∀ i j, 1 ≤ i → i < N - 1 → j < D →
        |rd (smootherPasses N D path wd ws tol n).1 i j
          - rd (smootherPasses N D path wd ws tol (n + 1)).1 i j| < 2147483648) →
      ((smootherPasses N D path wd ws tol (n + 1)).2 < tol ↔
        ∀ i j, 1 ≤ i → i < N - 1 → j < D →
          |rd (smootherPasses N D path wd ws tol n).1 i j
            - rd (smootherPasses N D path wd ws tol (n + 1)).1 i j| < 1) := by
    intro n hsmall
    obtain ⟨k, hk, hiff⟩ := smootherPasses_change_nat N D path wd ws tol hwf n hsmall
    rw [← hiff, hk]
    constructor
    · intro h
      have h1 : (k : ℚ) < 1 := lt_of_lt_of_le h htol1
      have h2 : k < 1 := by exact_mod_cast h1
      omega
    · intro h
      rw [h]
      exact_mod_cast htol
  have hpair : ∀ (t : ℚ) (n : Nat),
      smootherPasses N D path wd ws t (n + 1) = smootherPasses N D path wd ws tol (n + 1) := by
    intro t n
    induction n with
    | zero => rfl
    | succ n ih =>
      show smootherPass N D path wd ws (smootherPasses N D path wd ws t (n + 1)).1
        = smootherPass N D path wd ws (smootherPasses N D path wd ws tol (n + 1)).1
      rw [ih]
  have hrun : ∀ m : Nat,
      (∀ n, n < m → ∀ i j, 1 ≤ i → i < N - 1 → j < D →
        |rd (smootherPasses N D path wd ws tol n).1 i j
          - rd (smootherPasses N D path wd ws tol (n + 1)).1 i j| < 2147483648) →
      (∀ n, n < m → ∃ i j, (1 ≤ i ∧ i < N - 1 ∧ j < D) ∧
        1 ≤ |rd (smootherPasses N D path wd ws tol n).1 i j
          - rd (smootherPasses N D path wd ws tol (n + 1)).1 i j|) →
      (∀ i j, 1 ≤ i → i < N - 1 → j < D →
        |rd (smootherPasses N D path wd ws tol m).1 i j
          - rd (smootherPasses N D path wd ws tol (m + 1)).1 i j| < 1) →
      ∀ fuel, m + 2 ≤ fuel →
        smoother fuel N D path wd ws tol
          = some (smootherPasses N D path wd ws tol (m + 1)).1 := by
    intro m hsmall hbefore hat fuel hfuel
    have h := smootherLoop_exit N D path wd ws tol (m + 1) 0
      (by
        intro t _ ht
        cases t with
        | zero => exact le_refl _
        | succ n =>
          apply le_of_not_lt
          intro hlt
          obtain ⟨i, j, ⟨h1, h2, h3⟩, hbig⟩ := hbefore n (by omega)
          exact absurd ((hexit n (hsmall n (by omega))).mp hlt i j h1 h2 h3)
            (not_lt.mpr hbig))
      (by
        rw [Nat.zero_add]
        exact (hexit m (fun i j h1 h2 h3 =>
          lt_trans (hat i j h1 h2 h3) (by norm_num))).mpr hat)
      fuel (by omega)
    rw [Nat.zero_add] at h
    exact h
  refine ⟨hexit, hrun, ?_⟩
  intro tol2 h2 h21 fuel
  have hloop : ∀ (f n : Nat),
      smootherLoop N D path wd ws tol2 f (smootherPasses N D path wd ws tol2 (n + 1))
        = smootherLoop N D path wd ws tol f (smootherPasses N D path wd ws tol (n + 1)) := by
    intro f
    induction f with
    | zero => intro n; rfl
    | succ f ih =>
      intro n
      rw [smootherLoop_succ, smootherLoop_succ, ih (n + 1)]
      have hc : (smootherPasses N D path wd ws tol2 (n + 1)).2 ≥ tol2 ↔
          (smootherPasses N D path wd ws tol (n + 1)).2 ≥ tol := by
        rw [smootherPasses_cond N D path wd ws tol2 h2 h21 n,
          smootherPasses_cond N D path wd ws tol htol htol1 n, hpair tol2 n]
      by_cases hcond : (smootherPasses N D path wd ws tol (n + 1)).2 ≥ tol
      · rw [if_pos hcond, if_pos (hc.mpr hcond)]
      · rw [if_neg hcond, if_neg (fun h => hcond (hc.mp h)), hpair tol2 n]
  cases fuel with
  | zero => rfl
  | succ f =>
    have e1 : smoother (f + 1) N D path wd ws tol2
        = smootherLoop N D path wd ws tol2 f (smootherPasses N D path wd ws tol2 1) := by
      show smootherLoop N D path wd ws tol2 (f + 1) (smootherPasses N D path wd ws tol2 0) = _
      rw [smootherLoop_succ]
      exact if_pos (le_refl tol2)
    have e2 : smoother (f + 1) N D path wd ws tol
        = smootherLoop N D path wd ws tol f (smootherPasses N D path wd ws tol 1) := by
      show smootherLoop N D path wd ws tol (f + 1) (smootherPasses N D path wd ws tol 0) = _
      rw [smootherLoop_succ]
      exact if_pos (le_refl tol)
    rw [e1, e2]
    exact hloop f 0

theorem smoother_exit_truncated_witness :
    (WellFormed 3 1 [[0], [5], [0]] ∧ (0 : ℚ) < 1 / 10000000 ∧ (1 : ℚ) / 10000000 ≤ 1) ∧
    smoother 3 3 1 [[0], [5], [0]] (7 / 10) (3 / 10) 1
      = smoother 3 3 1 [[0], [5], [0]] (7 / 10) (3 / 10) (1 / 10000000) ∧
    smoother 3 3 1 [[0], [5], [0]] (7 / 10) (3 / 10) 1 = some [[0], [29 / 10], [0]] :=
  ⟨⟨by decide, by norm_num, by norm_num⟩,
    (smoother_exit_truncated 3 1 [[0], [5], [0]] (7 / 10) (3 / 10) (1 / 10000000)
      (by decide) (by norm_num) (by norm_num)).2.2 1 (by norm_num) (by norm_num) 3,
    by decide!⟩

/-! ## The running point count of `smoothPath` -/

end PathPlanner
